import Mathlib

/-!
Verification of the lemmatize-comparison tool (`src/main.py`).

Strings are modelled as `List Char`.  Python's Unicode character
classes (`str.isalpha`, `str.isdigit`, regex `\d`, regex `\s`, ...) and
`str.lower` are not reproduced in Lean; they are abstracted as a
`CharClasses` parameter, constrained only where a proof needs a
documented fact about them (`CharClasses.Sane`).  Unicode NFKC
normalization (`unicodedata.normalize("NFKC", ...)`) is likewise an
explicit function parameter.  The spaCy tokenizer/lemmatizer is the
external collaborator of the design and enters as a function from text
to a token list carrying the attribute contract used by the code
(`is_punct`, `is_space`, `like_num`, surface text, lemma).
-/

namespace LemmatizeComp

/-- Strings of the Python program, as lists of characters. -/
abbrev Str := List Char

/-- Abstraction of the Python/Unicode character classes used by `main.py`:
`str.isalpha`, `str.isdigit`, `str.isdecimal`, `str.isnumeric`,
regex `\d`, regex `\s`, and `str.lower` (which maps a string to a string). -/
structure CharClasses where
  isalpha : Char → Bool
  isdigit : Char → Bool
  isdecimal : Char → Bool
  isnumeric : Char → Bool
  redigit : Char → Bool
  respace : Char → Bool
  lower : Str → Str

/-- Python `str.isalnum` for a single character: alphabetic, decimal,
digit or numeric. -/
def pyIsAlnum (CC : CharClasses) (c : Char) : Bool :=
  CC.isalpha c || CC.isdecimal c || CC.isdigit c || CC.isnumeric c

/-- Bracket characters of the character class `[\[\]\(\){}]` and of the
string `"()[]{}"` in `_skip_reason_for_lemma`. -/
def isBracketChar (c : Char) : Bool :=
  c = '[' || c = ']' || c = '(' || c = ')' || c = '\x7b' || c = '\x7d'

/-- ASCII letters, the regex class `[A-Za-z]`. -/
def isAsciiLetter (c : Char) : Bool :=
  ('A' ≤ c && c ≤ 'Z') || ('a' ≤ c && c ≤ 'z')

/-- Membership of a character in `_CJK_RE`, the regex
`[぀-ゟ゠-ヿ㐀-䶿一-鿿豈-﫿]`. -/
def isCJKChar (c : Char) : Bool :=
  (0x3040 ≤ c.val && c.val ≤ 0x309F) ||
  (0x30A0 ≤ c.val && c.val ≤ 0x30FF) ||
  (0x3400 ≤ c.val && c.val ≤ 0x4DBF) ||
  (0x4E00 ≤ c.val && c.val ≤ 0x9FFF) ||
  (0xF900 ≤ c.val && c.val ≤ 0xFAFF)

/-- `_contains_cjk`: `_CJK_RE.search` finds some character of the class. -/
def contains_cjk (s : Str) : Bool :=
  s.any isCJKChar

/-- Characters of the CJK detection ranges other than the katakana
middle dot `・`, the single CJK-range character the normalizer
rewrites. -/
def cjkKeep (c : Char) : Bool :=
  isCJKChar c && !(c = '・')

/-- `_CURRENCY_AMOUNT_RE.match`: the regex `^(?:[$£€])\d` matches at the
start of the string. -/
def currency_amount_match (CC : CharClasses) (s : Str) : Bool :=
  match s with
  | c0 :: c1 :: _ => (c0 = '$' || c0 = '£' || c0 = '€') && CC.redigit c1
  | _ => false

/-- A `collections.Counter` (or plain dict) with insertion order, as an
association list from keys to counts. -/
abbrev Counter (α : Type) := List (α × Nat)

/-- Dictionary lookup: the value at the first matching key, if any. -/
def clookup [DecidableEq α] (c : Counter α) (k : α) : Option Nat :=
  (c.find? (fun p => p.1 = k)).map (fun p => p.2)

/-- Python `k in d` for a dict/Counter. -/
def chasKey [DecidableEq α] (c : Counter α) (k : α) : Bool :=
  (clookup c k).isSome

/-- Dictionary assignment `d[k] = v`: overwrite an existing key in place,
otherwise append at the end (insertion order). -/
def cset [DecidableEq α] (c : Counter α) (k : α) (v : Nat) : Counter α :=
  if chasKey c k then
    c.map (fun p => if p.1 = k then (p.1, v) else p)
  else
    c ++ [(k, v)]

/-- Counter increment `cnt[k] += 1` (a missing key counts from 0). -/
def cincr [DecidableEq α] (c : Counter α) (k : α) : Counter α :=
  if chasKey c k then
    c.map (fun p => if p.1 = k then (p.1, p.2 + 1) else p)
  else
    c ++ [(k, 1)]

/-- `Counter(words)`: count a list of items, keys in first-seen order. -/
def counterOf [DecidableEq α] (ws : List α) : Counter α :=
  ws.foldl cincr []

/-- A spaCy token restricted to the attribute contract the code reads:
surface text, lemma, and the three boolean flags. -/
structure Token where
  text : Str
  lemma_raw : Str
  is_punct : Bool
  is_space : Bool
  like_num : Bool
deriving DecidableEq

/-- Python `s.isdigit()` on a whole string: nonempty and all digits. -/
def pyStrIsDigit (CC : CharClasses) (s : Str) : Bool :=
  !s.isEmpty && s.all CC.isdigit

/-- `_skip_reason_for_lemma`, mirroring the source branch for branch
(reasons as strings). -/
def skip_reason_for_lemma (CC : CharClasses) (lemma_s : Str) : Option Str :=
  if lemma_s.isEmpty then some "empty".toList
  else if contains_cjk lemma_s then some "contains_cjk".toList
  else if lemma_s.contains '.' then some "contains_dot".toList
  else if lemma_s.contains ':' then some "contains_colon".toList
  else if ['(', ')', '[', ']', '\x7b', '\x7d'].any (fun ch => lemma_s.contains ch) then
    some "contains_brackets".toList
  else if currency_amount_match CC lemma_s then some "currency_amount".toList
  else if lemma_s.length = 1 && lemma_s ≠ ['a'] then some "single_letter".toList
  else if !(lemma_s.any (fun c => CC.isalpha c || CC.isdigit c)) then
    some "no_alnum".toList
  else none

/-- Per-token outcome of the filter in `extract_lemmas`: dropped with no
record, skipped with a recorded (lemma, reason), or counted. -/
inductive Outcome where
  | dropped : Outcome
  | skipped : Str → Str → Outcome
  | counted : Str → Outcome
deriving DecidableEq

/-- Classification of one token by the body of the `extract_lemmas` loop,
in source order: punctuation/whitespace drop, numeric drop, lowercase the
lemma, CJK check on surface or lemma, `_skip_reason_for_lemma`, and the
final defensive silent drop. -/
def tokenOutcome (CC : CharClasses) (tok : Token) : Outcome :=
  if tok.is_punct || tok.is_space then .dropped
  else if tok.like_num || pyStrIsDigit CC tok.text then .dropped
  else if contains_cjk tok.text || contains_cjk (CC.lower tok.lemma_raw) then
    .skipped (CC.lower tok.lemma_raw) "contains_cjk".toList
  else
    match skip_reason_for_lemma CC (CC.lower tok.lemma_raw) with
    | some r => .skipped (CC.lower tok.lemma_raw) r
    | none =>
      if (CC.lower tok.lemma_raw).isEmpty ||
          !((CC.lower tok.lemma_raw).any (pyIsAlnum CC)) then .dropped
      else .counted (CC.lower tok.lemma_raw)

/-- The loop of `extract_lemmas`: accumulate counted lemmas (in order)
and the skip Counter keyed by (surface, lemma, reason). -/
def extractGo (CC : CharClasses) :
    List Token → List Str → Counter (Str × Str × Str) →
    List Str × Counter (Str × Str × Str)
  | [], words, skipped => (words, skipped)
  | tok :: rest, words, skipped =>
    match tokenOutcome CC tok with
    | .dropped => extractGo CC rest words skipped
    | .skipped lem r => extractGo CC rest words (cincr skipped (tok.text, lem, r))
    | .counted lem => extractGo CC rest (words ++ [lem]) skipped

/-- `extract_lemmas`: run the filter over the token list the NLP
collaborator produced, then build `Counter(words)` plus the skip table. -/
def extract_lemmas (CC : CharClasses) (tokens : List Token) :
    Counter Str × Counter (Str × Str × Str) :=
  let ws := extractGo CC tokens [] []
  (counterOf ws.1, ws.2)

/-- `find_difference`: keep the entries of the target Counter whose key
is absent from the reference Counter. -/
def find_difference (target_counter ref_counter : Counter Str) : Counter Str :=
  target_counter.foldl
    (fun diff p => if !chasKey ref_counter p.1 then cset diff p.1 p.2 else diff)
    []

/-- Stable insertion (descending by count): the new pair goes after every
pair of at least its count. -/
def insertDesc (p : α × Nat) : List (α × Nat) → List (α × Nat)
  | [] => [p]
  | q :: rest => if p.2 ≤ q.2 then q :: insertDesc p rest else p :: q :: rest

/-- `Counter.most_common()`: the entries sorted by count descending;
Python's sort is stable, so ties keep first-seen order.  Modelled as a
stable insertion sort. -/
def most_common (c : Counter α) : List (α × Nat) :=
  c.foldl (fun acc p => insertDesc p acc) []

/-- Decimal digits of a count, as written by `csv.writer`. -/
def natCell (n : Nat) : Str :=
  Nat.toDigits 10 n

/-- Rows written by `save_to_csv`: the header `word,frequency` and one
row per entry of `most_common`. -/
def save_to_csv_rows (counter : Counter Str) : List (List Str) :=
  ["word".toList, "frequency".toList] ::
    (most_common counter).map (fun p => [p.1, natCell p.2])

/-- Rows written by `save_skipped_to_csv`: the header
`token,lemma,reason,frequency` and one row per entry of `most_common`. -/
def save_skipped_to_csv_rows (skipped : Counter (Str × Str × Str)) :
    List (List Str) :=
  ["token".toList, "lemma".toList, "reason".toList, "frequency".toList] ::
    (most_common skipped).map (fun p => [p.1.1, p.1.2.1, p.1.2.2, natCell p.2])

/-- Python `s.replace(a, r)` for a one-character pattern `a`. -/
def replaceChar (a : Char) (r : Str) (s : Str) : Str :=
  s.flatMap (fun c => if c = a then r else [c])

/-- The `str.maketrans` table replacing bullets, arrows, stars and the
reference mark with a space. -/
def bulletTable (c : Char) : Option Str :=
  if c = '・' || c = '→' || c = '⇒' || c = '★' || c = '☆' || c = '※' then
    some [' ']
  else none

/-- Python `s.translate(table)`: map each character through the table,
keeping characters the table does not mention. -/
def pyTranslate (table : Char → Option Str) (s : Str) : Str :=
  s.flatMap (fun c => (table c).getD [c])

/-- The regex step `([\[\]\(\){}]) → " \1 "`: a space on each side of
every bracket character. -/
def spaceBrackets (s : Str) : Str :=
  s.flatMap (fun c => if isBracketChar c then [' ', c, ' '] else [c])

/-- Whether a character is matched by the literal class `[ \t]`. -/
def isSpaceTab (c : Char) : Bool :=
  c = ' ' || c = '\t'

/-- Whether a character is a literal space. -/
def isSp (c : Char) : Bool :=
  c = ' '

/-- The regex step `(\d)\.(?=[A-Za-z]) → "\1. "` under `re.sub`
semantics: scan left to right; a match consumes the digit and the
period (the letter is a lookahead), and scanning resumes at the
letter. -/
def dotAfterDigit (CC : CharClasses) : Str → Str
  | c1 :: c2 :: c3 :: rest =>
    if CC.redigit c1 && c2 = '.' && isAsciiLetter c3 then
      c1 :: '.' :: ' ' :: dotAfterDigit CC (c3 :: rest)
    else
      c1 :: dotAfterDigit CC (c2 :: c3 :: rest)
  | s => s

/-- The scanning loop of the regex step `(^|\s)\.(?=[A-Za-z]) → "\1. "`
at positions past the start: the alternative `\s` consumes one
whitespace character and the period, and scanning resumes at the
letter. -/
def dotAfterSpaceGo (CC : CharClasses) : Str → Str
  | c1 :: c2 :: c3 :: rest =>
    if CC.respace c1 && c2 = '.' && isAsciiLetter c3 then
      c1 :: '.' :: ' ' :: dotAfterSpaceGo CC (c3 :: rest)
    else
      c1 :: dotAfterSpaceGo CC (c2 :: c3 :: rest)
  | s => s

/-- The regex step `(^|\s)\.(?=[A-Za-z]) → "\1. "`: without
`re.MULTILINE` the `^` alternative matches only at the start of the
string (an empty group), and the rest of the string is scanned by
`dotAfterSpaceGo`. -/
def dotAfterSpace (CC : CharClasses) (s : Str) : Str :=
  match s with
  | '.' :: a :: rest =>
    if isAsciiLetter a then '.' :: ' ' :: dotAfterSpaceGo CC (a :: rest)
    else dotAfterSpaceGo CC s
  | _ => dotAfterSpaceGo CC s

/-- The regex step `[ \t]+ → " "`: each maximal run of spaces and tabs
becomes a single space. -/
def collapseSpaces : Str → Str
  | [] => []
  | c :: rest =>
    if isSpaceTab c then ' ' :: collapseSpaces (rest.dropWhile isSpaceTab)
    else c :: collapseSpaces rest
termination_by s => s.length
decreasing_by
  · simp only [List.length_cons]
    exact Nat.lt_succ_of_le ((List.dropWhile_sublist _).length_le)
  · simp

/-- The regex step ` *\n* → "\n"` written in the source as
`re.sub(r" *\n *", "\n", s)`: a match at a position is a (possibly
empty) run of spaces that reaches a newline, the newline, and the
following run of spaces; the whole match becomes a single newline. -/
def collapseNl : Str → Str
  | [] => []
  | c :: rest =>
    if h : ((c :: rest).dropWhile isSp).head? = some '\n' then
      '\n' :: collapseNl ((((c :: rest).dropWhile isSp).tail).dropWhile isSp)
    else
      c :: collapseNl rest
termination_by s => s.length
decreasing_by
  · have h1 : ((c :: rest).dropWhile isSp).length ≤ (c :: rest).length :=
      (List.dropWhile_sublist _).length_le
    have h2 : ((c :: rest).dropWhile isSp) ≠ [] := by
      intro he
      rw [he] at h
      exact Option.noConfusion h
    have h3 : (((c :: rest).dropWhile isSp).tail).length <
        ((c :: rest).dropWhile isSp).length := by
      cases hd : (c :: rest).dropWhile isSp with
      | nil => exact absurd hd h2
      | cons x xs => simp [hd]
    calc (((((c :: rest).dropWhile isSp).tail).dropWhile isSp)).length
        ≤ (((c :: rest).dropWhile isSp).tail).length := (List.dropWhile_sublist _).length_le
      _ < ((c :: rest).dropWhile isSp).length := h3
      _ ≤ (c :: rest).length := h1
  · simp

/-- The steps of `normalize_text` after the NFKC call, in source order:
fullwidth punctuation replacement, the bullet translation table, wave
dashes, bracket spacing, the two period-spacing regexes, and the two
whitespace collapses. -/
def postNfkc (CC : CharClasses) (s : Str) : Str :=
  let normalized := replaceChar '、' (", ".toList) s
  let normalized := replaceChar '，' (", ".toList) normalized
  let normalized := replaceChar '。' (". ".toList) normalized
  let normalized := replaceChar '．' (". ".toList) normalized
  let normalized := pyTranslate bulletTable normalized
  let normalized := replaceChar '～' ("~".toList) normalized
  let normalized := replaceChar '〜' ("~".toList) normalized
  let normalized := spaceBrackets normalized
  let normalized := dotAfterDigit CC normalized
  let normalized := dotAfterSpace CC normalized
  let normalized := collapseSpaces normalized
  collapseNl normalized

/-- `normalize_text`: NFKC normalization (the external `unicodedata`
call, a parameter here) followed by the tool's own rewriting steps. -/
def normalize_text (nfkc : Str → Str) (CC : CharClasses) (text : Str) : Str :=
  postNfkc CC (nfkc text)

/-! Auxiliary notions for the idempotence proof of the normalizer. -/

/-- The characters rewritten by the character-for-character steps of
the normalizer (fullwidth punctuation, bullets, wave dashes). -/
def isSpecialChar (c : Char) : Bool :=
  c = '、' || c = '，' || c = '。' || c = '．' || c = '・' || c = '→' ||
  c = '⇒' || c = '★' || c = '☆' || c = '※' || c = '～' || c = '〜'

/-- The combined effect of the seven character-for-character steps on
one character. -/
def charStep (c : Char) : Str :=
  if c = '、' || c = '，' then [',', ' ']
  else if c = '。' || c = '．' then ['.', ' ']
  else if c = '・' || c = '→' || c = '⇒' || c = '★' || c = '☆' || c = '※' then [' ']
  else if c = '～' || c = '〜' then ['~']
  else [c]

/-- The seven character-for-character steps of the normalizer, chained
in source order. -/
def charPhase (s : Str) : Str :=
  replaceChar '〜' ("~".toList)
    (replaceChar '～' ("~".toList)
      (pyTranslate bulletTable
        (replaceChar '．' (". ".toList)
          (replaceChar '。' (". ".toList)
            (replaceChar '，' (", ".toList)
              (replaceChar '、' (", ".toList) s))))))

/-- No character of the string is rewritten by the
character-for-character steps. -/
def specialFree (s : Str) : Bool :=
  s.all (fun c => !isSpecialChar c)

/-- No tab character remains. -/
def noTab (s : Str) : Bool :=
  s.all (fun c => !(c = '\t'))

/-- No adjacent pair of characters matches the two-place predicate. -/
def noMatch2 (p : Char → Char → Bool) : Str → Bool
  | a :: b :: r => !p a b && noMatch2 p (b :: r)
  | _ => true

/-- No adjacent triple of characters matches the three-place
predicate. -/
def noMatch3 (p : Char → Char → Char → Bool) : Str → Bool
  | a :: b :: c :: r => !p a b c && noMatch3 p (b :: c :: r)
  | _ => true

/-- The match condition of the `(\d)\.(?=[A-Za-z])` scan. -/
def dadCond (CC : CharClasses) (a b c : Char) : Bool :=
  CC.redigit a && b = '.' && isAsciiLetter c

/-- The match condition of the `\s\.(?=[A-Za-z])` scan. -/
def dasCond (CC : CharClasses) (a b c : Char) : Bool :=
  CC.respace a && b = '.' && isAsciiLetter c

/-- The string starts with a period directly followed by an ASCII
letter (the `^` case of the second period regex). -/
def startDotLetter : Str → Bool
  | '.' :: a :: _ => isAsciiLetter a
  | _ => false

/-- Two adjacent spaces. -/
def pSS (a b : Char) : Bool :=
  a = ' ' && b = ' '

/-- A space directly next to a newline, on either side. -/
def pSnl (a b : Char) : Bool :=
  (a = ' ' && b = '\n') || (a = '\n' && b = ' ')

/-- A bracket whose following character is not a space or newline. -/
def pBrR (a b : Char) : Bool :=
  isBracketChar a && !(b = ' ' || b = '\n')

/-- A bracket whose preceding character is not a space or newline. -/
def pBrL (a b : Char) : Bool :=
  isBracketChar b && !(a = ' ' || a = '\n')

/-- The last character, if any, is not a bracket. -/
def lastNotBracket (s : Str) : Bool :=
  match s.getLast? with
  | some c => !isBracketChar c
  | none => true

/-- The first character, if any, is not a bracket. -/
def headNotBracket (s : Str) : Bool :=
  match s.head? with
  | some c => !isBracketChar c
  | none => true

/-- Lookahead form of the `[ \t]+` collapse: keep only the last
space/tab of each run, as a single space.  Proved equal to
`collapseSpaces`. -/
def cs2 : Str → Str
  | [] => []
  | [c] => if isSpaceTab c then [' '] else [c]
  | c :: d :: rest =>
    if isSpaceTab c then
      if isSpaceTab d then cs2 (d :: rest) else ' ' :: cs2 (d :: rest)
    else c :: cs2 (d :: rest)

/-- The space the bracket-spacing step leaves between a newline and an
adjacent bracket (in either order) after the space collapse. -/
def padBetween (a b : Char) : Str :=
  if (a = '\n' && isBracketChar b) || (isBracketChar a && b = '\n') then [' ']
  else []

/-- A string with `padBetween` spaces inserted at every adjacent pair:
the value of collapsing the spaces of the bracket-spaced string, for
already-normalized input. -/
def nlpad : Str → Str
  | [] => []
  | [c] => [c]
  | a :: b :: r => a :: (padBetween a b ++ nlpad (b :: r))

/-- The adjacency invariants of a normalizer output used in the
idempotence proof: no tabs, no double spaces, no space touching a
newline, every bracket buffered by a space or newline on both sides
and not at either end, no remaining match of either period scan, and
no leading period-letter pair. -/
def Normalized (CC : CharClasses) (t : Str) : Prop :=
  specialFree t = true ∧
  noTab t = true ∧
  noMatch2 pSS t = true ∧
  noMatch2 pSnl t = true ∧
  noMatch2 pBrR t = true ∧
  noMatch2 pBrL t = true ∧
  lastNotBracket t = true ∧
  headNotBracket t = true ∧
  noMatch3 (dadCond CC) t = true ∧
  noMatch3 (dasCond CC) t = true ∧
  startDotLetter t = false

/-- The subset of the `Normalized` invariants that drives the
bracket-spacing/space-collapse engine argument: the character-class
independent adjacency facts. -/
def EngInv (t : Str) : Prop :=
  noTab t = true ∧
  noMatch2 pSS t = true ∧
  noMatch2 pSnl t = true ∧
  noMatch2 pBrR t = true ∧
  noMatch2 pBrL t = true ∧
  lastNotBracket t = true ∧
  headNotBracket t = true

/-- A concrete `CharClasses` instance restricted to ASCII behaviour,
used to instantiate theorems on concrete inputs. -/
def asciiCC : CharClasses where
  isalpha := Char.isAlpha
  isdigit := Char.isDigit
  isdecimal := Char.isDigit
  isnumeric := Char.isDigit
  redigit := Char.isDigit
  respace := fun c => c = ' ' || c = '\t' || c = '\n' || c = '\r' || c = '\x0b' || c = '\x0c'
  lower := fun s => s.map Char.toLower

/-- Documented facts about the Python character classes that proofs
rely on: space, tab and newline match `\s`, and the classes `\s` and
`\d` contain no period, no ASCII letter and no bracket, and are
disjoint. -/
def CharClasses.Sane (CC : CharClasses) : Prop :=
  CC.respace ' ' = true ∧ CC.respace '\t' = true ∧ CC.respace '\n' = true ∧
  (∀ c, CC.respace c = true →
    c ≠ '.' ∧ isAsciiLetter c = false ∧ isBracketChar c = false) ∧
  (∀ c, CC.redigit c = true →
    c ≠ '.' ∧ isAsciiLetter c = false ∧ isBracketChar c = false ∧
    CC.respace c = false)

/-- The counted lemmas of a token list, read off the per-token
classification in order. -/
def countedOf (CC : CharClasses) (tokens : List Token) : List Str :=
  tokens.filterMap (fun tok =>
    match tokenOutcome CC tok with
    | .counted lem => some lem
    | _ => none)

/-- The recorded (surface, lemma, reason) skip triples of a token list,
read off the per-token classification in order. -/
def skippedTriplesOf (CC : CharClasses) (tokens : List Token) :
    List (Str × Str × Str) :=
  tokens.filterMap (fun tok =>
    match tokenOutcome CC tok with
    | .skipped lem r => some (tok.text, lem, r)
    | _ => none)

/-- Whether a token is dropped by the first two filter steps (the
punctuation/whitespace drop and the numeric drop), before any skip
reason is considered. -/
def preFilterDropped (CC : CharClasses) (tok : Token) : Bool :=
  tok.is_punct || tok.is_space || tok.like_num || pyStrIsDigit CC tok.text

/-- Specification view of §4.3: the skip rules as an ordered table of
(reason, predicate on surface and lowercased lemma), in the fixed
priority order CJK (surface or lemma), empty, dot, colon, brackets,
currency, single letter, no alphanumeric.  This definition follows the
spec text and is compared against the code's branch chain. -/
def specSkipRules (CC : CharClasses) : List (Str × (Str → Str → Bool)) :=
  [("contains_cjk".toList, fun surface lem => contains_cjk surface || contains_cjk lem),
   ("empty".toList, fun _ lem => lem.isEmpty),
   ("contains_dot".toList, fun _ lem => lem.contains '.'),
   ("contains_colon".toList, fun _ lem => lem.contains ':'),
   ("contains_brackets".toList, fun _ lem => lem.any isBracketChar),
   ("currency_amount".toList, fun _ lem => currency_amount_match CC lem),
   ("single_letter".toList, fun _ lem => lem.length = 1 && lem ≠ ['a']),
   ("no_alnum".toList, fun _ lem => !(lem.any (fun c => CC.isalpha c || CC.isdigit c)))]

/-- Specification view of §4.3: the first matching rule of the ordered
table, if any. -/
def specFirstMatch (CC : CharClasses) (surface lem : Str) : Option Str :=
  ((specSkipRules CC).find? (fun rule => rule.2 surface lem)).map (fun rule => rule.1)

/-- The environment a run of `main` interacts with: whether the spaCy
model loads, the tokenizer, the two input files (`none` = unreadable),
and which output writes succeed. -/
structure Env where
  modelLoadOk : Bool
  nlp : Str → List Token
  targetRead : Option Str
  refRead : Option Str
  writeOk : Str → Bool

/-- The observable result of a run: the output files actually written,
as (name, rows) in write order, and whether the run completed without
an unhandled error. -/
structure RunResult where
  written : List (Str × List (List Str))
  ok : Bool
deriving DecidableEq

/-- The five output file names, in the order `main` writes them. -/
def outputFileNames : List Str :=
  ["target_lemmatized.csv".toList,
   "reference_lemmatized.csv".toList,
   "target_skipped.csv".toList,
   "reference_skipped.csv".toList,
   "not_in_reference.csv".toList]

/-- Attempt a sequence of file writes in order, stopping at the first
failure (an unhandled `OSError` aborts the run). -/
def writeSeq (env : Env) : List (Str × List (List Str)) → RunResult
  | [] => ⟨[], true⟩
  | (n, rows) :: rest =>
    if env.writeOk n then
      let r := writeSeq env rest
      ⟨(n, rows) :: r.written, r.ok⟩
    else ⟨[], false⟩

/-- `main`: load the model, load and normalize both inputs, extract
both lemma tables, then write the five CSVs in source order
(`target_lemmatized`, `reference_lemmatized`, `target_skipped`,
`reference_skipped`, then the difference `not_in_reference`).  Any
failure before the first write aborts with nothing written; a failing
write aborts the remaining writes. -/
def mainModel (CC : CharClasses) (nfkc : Str → Str) (env : Env) : RunResult :=
  if !env.modelLoadOk then ⟨[], false⟩ else
  match env.targetRead with
  | none => ⟨[], false⟩
  | some targetRaw =>
    match env.refRead with
    | none => ⟨[], false⟩
    | some refRaw =>
      let target_text := normalize_text nfkc CC targetRaw
      let targetPair := extract_lemmas CC (env.nlp target_text)
      let ref_text := normalize_text nfkc CC refRaw
      let refPair := extract_lemmas CC (env.nlp ref_text)
      let diff_counter := find_difference targetPair.1 refPair.1
      writeSeq env [
        ("target_lemmatized.csv".toList, save_to_csv_rows targetPair.1),
        ("reference_lemmatized.csv".toList, save_to_csv_rows refPair.1),
        ("target_skipped.csv".toList, save_skipped_to_csv_rows targetPair.2),
        ("reference_skipped.csv".toList, save_skipped_to_csv_rows refPair.2),
        ("not_in_reference.csv".toList, save_to_csv_rows diff_counter)]

/-- An environment in which everything succeeds (empty input files, a
tokenizer returning no tokens). -/
def envAllOk : Env where
  modelLoadOk := true
  nlp := fun _ => []
  targetRead := some []
  refRead := some []
  writeOk := fun _ => true

/-- An environment in which the first output write succeeds and the
second fails (for instance, the disk fills up mid-run). -/
def envPartial : Env where
  modelLoadOk := true
  nlp := fun _ => []
  targetRead := some []
  refRead := some []
  writeOk := fun n => !(n = "reference_lemmatized.csv".toList)

/-- The standard tokenization of the spec's example target text
`"I saw 3 cats. I saw 3 dogs."` with a lemmatizer mapping saw to see,
cats to cat and dogs to dog: periods flagged as punctuation, the digit
tokens flagged as number-like. -/
def exampleTargetTokens : List Token :=
  [⟨"I".toList, "I".toList, false, false, false⟩,
   ⟨"saw".toList, "see".toList, false, false, false⟩,
   ⟨"3".toList, "3".toList, false, false, true⟩,
   ⟨"cats".toList, "cat".toList, false, false, false⟩,
   ⟨".".toList, ".".toList, true, false, false⟩,
   ⟨"I".toList, "I".toList, false, false, false⟩,
   ⟨"saw".toList, "see".toList, false, false, false⟩,
   ⟨"3".toList, "3".toList, false, false, true⟩,
   ⟨"dogs".toList, "dog".toList, false, false, false⟩,
   ⟨".".toList, ".".toList, true, false, false⟩]

/-! ## Counter lemmas -/

@[simp]
theorem clookup_nil [DecidableEq α] (k : α) : clookup ([] : Counter α) k = none :=
  rfl

@[simp]
theorem clookup_cons [DecidableEq α] (p : α × Nat) (c : Counter α) (k : α) :
    clookup (p :: c) k = if p.1 = k then some p.2 else clookup c k := by
  simp only [clookup, List.find?_cons]
  by_cases h : p.1 = k <;> simp [h]

@[simp]
theorem chasKey_nil [DecidableEq α] (k : α) : chasKey ([] : Counter α) k = false :=
  rfl

@[simp]
theorem chasKey_cons [DecidableEq α] (p : α × Nat) (c : Counter α) (k : α) :
    chasKey (p :: c) k = (decide (p.1 = k) || chasKey c k) := by
  by_cases h : p.1 = k <;> simp [chasKey, clookup_cons, h]

theorem chasKey_iff [DecidableEq α] (c : Counter α) (k : α) :
    chasKey c k = true ↔ k ∈ c.map Prod.fst := by
  induction c with
  | nil => simp
  | cons p rest ih =>
    by_cases h : p.1 = k
    · simp [h]
    · have h' : ¬k = p.1 := fun hh => h hh.symm
      simp [h, h', ih]

theorem chasKey_eq_false [DecidableEq α] (c : Counter α) (k : α) :
    chasKey c k = false ↔ k ∉ c.map Prod.fst := by
  rw [← chasKey_iff]
  cases chasKey c k <;> simp

theorem clookup_eq_none_of_not_mem [DecidableEq α] (c : Counter α) (k : α)
    (h : k ∉ c.map Prod.fst) : clookup c k = none := by
  induction c with
  | nil => rfl
  | cons p rest ih =>
    simp only [List.map_cons, List.mem_cons] at h
    push_neg at h
    simp [Ne.symm h.1, ih h.2]

theorem cset_of_not_hasKey [DecidableEq α] (c : Counter α) (k : α) (v : Nat)
    (h : chasKey c k = false) : cset c k v = c ++ [(k, v)] := by
  simp [cset, h]

/-! ## C2: find_difference -/

theorem find_difference_foldl (r : Counter Str) :
    ∀ (t acc : Counter Str), ((acc ++ t).map Prod.fst).Nodup →
      t.foldl (fun diff p => if !chasKey r p.1 then cset diff p.1 p.2 else diff) acc
        = acc ++ t.filter (fun p => !chasKey r p.1) := by
  intro t
  induction t with
  | nil => intro acc _; simp
  | cons p rest ih =>
    intro acc hnd
    rw [List.foldl_cons]
    by_cases hk : chasKey r p.1
    · have hstep : (if !chasKey r p.1 then cset acc p.1 p.2 else acc) = acc := by
        simp [hk]
      rw [hstep]
      have hsub : ((acc ++ rest).map Prod.fst).Nodup := by
        refine List.Nodup.sublist (List.Sublist.map Prod.fst ?_) hnd
        exact (List.sublist_cons_self p rest).append_left acc
      rw [ih acc hsub]
      simp [List.filter_cons, hk]
    · have hk' : chasKey r p.1 = false := by cases h : chasKey r p.1 <;> simp_all
      have hmem : p.1 ∉ acc.map Prod.fst := by
        have := hnd
        simp only [List.map_append, List.map_cons, List.nodup_append] at this
        intro hc
        exact this.2.2 hc (by simp)
      have hacc : chasKey acc p.1 = false := (chasKey_eq_false acc p.1).2 hmem
      have hstep : (if !chasKey r p.1 then cset acc p.1 p.2 else acc)
          = acc ++ [(p.1, p.2)] := by
        simp [hk', cset_of_not_hasKey acc p.1 p.2 hacc]
      rw [hstep]
      have heq : acc ++ [(p.1, p.2)] ++ rest = acc ++ p :: rest := by simp
      have hnd2 : ((acc ++ [(p.1, p.2)] ++ rest).map Prod.fst).Nodup := by
        rw [heq]; exact hnd
      rw [ih (acc ++ [(p.1, p.2)]) hnd2]
      simp [List.filter_cons, hk']

theorem find_difference_eq_filter (t r : Counter Str)
    (ht : (t.map Prod.fst).Nodup) :
    find_difference t r = t.filter (fun p => !chasKey r p.1) := by
  have := find_difference_foldl r t [] (by simpa using ht)
  simpa [find_difference] using this

theorem chasKey_filter_false (q : Str × Nat → Bool) (c : Counter Str) (w : Str)
    (h : chasKey c w = false) : chasKey (c.filter q) w = false := by
  rw [chasKey_eq_false] at h ⊢
  intro hmem
  apply h
  rcases List.mem_map.1 hmem with ⟨p, hp, hw⟩
  exact List.mem_map.2 ⟨p, (List.mem_filter.1 hp).1, hw⟩

theorem clookup_filter_not_ref (r : Counter Str) (t : Counter Str) (w : Str)
    (hrw : chasKey r w = false) :
    clookup (t.filter (fun p => !chasKey r p.1)) w = clookup t w := by
  induction t with
  | nil => rfl
  | cons p rest ih =>
    by_cases hw : p.1 = w
    · have hq : chasKey r p.1 = false := by rw [hw]; exact hrw
      rw [List.filter_cons, if_pos (by simp [hq])]
      simp [hw]
    · by_cases hq : chasKey r p.1
      · rw [List.filter_cons, if_neg (by simp [hq])]
        rw [ih, clookup_cons, if_neg hw]
      · have hq' : chasKey r p.1 = false := by cases h : chasKey r p.1 <;> simp_all
        rw [List.filter_cons, if_pos (by simp [hq'])]
        rw [clookup_cons, if_neg hw, clookup_cons, if_neg hw, ih]

/-- C2: a lemma is a key of `find_difference target reference` exactly
when it is a key of `target` and not of `reference`, and in that case
the diff keeps the target-side count; the reference-side counts are
never consulted. -/
theorem find_difference_presence_diff (t r : Counter Str) (w : Str)
    (ht : (t.map Prod.fst).Nodup) :
    chasKey (find_difference t r) w = (chasKey t w && !chasKey r w) ∧
    (chasKey t w = true → chasKey r w = false →
      clookup (find_difference t r) w = clookup t w) := by
  rw [find_difference_eq_filter t r ht]
  constructor
  · induction t with
    | nil => simp
    | cons p rest ih =>
      have hrest : (rest.map Prod.fst).Nodup := by
        simp only [List.map_cons, List.nodup_cons] at ht
        exact ht.2
      by_cases hw : p.1 = w
      · have hnm : w ∉ rest.map Prod.fst := by
          simp only [List.map_cons, List.nodup_cons] at ht
          rw [← hw]; exact ht.1
        have hrk : chasKey rest w = false := (chasKey_eq_false rest w).2 hnm
        by_cases hq : chasKey r p.1
        · have hf : chasKey (rest.filter (fun p => !chasKey r p.1)) w = false :=
            chasKey_filter_false _ rest w hrk
          have hqw : chasKey r w = true := by rw [← hw]; exact hq
          simp [List.filter_cons, hq, hf, hw, hqw]
        · have hq' : chasKey r p.1 = false := by cases h : chasKey r p.1 <;> simp_all
          have hqw : chasKey r w = false := by rw [← hw]; exact hq'
          simp [List.filter_cons, hq', hw, hqw]
      · have ih' := ih hrest
        by_cases hq : chasKey r p.1
        · simp only [List.filter_cons, hq, Bool.not_true,
            if_neg (by simp : ¬(false = true))]
          simp [hw, ih']
        · have hq' : chasKey r p.1 = false := by cases h : chasKey r p.1 <;> simp_all
          simp only [List.filter_cons, hq', Bool.not_false, if_pos rfl]
          simp [hw, ih']
  · intro _ hrw
    exact clookup_filter_not_ref r t w hrw

/-! ## Aggregate view of extract_lemmas -/

theorem extractGo_spec (CC : CharClasses) :
    ∀ (tokens : List Token) (words : List Str)
      (skipped : Counter (Str × Str × Str)),
      extractGo CC tokens words skipped
        = (words ++ countedOf CC tokens,
           (skippedTriplesOf CC tokens).foldl cincr skipped) := by
  intro tokens
  induction tokens with
  | nil => intro words skipped; simp [extractGo, countedOf, skippedTriplesOf]
  | cons tok rest ih =>
    intro words skipped
    rcases h : tokenOutcome CC tok with _ | ⟨lem, r⟩ | lem <;>
      simp [extractGo, h, ih, countedOf, skippedTriplesOf, List.filterMap_cons]

theorem extract_lemmas_eq (CC : CharClasses) (tokens : List Token) :
    extract_lemmas CC tokens
      = (counterOf (countedOf CC tokens), counterOf (skippedTriplesOf CC tokens)) := by
  simp [extract_lemmas, extractGo_spec, counterOf]

/-! ## C10: positivity of all counts -/

theorem cincr_pos [DecidableEq α] (c : Counter α) (k : α)
    (h : ∀ p ∈ c, 1 ≤ p.2) : ∀ p ∈ cincr c k, 1 ≤ p.2 := by
  intro p hp
  unfold cincr at hp
  split at hp
  · rcases List.mem_map.1 hp with ⟨q, hq, rfl⟩
    split
    · exact Nat.le_add_left 1 q.2
    · exact h q hq
  · rcases List.mem_append.1 hp with h1 | h1
    · exact h p h1
    · simp only [List.mem_singleton] at h1
      subst h1; exact le_refl 1

theorem foldl_cincr_pos [DecidableEq α] :
    ∀ (ws : List α) (c : Counter α), (∀ p ∈ c, 1 ≤ p.2) →
      ∀ p ∈ ws.foldl cincr c, 1 ≤ p.2 := by
  intro ws
  induction ws with
  | nil => intro c h; exact h
  | cons w rest ih =>
    intro c h
    exact ih (cincr c w) (cincr_pos c w h)

theorem counterOf_pos [DecidableEq α] (ws : List α) :
    ∀ p ∈ counterOf ws, 1 ≤ p.2 :=
  foldl_cincr_pos ws [] (by simp)

theorem cset_pos [DecidableEq α] (c : Counter α) (k : α) (v : Nat)
    (hc : ∀ p ∈ c, 1 ≤ p.2) (hv : 1 ≤ v) : ∀ p ∈ cset c k v, 1 ≤ p.2 := by
  intro p hp
  unfold cset at hp
  split at hp
  · rcases List.mem_map.1 hp with ⟨q, hq, rfl⟩
    split
    · exact hv
    · exact hc q hq
  · rcases List.mem_append.1 hp with h1 | h1
    · exact hc p h1
    · simp only [List.mem_singleton] at h1
      subst h1; exact hv

theorem find_difference_pos (t r : Counter Str) (h : ∀ p ∈ t, 1 ≤ p.2) :
    ∀ p ∈ find_difference t r, 1 ≤ p.2 := by
  unfold find_difference
  suffices hgen : ∀ (t' acc : Counter Str), (∀ p ∈ acc, 1 ≤ p.2) →
      (∀ p ∈ t', p ∈ t) →
      ∀ p ∈ t'.foldl
        (fun diff p => if !chasKey r p.1 then cset diff p.1 p.2 else diff) acc,
        1 ≤ p.2 by
    exact hgen t [] (by simp) (fun p hp => hp)
  intro t'
  induction t' with
  | nil => intro acc hacc _; exact hacc
  | cons q rest ih =>
    intro acc hacc hsub
    rw [List.foldl_cons]
    apply ih
    · by_cases hq : chasKey r q.1
      · simpa [hq] using hacc
      · have hq' : chasKey r q.1 = false := by cases h2 : chasKey r q.1 <;> simp_all
        simp only [hq', Bool.not_false, if_pos rfl]
        exact cset_pos acc q.1 q.2 hacc (h q (hsub q (by simp)))
    · intro p hp; exact hsub p (by simp [hp])

/-- C10: every count the pipeline stores is at least 1: the counted
table and the skip table of `extract_lemmas`, and the table produced by
`find_difference` from two such tables. -/
theorem all_counts_positive (CC : CharClasses) (tokens tokens2 : List Token) :
    (∀ p ∈ (extract_lemmas CC tokens).1, 1 ≤ p.2) ∧
    (∀ p ∈ (extract_lemmas CC tokens).2, 1 ≤ p.2) ∧
    (∀ p ∈ find_difference (extract_lemmas CC tokens).1
        (extract_lemmas CC tokens2).1, 1 ≤ p.2) := by
  have h1 : ∀ p ∈ (extract_lemmas CC tokens).1, 1 ≤ p.2 := by
    rw [extract_lemmas_eq]
    exact counterOf_pos _
  refine ⟨h1, ?_, ?_⟩
  · rw [extract_lemmas_eq]
    exact counterOf_pos _
  · exact find_difference_pos _ _ h1

/-! ## C8: CSV output is sorted by descending count, stable on ties -/

theorem insertDesc_perm (p : α × Nat) (l : List (α × Nat)) :
    (insertDesc p l).Perm (p :: l) := by
  induction l with
  | nil => exact List.Perm.refl _
  | cons q rest ih =>
    unfold insertDesc
    by_cases h : p.2 ≤ q.2
    · simp only [if_pos h]
      exact (ih.cons q).trans (List.Perm.swap p q rest)
    · simp only [if_neg h]
      exact List.Perm.refl _

theorem foldl_insertDesc_perm :
    ∀ (c acc : List (α × Nat)),
      (c.foldl (fun a p => insertDesc p a) acc).Perm (acc ++ c) := by
  intro c
  induction c with
  | nil => intro acc; simp
  | cons p rest ih =>
    intro acc
    rw [List.foldl_cons]
    refine (ih (insertDesc p acc)).trans ?_
    refine (((insertDesc_perm p acc).append_right rest).trans ?_)
    exact List.perm_middle.symm

theorem most_common_perm (c : Counter α) : (most_common c).Perm c := by
  simpa [most_common] using foldl_insertDesc_perm c []

theorem insertDesc_sorted (p : α × Nat) (l : List (α × Nat))
    (h : List.Chain' (fun a b : α × Nat => b.2 ≤ a.2) l) :
    List.Chain' (fun a b : α × Nat => b.2 ≤ a.2) (insertDesc p l) := by
  induction l with
  | nil => simp [insertDesc]
  | cons q rest ih =>
    unfold insertDesc
    by_cases hpq : p.2 ≤ q.2
    · simp only [if_pos hpq]
      have htail := ih (h.tail)
      cases rest with
      | nil =>
        simp only [insertDesc]
        exact List.chain'_cons.2 ⟨hpq, List.chain'_singleton p⟩
      | cons q2 r2 =>
        simp only [insertDesc]
        by_cases h2 : p.2 ≤ q2.2
        · simp only [if_pos h2]
          refine List.chain'_cons.2 ⟨(List.chain'_cons.1 h).1, ?_⟩
          simpa only [insertDesc, if_pos h2] using htail
        · simp only [if_neg h2]
          exact List.chain'_cons.2 ⟨hpq,
            by simpa only [insertDesc, if_neg h2] using htail⟩
    · simp only [if_neg hpq]
      exact List.chain'_cons.2 ⟨Nat.le_of_not_le hpq, h⟩

theorem foldl_insertDesc_sorted :
    ∀ (c acc : List (α × Nat)),
      List.Chain' (fun a b : α × Nat => b.2 ≤ a.2) acc →
      List.Chain' (fun a b : α × Nat => b.2 ≤ a.2)
        (c.foldl (fun a p => insertDesc p a) acc) := by
  intro c
  induction c with
  | nil => intro acc h; exact h
  | cons p rest ih =>
    intro acc h
    exact ih (insertDesc p acc) (insertDesc_sorted p acc h)

theorem most_common_sorted (c : Counter α) :
    List.Chain' (fun a b : α × Nat => b.2 ≤ a.2) (most_common c) :=
  foldl_insertDesc_sorted c [] (List.chain'_nil)

theorem chain_desc_le (q : α × Nat) :
    ∀ rest : List (α × Nat),
      List.Chain' (fun a b : α × Nat => b.2 ≤ a.2) (q :: rest) →
      ∀ x ∈ rest, x.2 ≤ q.2 := by
  intro rest
  induction rest generalizing q with
  | nil => intro _ x hx; simp at hx
  | cons a r ih =>
    intro h x hx
    have h1 : a.2 ≤ q.2 := (List.chain'_cons.1 h).1
    rcases List.mem_cons.1 hx with rfl | hx'
    · exact h1
    · exact le_trans (ih a (List.chain'_cons.1 h).2 x hx') h1

theorem insertDesc_filter (v : Nat) (p : α × Nat) :
    ∀ l : List (α × Nat),
      List.Chain' (fun a b : α × Nat => b.2 ≤ a.2) l →
      (insertDesc p l).filter (fun x => x.2 == v)
        = if p.2 = v then l.filter (fun x => x.2 == v) ++ [p]
          else l.filter (fun x => x.2 == v) := by
  intro l
  induction l with
  | nil =>
    intro _
    simp only [insertDesc, List.filter_nil, List.nil_append]
    by_cases hv : p.2 = v <;> simp [hv, List.filter_cons]
  | cons q rest ih =>
    intro h
    unfold insertDesc
    by_cases hpq : p.2 ≤ q.2
    · simp only [if_pos hpq]
      rw [List.filter_cons, List.filter_cons]
      rw [ih h.tail]
      by_cases hqv : (q.2 == v)
      · simp only [hqv, if_pos rfl]
        by_cases hv : p.2 = v <;> simp [hv]
      · have : (q.2 == v) = false := by cases h2 : (q.2 == v) <;> simp_all
        simp only [this]
        by_cases hv : p.2 = v <;> simp [hv]
    · simp only [if_neg hpq]
      by_cases hv : p.2 = v
      · have hnone : (q :: rest).filter (fun x => x.2 == v) = [] := by
          rw [List.filter_eq_nil_iff]
          intro x hx
          have hxle : x.2 ≤ q.2 := by
            rcases List.mem_cons.1 hx with rfl | hx'
            · exact le_refl _
            · exact chain_desc_le q rest h x hx'
          have : x.2 < v := by
            have : v = p.2 := hv.symm
            omega
          simp only [beq_iff_eq]
          omega
        rw [List.filter_cons, if_pos (by simpa using hv), hnone]
        simp [hv]
      · have hpv : (p.2 == v) = false := by simpa using hv
        rw [List.filter_cons, hpv]
        simp [hv]

theorem foldl_insertDesc_filter (v : Nat) :
    ∀ (c acc : List (α × Nat)),
      List.Chain' (fun a b : α × Nat => b.2 ≤ a.2) acc →
      (c.foldl (fun a p => insertDesc p a) acc).filter (fun x => x.2 == v)
        = acc.filter (fun x => x.2 == v) ++ c.filter (fun x => x.2 == v) := by
  intro c
  induction c with
  | nil => intro acc _; simp
  | cons p rest ih =>
    intro acc h
    rw [List.foldl_cons, ih (insertDesc p acc) (insertDesc_sorted p acc h)]
    rw [insertDesc_filter v p acc h]
    rw [List.filter_cons]
    by_cases hv : p.2 = v
    · simp [hv]
    · have hpv : (p.2 == v) = false := by simpa using hv
      simp [hv, hpv]

theorem most_common_stable (c : Counter α) (v : Nat) :
    (most_common c).filter (fun x => x.2 == v) = c.filter (fun x => x.2 == v) := by
  simpa [most_common] using foldl_insertDesc_filter v c [] (List.chain'_nil)

/-- C8: both CSV writers emit the header row followed by exactly one
row per table entry, where the rows are `most_common` in order; and
`most_common` is a permutation of the table, sorted by descending
count, with each tie class kept in first-seen (insertion) order. -/
theorem csv_rows_sorted_stable (c : Counter Str)
    (sk : Counter (Str × Str × Str)) :
    (save_to_csv_rows c
      = ["word".toList, "frequency".toList] ::
          (most_common c).map (fun p => [p.1, natCell p.2])) ∧
    (most_common c).Perm c ∧
    List.Chain' (fun a b : Str × Nat => b.2 ≤ a.2) (most_common c) ∧
    (∀ v, (most_common c).filter (fun x => x.2 == v)
      = c.filter (fun x => x.2 == v)) ∧
    (save_skipped_to_csv_rows sk
      = ["token".toList, "lemma".toList, "reason".toList, "frequency".toList] ::
          (most_common sk).map (fun p => [p.1.1, p.1.2.1, p.1.2.2, natCell p.2])) ∧
    (most_common sk).Perm sk ∧
    List.Chain' (fun a b : (Str × Str × Str) × Nat => b.2 ≤ a.2) (most_common sk) ∧
    (∀ v, (most_common sk).filter (fun x => x.2 == v)
      = sk.filter (fun x => x.2 == v)) :=
  ⟨rfl, most_common_perm c, most_common_sorted c, most_common_stable c,
   rfl, most_common_perm sk, most_common_sorted sk, most_common_stable sk⟩

/-! ## C1: trichotomy and skip-rule priority -/

theorem contains_cjk_nil : contains_cjk [] = false := rfl

theorem bracket_chars_any_eq (lem : Str) :
    (['(', ')', '[', ']', '\x7b', '\x7d'].any (fun ch => lem.contains ch))
      = lem.any isBracketChar := by
  cases h : lem.any isBracketChar with
  | true =>
    rcases List.any_eq_true.1 h with ⟨c, hc, hbr⟩
    apply List.any_eq_true.2
    have hcon : lem.contains c = true := List.elem_iff.2 hc
    refine ⟨c, ?_, hcon⟩
    simp only [isBracketChar, Bool.or_eq_true, decide_eq_true_eq] at hbr
    simp only [List.mem_cons, List.not_mem_nil, or_false]
    tauto
  | false =>
    rw [List.any_eq_false]
    intro c hc
    simp only [List.mem_cons, List.not_mem_nil, or_false] at hc
    intro hcon
    have hmem : c ∈ lem := List.elem_iff.1 hcon
    have hbr : isBracketChar c = true := by
      rcases hc with rfl | rfl | rfl | rfl | rfl | rfl <;> rfl
    have : lem.any isBracketChar = true := List.any_eq_true.2 ⟨c, hmem, hbr⟩
    simp_all

theorem specFirstMatch_eq_skip_reason (CC : CharClasses) (surface lem : Str)
    (hs : contains_cjk surface = false) :
    specFirstMatch CC surface lem = skip_reason_for_lemma CC lem := by
  unfold specFirstMatch specSkipRules skip_reason_for_lemma
  cases h0 : lem.isEmpty with
  | true =>
    have hl : lem = [] := List.isEmpty_iff.1 h0
    subst hl
    simp only [List.find?_cons, hs, contains_cjk_nil, Bool.false_or,
      Bool.false_eq_true, if_false, List.isEmpty_nil, Option.map_some', if_true]
  | false =>
    cases h1 : contains_cjk lem with
    | true =>
      simp only [List.find?_cons, hs, h0, h1, Bool.false_or, Bool.false_eq_true,
        if_false, Option.map_some', if_true]
    | false =>
      cases h2 : lem.contains '.' with
      | true =>
        simp only [List.find?_cons, hs, h0, h1, h2, Bool.false_or,
          Bool.false_eq_true, if_false, Option.map_some', if_true]
      | false =>
        cases h3 : lem.contains ':' with
        | true =>
          simp only [List.find?_cons, hs, h0, h1, h2, h3, Bool.false_or,
            Bool.false_eq_true, if_false, Option.map_some', if_true]
        | false =>
          cases h4 : lem.any isBracketChar with
          | true =>
            have h4l : (['(', ')', '[', ']', '\x7b', '\x7d'].any
                (fun ch => lem.contains ch)) = true := by
              rw [bracket_chars_any_eq]; exact h4
            simp only [List.find?_cons, hs, h0, h1, h2, h3, h4, h4l,
              Bool.false_or, Bool.false_eq_true, if_false, Option.map_some', if_true]
          | false =>
            have h4l : (['(', ')', '[', ']', '\x7b', '\x7d'].any
                (fun ch => lem.contains ch)) = false := by
              rw [bracket_chars_any_eq]; exact h4
            cases h5 : currency_amount_match CC lem with
            | true =>
              simp only [List.find?_cons, hs, h0, h1, h2, h3, h4, h4l, h5,
                Bool.false_or, Bool.false_eq_true, if_false, Option.map_some', if_true]
            | false =>
              cases h6 : (decide (lem.length = 1) && decide (lem ≠ ['a'])) with
              | true =>
                simp only [List.find?_cons, hs, h0, h1, h2, h3, h4, h4l, h5, h6,
                  Bool.false_or, Bool.false_eq_true, if_false, Option.map_some',
                  if_true]
              | false =>
                cases h7 : lem.any (fun c => CC.isalpha c || CC.isdigit c) with
                | true =>
                  simp only [List.find?_cons, hs, h0, h1, h2, h3, h4, h4l, h5, h6,
                    h7, Bool.not_true, Bool.false_or, Bool.false_eq_true, if_false,
                    Option.map_some', if_true, List.find?_nil, Option.map_none']
                | false =>
                  simp only [List.find?_cons, hs, h0, h1, h2, h3, h4, h4l, h5, h6,
                    h7, Bool.not_false, Bool.false_or, Bool.false_eq_true, if_false,
                    Option.map_some', if_true, List.find?_nil, Option.map_none']

theorem tokenOutcome_of_clean (CC : CharClasses) (tok : Token)
    (hp : (tok.is_punct || tok.is_space) = false)
    (hn : (tok.like_num || pyStrIsDigit CC tok.text) = false)
    (hc : (contains_cjk tok.text || contains_cjk (CC.lower tok.lemma_raw)) = false) :
    tokenOutcome CC tok
      = match skip_reason_for_lemma CC (CC.lower tok.lemma_raw) with
        | some r => .skipped (CC.lower tok.lemma_raw) r
        | none =>
          if (CC.lower tok.lemma_raw).isEmpty ||
              !((CC.lower tok.lemma_raw).any (pyIsAlnum CC)) then .dropped
          else .counted (CC.lower tok.lemma_raw) := by
  unfold tokenOutcome
  rw [if_neg (by simp [hp]), if_neg (by simp [hn]), if_neg (by simp [hc])]

theorem preFilterDropped_false_iff (CC : CharClasses) (tok : Token) :
    preFilterDropped CC tok = false ↔
      ((tok.is_punct || tok.is_space) = false ∧
       (tok.like_num || pyStrIsDigit CC tok.text) = false) := by
  unfold preFilterDropped
  constructor
  · intro h
    simp only [Bool.or_eq_false_iff] at h
    simp [h.1.1.1, h.1.1.2, h.1.2, h.2]
  · intro ⟨h1, h2⟩
    simp only [Bool.or_eq_false_iff] at h1 h2
    simp [h1.1, h1.2, h2.1, h2.2]

theorem tokenOutcome_skipped_iff (CC : CharClasses) (tok : Token)
    (lem r : Str) :
    tokenOutcome CC tok = .skipped lem r ↔
      (preFilterDropped CC tok = false ∧ lem = CC.lower tok.lemma_raw ∧
       specFirstMatch CC tok.text lem = some r) := by
  by_cases hp : (tok.is_punct || tok.is_space) = true
  · have hout : tokenOutcome CC tok = .dropped := by
      unfold tokenOutcome; rw [if_pos hp]
    rw [hout]
    constructor
    · intro h; exact absurd h (by simp)
    · rintro ⟨hfalse, -, -⟩
      rw [preFilterDropped_false_iff] at hfalse
      exact absurd hp (by simp [hfalse.1])
  · have hp' : (tok.is_punct || tok.is_space) = false := by
      cases h : (tok.is_punct || tok.is_space) <;> simp_all
    by_cases hn : (tok.like_num || pyStrIsDigit CC tok.text) = true
    · have hout : tokenOutcome CC tok = .dropped := by
        unfold tokenOutcome; rw [if_neg hp, if_pos hn]
      rw [hout]
      constructor
      · intro h; exact absurd h (by simp)
      · rintro ⟨hfalse, -, -⟩
        rw [preFilterDropped_false_iff] at hfalse
        exact absurd hn (by simp [hfalse.2])
    · have hn' : (tok.like_num || pyStrIsDigit CC tok.text) = false := by
        cases h : (tok.like_num || pyStrIsDigit CC tok.text) <;> simp_all
      have hpre : preFilterDropped CC tok = false :=
        (preFilterDropped_false_iff CC tok).2 ⟨hp', hn'⟩
      by_cases hc : (contains_cjk tok.text || contains_cjk (CC.lower tok.lemma_raw)) = true
      · have hout : tokenOutcome CC tok
            = .skipped (CC.lower tok.lemma_raw) "contains_cjk".toList := by
          unfold tokenOutcome; rw [if_neg hp, if_neg hn, if_pos hc]
        rw [hout]
        constructor
        · intro h
          rw [Outcome.skipped.injEq] at h
          refine ⟨hpre, h.1.symm, ?_⟩
          rw [h.1] at hc
          unfold specFirstMatch specSkipRules
          simp only [List.find?_cons, hc, Option.map_some']
          exact congrArg some h.2
        · rintro ⟨-, rfl, hf⟩
          unfold specFirstMatch specSkipRules at hf
          simp only [List.find?_cons, hc] at hf
          simp only [Option.map_some', Option.some.injEq] at hf
          rw [hf]
      · have hc' : (contains_cjk tok.text || contains_cjk (CC.lower tok.lemma_raw)) = false := by
          cases h : (contains_cjk tok.text || contains_cjk (CC.lower tok.lemma_raw)) <;>
            simp_all
        have hct : contains_cjk tok.text = false :=
          (Bool.or_eq_false_iff.1 hc').1
        rw [tokenOutcome_of_clean CC tok hp' hn' hc']
        rcases hsr : skip_reason_for_lemma CC (CC.lower tok.lemma_raw) with _ | r0
        · simp only [hsr]
          constructor
          · intro h
            split at h <;> exact absurd h (by simp)
          · rintro ⟨-, rfl, hf⟩
            rw [specFirstMatch_eq_skip_reason CC tok.text _ hct, hsr] at hf
            exact Option.noConfusion hf
        · simp only [hsr]
          constructor
          · intro h
            rw [Outcome.skipped.injEq] at h
            refine ⟨hpre, h.1.symm, ?_⟩
            rw [← h.1]
            rw [specFirstMatch_eq_skip_reason CC tok.text _ hct, hsr, h.2]
          · rintro ⟨-, rfl, hf⟩
            rw [specFirstMatch_eq_skip_reason CC tok.text _ hct, hsr] at hf
            simp only [Option.some.injEq] at hf
            rw [hf]

/-- C1: the loop of `extract_lemmas` realizes a per-token
classification (first conjunct); every token has exactly one of the
three outcomes dropped-silently, skipped, counted (second conjunct);
and a recorded skip reason is precisely the first matching rule of the
§4.3 priority table, evaluated on the surface text and the lowercased
lemma (third conjunct). -/
theorem token_filter_trichotomy (CC : CharClasses) :
    (∀ tokens, extract_lemmas CC tokens
      = (counterOf (countedOf CC tokens),
         counterOf (skippedTriplesOf CC tokens))) ∧
    (∀ tok : Token,
      (tokenOutcome CC tok = .dropped ∧
        (∀ lem r, tokenOutcome CC tok ≠ .skipped lem r) ∧
        (∀ lem, tokenOutcome CC tok ≠ .counted lem)) ∨
      ((∃ lem r, tokenOutcome CC tok = .skipped lem r) ∧
        tokenOutcome CC tok ≠ .dropped ∧
        (∀ lem, tokenOutcome CC tok ≠ .counted lem)) ∨
      ((∃ lem, tokenOutcome CC tok = .counted lem) ∧
        tokenOutcome CC tok ≠ .dropped ∧
        (∀ lem r, tokenOutcome CC tok ≠ .skipped lem r))) ∧
    (∀ tok lem r, tokenOutcome CC tok = .skipped lem r ↔
      (preFilterDropped CC tok = false ∧ lem = CC.lower tok.lemma_raw ∧
       specFirstMatch CC tok.text lem = some r)) := by
  refine ⟨extract_lemmas_eq CC, ?_, tokenOutcome_skipped_iff CC⟩
  intro tok
  rcases h : tokenOutcome CC tok with _ | ⟨lem, r⟩ | lem
  · exact Or.inl ⟨rfl, by simp [h], by simp [h]⟩
  · exact Or.inr (Or.inl ⟨⟨lem, r, rfl⟩, by simp [h], by simp [h]⟩)
  · exact Or.inr (Or.inr ⟨⟨lem, rfl⟩, by simp [h], by simp [h]⟩)

/-! ## C7: the defensive silent-drop branch is dead code -/

/-- C7: when a token passes the punctuation/whitespace drop, the
numeric drop and the CJK check, and `_skip_reason_for_lemma` returns no
reason, the lowercased lemma is nonempty and has an alphanumeric
character, so the defensive fallback never fires and the token is
counted. -/
theorem defensive_drop_unreachable (CC : CharClasses) (tok : Token)
    (hp : (tok.is_punct || tok.is_space) = false)
    (hn : (tok.like_num || pyStrIsDigit CC tok.text) = false)
    (hc : (contains_cjk tok.text || contains_cjk (CC.lower tok.lemma_raw)) = false)
    (hsr : skip_reason_for_lemma CC (CC.lower tok.lemma_raw) = none) :
    (CC.lower tok.lemma_raw).isEmpty = false ∧
    (CC.lower tok.lemma_raw).any (pyIsAlnum CC) = true ∧
    tokenOutcome CC tok = .counted (CC.lower tok.lemma_raw) := by
  have hsr' := hsr
  unfold skip_reason_for_lemma at hsr'
  split_ifs at hsr' with e1 e2 e3 e4 e5 e6 e7 e8
  have h1 : (CC.lower tok.lemma_raw).isEmpty = false := by
    cases h : (CC.lower tok.lemma_raw).isEmpty <;> simp_all
  have hany : (CC.lower tok.lemma_raw).any
      (fun c => CC.isalpha c || CC.isdigit c) = true := by
    cases h : (CC.lower tok.lemma_raw).any (fun c => CC.isalpha c || CC.isdigit c)
    · exact absurd (by rw [h]; rfl) e8
    · rfl
  have h2 : (CC.lower tok.lemma_raw).any (pyIsAlnum CC) = true := by
    rcases List.any_eq_true.1 hany with ⟨c, hcmem, hcd⟩
    have hpy : pyIsAlnum CC c = true := by
      unfold pyIsAlnum
      cases ha : CC.isalpha c with
      | true => simp [ha]
      | false =>
        have hd : CC.isdigit c = true := by
          rw [ha] at hcd
          simpa using hcd
        simp [hd]
    exact List.any_eq_true.2 ⟨c, hcmem, hpy⟩
  refine ⟨h1, h2, ?_⟩
  rw [tokenOutcome_of_clean CC tok hp hn hc, hsr]
  rw [if_neg (show ¬((CC.lower tok.lemma_raw).isEmpty ||
      !((CC.lower tok.lemma_raw).any (pyIsAlnum CC))) = true by
    rw [h1, h2]; decide)]

/-! ## C9: the spec's worked example -/

/-- C9 counterexample: with the standard tokenization of
`"I saw 3 cats. I saw 3 dogs."` and a lemmatizer mapping saw to see,
the lemma `i` is not counted at all (so in particular not with
count 2): the lowercased lemma of `I` is the single letter `i`, which
the `single_letter` rule skips. -/
theorem example_counts_counterexample :
    clookup (extract_lemmas asciiCC exampleTargetTokens).1 "i".toList = none ∧
    ¬(clookup (extract_lemmas asciiCC exampleTargetTokens).1 "i".toList
        = some 2) := by
  constructor
  · decide
  · decide

/-- C9 amended: on the example tokenization the counted table is
exactly see with count 2, cat and dog with count 1; the token `I` is
skipped twice with reason `single_letter` (lemma `i`); and each token
`3` is dropped silently as numeric, appearing in no table. -/
theorem example_counts_amended :
    clookup (extract_lemmas asciiCC exampleTargetTokens).1 "see".toList = some 2 ∧
    clookup (extract_lemmas asciiCC exampleTargetTokens).1 "cat".toList = some 1 ∧
    clookup (extract_lemmas asciiCC exampleTargetTokens).1 "dog".toList = some 1 ∧
    clookup (extract_lemmas asciiCC exampleTargetTokens).1 "i".toList = none ∧
    clookup (extract_lemmas asciiCC exampleTargetTokens).2
      ("I".toList, "i".toList, "single_letter".toList) = some 2 ∧
    tokenOutcome asciiCC ⟨"3".toList, "3".toList, false, false, true⟩
      = .dropped ∧
    chasKey (extract_lemmas asciiCC exampleTargetTokens).1 "3".toList = false := by
  refine ⟨by decide, by decide, by decide, by decide, by decide, by decide,
    by decide⟩

/-! ## C4 and C5: which output files a run writes -/

theorem writeSeq_spec (env : Env) :
    ∀ files : List (Str × List (List Str)),
      (∃ n, (writeSeq env files).written = files.take n) ∧
      ((writeSeq env files).ok = true → (writeSeq env files).written = files) := by
  intro files
  induction files with
  | nil => exact ⟨⟨0, rfl⟩, fun _ => rfl⟩
  | cons f rest ih =>
    unfold writeSeq
    by_cases h : env.writeOk f.1 = true
    · simp only [h, if_pos rfl]
      rcases ih.1 with ⟨n, hn⟩
      constructor
      · exact ⟨n + 1, by simp [hn]⟩
      · intro hok
        simp [ih.2 hok]
    · have h' : env.writeOk f.1 = false := by cases h2 : env.writeOk f.1 <;> simp_all
      simp only [h', Bool.false_eq_true, if_false]
      exact ⟨⟨0, rfl⟩, fun hok => absurd hok (by simp)⟩

theorem mainModel_write_behaviour (CC : CharClasses) (nfkc : Str → Str)
    (env : Env) :
    (∃ n, (mainModel CC nfkc env).written.map Prod.fst = outputFileNames.take n) ∧
    ((mainModel CC nfkc env).ok = true →
      (mainModel CC nfkc env).written.map Prod.fst = outputFileNames) ∧
    ((env.modelLoadOk = false ∨ env.targetRead = none ∨ env.refRead = none) →
      (mainModel CC nfkc env).written = []) := by
  unfold mainModel
  cases hm : env.modelLoadOk with
  | false =>
    simp only [hm, Bool.not_false, if_pos rfl]
    exact ⟨⟨0, rfl⟩, fun hok => absurd hok (by simp), fun _ => rfl⟩
  | true =>
    simp only [hm, Bool.not_true, Bool.false_eq_true, if_false]
    cases ht : env.targetRead with
    | none =>
      exact ⟨⟨0, rfl⟩, fun hok => absurd hok (by simp), fun _ => rfl⟩
    | some targetRaw =>
      cases hr : env.refRead with
      | none =>
        exact ⟨⟨0, rfl⟩, fun hok => absurd hok (by simp), fun _ => rfl⟩
      | some refRaw =>
        have hws := writeSeq_spec env
        constructor
        · rcases (hws _).1 with ⟨n, hn⟩
          exact ⟨n, by rw [hn, List.map_take]; rfl⟩
        constructor
        · intro hok
          rw [(hws _).2 hok]
          rfl
        · rintro (h | h | h)
          · exact absurd h (by decide)
          · exact Option.noConfusion h
          · exact Option.noConfusion h

/-- C4 counterexample: in an environment where the first output write
succeeds and the second fails, the run produces a nonempty strict
subset of the output files, so a run is not all-or-nothing. -/
theorem main_all_or_nothing_counterexample :
    ¬((mainModel asciiCC id envPartial).written.map Prod.fst = [] ∨
      (mainModel asciiCC id envPartial).written.map Prod.fst = outputFileNames) := by
  decide

/-- C4 amended: the files a run writes always form a prefix of the
fixed write order; a run that completes wrote all five; and any failure
before the first write (model load, reading either input) leaves
nothing written.  Partial output is possible only when a write fails
after an earlier write succeeded. -/
theorem main_all_or_nothing_amended (CC : CharClasses) (nfkc : Str → Str)
    (env : Env) :
    (∃ n, (mainModel CC nfkc env).written.map Prod.fst = outputFileNames.take n) ∧
    ((mainModel CC nfkc env).ok = true →
      (mainModel CC nfkc env).written.map Prod.fst = outputFileNames) ∧
    ((env.modelLoadOk = false ∨ env.targetRead = none ∨ env.refRead = none) →
      (mainModel CC nfkc env).written = []) :=
  mainModel_write_behaviour CC nfkc env

/-- C5 counterexample: a fully successful run writes five output
files, not six. -/
theorem main_six_files_counterexample :
    (mainModel asciiCC id envAllOk).ok = true ∧
    ¬((mainModel asciiCC id envAllOk).written.length = 6) := by
  constructor
  · decide
  · decide

/-- C5 amended: every run that completes without an unhandled error has
written exactly the five output files, in order. -/
theorem main_writes_all_five (CC : CharClasses) (nfkc : Str → Str) (env : Env)
    (hok : (mainModel CC nfkc env).ok = true) :
    (mainModel CC nfkc env).written.map Prod.fst = outputFileNames ∧
    outputFileNames.length = 5 :=
  ⟨(mainModel_write_behaviour CC nfkc env).2.1 hok, rfl⟩

/-! ## C6: CJK characters through the normalizer -/

/-- C6 counterexample: the katakana middle dot `・` (U+30FB) lies in
the Katakana detection range U+30A0 - U+30FF of `_CJK_RE`, yet
`normalize_text` replaces it with a space, so the normalizer does not
leave every character of the CJK detection ranges unaltered. -/
theorem cjk_preserved_counterexample :
    isCJKChar '・' = true ∧
    normalize_text id asciiCC ['・'] = [' '] ∧
    ¬((normalize_text id asciiCC ['・']).filter isCJKChar
        = (['・'] : Str).filter isCJKChar) := by
  have heval : normalize_text id asciiCC ['・'] = [' '] := by
    simp [normalize_text, postNfkc, replaceChar, pyTranslate, bulletTable,
      spaceBrackets, dotAfterDigit, dotAfterSpace, dotAfterSpaceGo,
      collapseSpaces, collapseNl, isBracketChar, isSp, isSpaceTab, List.flatMap]
  refine ⟨by decide, heval, ?_⟩
  rw [heval]
  decide

/-! ## C6 amended: the normalizer preserves all CJK characters but `・` -/

theorem filter_flatMap_eq (q : Char → Bool) (g : Char → Str)
    (h : ∀ c, (g c).filter q = if q c then [c] else []) :
    ∀ s : Str, (s.flatMap g).filter q = s.filter q := by
  intro s
  induction s with
  | nil => rfl
  | cons c rest ih =>
    rw [List.flatMap_cons, List.filter_append, h c, ih, List.filter_cons]
    by_cases hq : q c = true
    · simp [hq]
    · have hq' : q c = false := by cases h2 : q c <;> simp_all
      simp [hq']

theorem filter_dropWhile_eq (q p : Char → Bool)
    (h : ∀ c, p c = true → q c = false) :
    ∀ l : Str, (l.dropWhile p).filter q = l.filter q := by
  intro l
  induction l with
  | nil => rfl
  | cons c rest ih =>
    rw [List.dropWhile_cons]
    by_cases hp : p c = true
    · rw [if_pos hp, ih, List.filter_cons, h c hp]
      simp
    · rw [if_neg hp]

theorem filter_cjkKeep_replaceChar (a : Char) (r : Str)
    (ha : cjkKeep a = false) (hr : r.filter cjkKeep = []) (s : Str) :
    (replaceChar a r s).filter cjkKeep = s.filter cjkKeep := by
  apply filter_flatMap_eq
  intro c
  by_cases hc : c = a
  · subst hc
    simp [hr, ha]
  · simp [hc, List.filter_cons]

theorem filter_cjkKeep_translate (s : Str) :
    (pyTranslate bulletTable s).filter cjkKeep = s.filter cjkKeep := by
  apply filter_flatMap_eq
  intro c
  by_cases hb : (c = '・' || c = '→' || c = '⇒' || c = '★' || c = '☆' || c = '※') = true
  · have hk : cjkKeep c = false := by
      rcases (by simpa using hb :
        ((((c = '・' ∨ c = '→') ∨ c = '⇒') ∨ c = '★') ∨ c = '☆') ∨ c = '※') with
        ((((rfl | rfl) | rfl) | rfl) | rfl) | rfl <;> decide
    simp [bulletTable, hb, hk, show cjkKeep ' ' = false by decide]
  · have hb' : (c = '・' || c = '→' || c = '⇒' || c = '★' || c = '☆' || c = '※') = false := by
      cases h2 : (c = '・' || c = '→' || c = '⇒' || c = '★' || c = '☆' || c = '※') <;>
        simp_all
    simp [bulletTable, hb', List.filter_cons]

theorem filter_cjkKeep_spaceBrackets (s : Str) :
    (spaceBrackets s).filter cjkKeep = s.filter cjkKeep := by
  apply filter_flatMap_eq
  intro c
  by_cases hb : isBracketChar c = true
  · simp [hb, List.filter_cons, show cjkKeep ' ' = false from rfl]
  · simp [hb, List.filter_cons]

theorem filter_cjkKeep_dotAfterDigit (CC : CharClasses) (s : Str) :
    (dotAfterDigit CC s).filter cjkKeep = s.filter cjkKeep := by
  induction s using dotAfterDigit.induct CC with
  | case1 c1 c2 c3 rest hcond ih =>
    have hc2 : c2 = '.' := of_decide_eq_true (Bool.and_eq_true_iff.1
      (Bool.and_eq_true_iff.1 hcond).1).2
    subst hc2
    rw [dotAfterDigit, if_pos hcond]
    simp only [List.filter_cons, show cjkKeep '.' = false by decide,
      show cjkKeep ' ' = false by decide, Bool.false_eq_true, if_false, ih]
  | case2 c1 c2 c3 rest hcond ih =>
    rw [dotAfterDigit, if_neg hcond]
    simp only [List.filter_cons, ih]
  | case3 s hshort =>
    rcases s with _ | ⟨a, _ | ⟨b, _ | ⟨c, r⟩⟩⟩
    · rfl
    · rfl
    · rfl
    · exact absurd rfl (hshort a b c r)

theorem filter_cjkKeep_dotAfterSpaceGo (CC : CharClasses) (s : Str) :
    (dotAfterSpaceGo CC s).filter cjkKeep = s.filter cjkKeep := by
  induction s using dotAfterSpaceGo.induct CC with
  | case1 c1 c2 c3 rest hcond ih =>
    have hc2 : c2 = '.' := of_decide_eq_true (Bool.and_eq_true_iff.1
      (Bool.and_eq_true_iff.1 hcond).1).2
    subst hc2
    rw [dotAfterSpaceGo, if_pos hcond]
    simp only [List.filter_cons, show cjkKeep '.' = false by decide,
      show cjkKeep ' ' = false by decide, Bool.false_eq_true, if_false, ih]
  | case2 c1 c2 c3 rest hcond ih =>
    rw [dotAfterSpaceGo, if_neg hcond]
    simp only [List.filter_cons, ih]
  | case3 s hshort =>
    rcases s with _ | ⟨a, _ | ⟨b, _ | ⟨c, r⟩⟩⟩
    · rfl
    · rfl
    · rfl
    · exact absurd rfl (hshort a b c r)

theorem filter_cjkKeep_dotAfterSpace (CC : CharClasses) (s : Str) :
    (dotAfterSpace CC s).filter cjkKeep = s.filter cjkKeep := by
  unfold dotAfterSpace
  split
  · rename_i a rest
    by_cases hl : isAsciiLetter a = true
    · rw [if_pos hl]
      simp only [List.filter_cons, show cjkKeep '.' = false by decide,
        show cjkKeep ' ' = false by decide, Bool.false_eq_true, if_false,
        filter_cjkKeep_dotAfterSpaceGo CC (a :: rest)]
    · rw [if_neg hl]
      exact filter_cjkKeep_dotAfterSpaceGo CC _
  · exact filter_cjkKeep_dotAfterSpaceGo CC _

theorem filter_cjkKeep_collapseSpaces (s : Str) :
    (collapseSpaces s).filter cjkKeep = s.filter cjkKeep := by
  induction s using collapseSpaces.induct with
  | case1 => simp [collapseSpaces]
  | case2 c rest hsp ih =>
    have hkc : cjkKeep c = false := by
      rcases (by simpa [isSpaceTab] using hsp : c = ' ' ∨ c = '\t') with rfl | rfl <;>
        decide
    rw [collapseSpaces, if_pos hsp]
    rw [List.filter_cons, List.filter_cons, hkc,
      show cjkKeep ' ' = false by decide]
    simp only [Bool.false_eq_true, if_false]
    rw [ih, filter_dropWhile_eq cjkKeep isSpaceTab]
    intro c2 hc2
    rcases (by simpa [isSpaceTab] using hc2 : c2 = ' ' ∨ c2 = '\t') with rfl | rfl <;>
      decide
  | case3 c rest hsp ih =>
    rw [collapseSpaces, if_neg hsp, List.filter_cons, List.filter_cons, ih]

theorem filter_cjkKeep_collapseNl (s : Str) :
    (collapseNl s).filter cjkKeep = s.filter cjkKeep := by
  induction s using collapseNl.induct with
  | case1 => simp [collapseNl]
  | case2 c rest hnl ih =>
    rw [collapseNl, dif_pos hnl]
    have hsp : ∀ c2 : Char, isSp c2 = true → cjkKeep c2 = false := by
      intro c2 hc2
      rcases (by simpa [isSp] using hc2 : c2 = ' ') with rfl
      decide
    cases hd : (c :: rest).dropWhile isSp with
    | nil => rw [hd] at hnl; exact absurd hnl (by simp)
    | cons x t =>
      have hx : x = '\n' := by
        rw [hd] at hnl
        simpa using hnl
      subst hx
      have h1 : ((c :: rest).dropWhile isSp).filter cjkKeep
          = (c :: rest).filter cjkKeep := filter_dropWhile_eq cjkKeep isSp hsp _
      rw [hd] at h1
      have h2 : (t.dropWhile isSp).filter cjkKeep = t.filter cjkKeep :=
        filter_dropWhile_eq cjkKeep isSp hsp t
      rw [hd] at ih
      simp only [List.tail_cons] at ih
      rw [List.filter_cons, show cjkKeep '\n' = false by decide]
      simp only [Bool.false_eq_true, if_false, List.tail_cons]
      rw [ih, h2, ← h1, List.filter_cons, show cjkKeep '\n' = false by decide]
      simp
  | case3 c rest hnl ih =>
    rw [collapseNl, dif_neg hnl, List.filter_cons, List.filter_cons, ih]

theorem postNfkc_filter_cjkKeep (CC : CharClasses) (s : Str) :
    (postNfkc CC s).filter cjkKeep = s.filter cjkKeep := by
  unfold postNfkc
  rw [filter_cjkKeep_collapseNl, filter_cjkKeep_collapseSpaces,
    filter_cjkKeep_dotAfterSpace, filter_cjkKeep_dotAfterDigit,
    filter_cjkKeep_spaceBrackets,
    filter_cjkKeep_replaceChar '〜' _ (by decide) (by decide),
    filter_cjkKeep_replaceChar '～' _ (by decide) (by decide),
    filter_cjkKeep_translate,
    filter_cjkKeep_replaceChar '．' _ (by decide) (by decide),
    filter_cjkKeep_replaceChar '。' _ (by decide) (by decide),
    filter_cjkKeep_replaceChar '，' _ (by decide) (by decide),
    filter_cjkKeep_replaceChar '、' _ (by decide) (by decide)]

/-- C6 amended: provided the NFKC step preserves them, every character
of the CJK detection ranges except the katakana middle dot `・` passes
through `normalize_text` unchanged, in order and multiplicity; the
normalizer's own steps never touch such characters. -/
theorem cjk_preserved_amended (nfkc : Str → Str) (CC : CharClasses) (s : Str)
    (hn : ∀ u, (nfkc u).filter cjkKeep = u.filter cjkKeep) :
    (normalize_text nfkc CC s).filter cjkKeep = s.filter cjkKeep := by
  unfold normalize_text
  rw [postNfkc_filter_cjkKeep, hn]

/-! ## C3: idempotence of the normalizer. Stage 1: the character phase -/

theorem postNfkc_decompose (CC : CharClasses) (s : Str) :
    postNfkc CC s
      = collapseNl (collapseSpaces (dotAfterSpace CC (dotAfterDigit CC
          (spaceBrackets (charPhase s))))) :=
  rfl

theorem charPhase_append (x y : Str) :
    charPhase (x ++ y) = charPhase x ++ charPhase y := by
  simp [charPhase, replaceChar, pyTranslate, List.flatMap_append]

theorem charPhase_singleton (c : Char) : charPhase [c] = charStep c := by
  by_cases h1 : c = '、'
  · subst h1; rfl
  by_cases h2 : c = '，'
  · subst h2; rfl
  by_cases h3 : c = '。'
  · subst h3; rfl
  by_cases h4 : c = '．'
  · subst h4; rfl
  by_cases h5 : c = '・'
  · subst h5; rfl
  by_cases h6 : c = '→'
  · subst h6; rfl
  by_cases h7 : c = '⇒'
  · subst h7; rfl
  by_cases h8 : c = '★'
  · subst h8; rfl
  by_cases h9 : c = '☆'
  · subst h9; rfl
  by_cases h10 : c = '※'
  · subst h10; rfl
  by_cases h11 : c = '～'
  · subst h11; rfl
  by_cases h12 : c = '〜'
  · subst h12; rfl
  simp [charPhase, replaceChar, pyTranslate, bulletTable, charStep,
    h1, h2, h3, h4, h5, h6, h7, h8, h9, h10, h11, h12]

theorem charPhase_eq_flatMap (s : Str) : charPhase s = s.flatMap charStep := by
  induction s with
  | nil => rfl
  | cons c rest ih =>
    have : (c :: rest) = [c] ++ rest := rfl
    rw [this, charPhase_append, charPhase_singleton, List.flatMap_append, ih]
    simp [List.flatMap]

theorem mem_charStep (c' c : Char) (h : c' ∈ charStep c) :
    (c' = c ∧ isSpecialChar c = false) ∨
    (c' = ',' ∨ c' = ' ' ∨ c' = '.' ∨ c' = '~') := by
  unfold charStep at h
  split_ifs at h with ha hb hc hd
  · right
    rcases List.mem_cons.1 h with rfl | h2
    · left; rfl
    · right; left; simpa using h2
  · right
    rcases List.mem_cons.1 h with rfl | h2
    · right; right; left; rfl
    · right; left; simpa using h2
  · right; right; left; simpa using h
  · right; right; right; right; simpa using h
  · left
    refine ⟨by simpa using h, ?_⟩
    cases hsp : isSpecialChar c with
    | false => rfl
    | true =>
      unfold isSpecialChar at hsp
      simp only [Bool.or_eq_true, decide_eq_true_eq] at hsp
      have hc12 : c = '、' ∨ c = '，' ∨ c = '。' ∨ c = '．' ∨ c = '・' ∨
          c = '→' ∨ c = '⇒' ∨ c = '★' ∨ c = '☆' ∨ c = '※' ∨ c = '～' ∨
          c = '〜' := by tauto
      rcases hc12 with rfl | rfl | rfl | rfl | rfl | rfl | rfl | rfl | rfl |
        rfl | rfl | rfl <;> simp_all

theorem specialFree_charPhase (s : Str) : specialFree (charPhase s) = true := by
  rw [charPhase_eq_flatMap]
  unfold specialFree
  rw [List.all_eq_true]
  intro c hc
  rcases List.mem_flatMap.1 hc with ⟨d, _, hcd⟩
  rcases mem_charStep c d hcd with ⟨rfl, hns⟩ | h
  · simp [hns]
  · rcases h with rfl | rfl | rfl | rfl <;> decide

theorem charPhase_id (s : Str) (h : specialFree s = true) : charPhase s = s := by
  rw [charPhase_eq_flatMap]
  induction s with
  | nil => rfl
  | cons c rest ih =>
    unfold specialFree at h
    rw [List.all_cons] at h
    rcases Bool.and_eq_true_iff.1 h with ⟨hc, hrest⟩
    have hstep : charStep c = [c] := by
      unfold charStep
      have hns : isSpecialChar c = false := by
        cases h2 : isSpecialChar c <;> simp_all
      unfold isSpecialChar at hns
      simp only [Bool.or_eq_false_iff, decide_eq_false_iff_not] at hns
      simp [hns.1.1.1.1.1.1.1.1.1.1.1, hns.1.1.1.1.1.1.1.1.1.1.2,
        hns.1.1.1.1.1.1.1.1.1.2, hns.1.1.1.1.1.1.1.1.2, hns.1.1.1.1.1.1.1.2,
        hns.1.1.1.1.1.1.2, hns.1.1.1.1.1.2, hns.1.1.1.1.2, hns.1.1.1.2,
        hns.1.1.2, hns.1.2, hns.2]
    rw [List.flatMap_cons, hstep, ih hrest]
    rfl

/-! ## C3 Stage 2: small structural lemmas for the scans -/

theorem noMatch2_tail (p : Char → Char → Bool) (a : Char) (l : Str)
    (h : noMatch2 p (a :: l) = true) : noMatch2 p l = true := by
  rcases l with _ | ⟨b, r⟩
  · rfl
  · exact (Bool.and_eq_true_iff.1 h).2

theorem noMatch3_tail (p : Char → Char → Char → Bool) (a : Char) (l : Str)
    (h : noMatch3 p (a :: l) = true) : noMatch3 p l = true := by
  rcases l with _ | ⟨b, _ | ⟨c, r⟩⟩
  · rfl
  · rfl
  · exact (Bool.and_eq_true_iff.1 h).2

theorem noMatch2_suffix (p : Char → Char → Bool) :
    ∀ (x y : Str), noMatch2 p (x ++ y) = true → noMatch2 p y = true := by
  intro x
  induction x with
  | nil => intro y h; exact h
  | cons a r ih => intro y h; exact ih y (noMatch2_tail p a (r ++ y) h)

theorem noMatch3_suffix (p : Char → Char → Char → Bool) :
    ∀ (x y : Str), noMatch3 p (x ++ y) = true → noMatch3 p y = true := by
  intro x
  induction x with
  | nil => intro y h; exact h
  | cons a r ih => intro y h; exact ih y (noMatch3_tail p a (r ++ y) h)

theorem noMatch2_cons_of (p : Char → Char → Bool) (x : Char) (l : Str)
    (h1 : ∀ b, l.head? = some b → p x b = false)
    (h2 : noMatch2 p l = true) : noMatch2 p (x :: l) = true := by
  rcases l with _ | ⟨b, r⟩
  · rfl
  · unfold noMatch2
    rw [h1 b rfl, h2]
    rfl

theorem noMatch3_cons_of (p : Char → Char → Char → Bool) (x : Char) (l : Str)
    (h1 : ∀ b c r, l = b :: c :: r → p x b c = false)
    (h2 : noMatch3 p l = true) : noMatch3 p (x :: l) = true := by
  rcases l with _ | ⟨b, _ | ⟨c, r⟩⟩
  · rfl
  · rfl
  · unfold noMatch3
    rw [h1 b c r rfl, h2]
    rfl

theorem noMatch3_short (p : Char → Char → Char → Bool) (l : Str)
    (h : l.length ≤ 2) : noMatch3 p l = true := by
  rcases l with _ | ⟨a, _ | ⟨b, _ | ⟨c, r⟩⟩⟩
  · rfl
  · rfl
  · rfl
  · simp at h

/-! ## C3 Stage 3: the lookahead form of the space collapse -/

theorem cs2_nil : cs2 [] = [] := rfl

theorem cs2_one (c : Char) : cs2 [c] = if isSpaceTab c then [' '] else [c] := rfl

theorem cs2_two (c d : Char) (rest : Str) :
    cs2 (c :: d :: rest)
      = if isSpaceTab c then
          if isSpaceTab d then cs2 (d :: rest) else ' ' :: cs2 (d :: rest)
        else c :: cs2 (d :: rest) := rfl

theorem cs2_space (c : Char) (hc : isSpaceTab c = true) :
    ∀ rest : Str, cs2 (c :: rest) = ' ' :: cs2 (rest.dropWhile isSpaceTab) := by
  intro rest
  induction rest generalizing c with
  | nil => simp [cs2_one, hc, cs2_nil]
  | cons d r ih =>
    rw [cs2_two, if_pos hc]
    by_cases hd : isSpaceTab d = true
    · rw [if_pos hd, ih d hd, List.dropWhile_cons, if_pos hd]
    · rw [if_neg hd, List.dropWhile_cons, if_neg hd]

theorem cs2_nonspace (c : Char) (l : Str) (hc : isSpaceTab c = false) :
    cs2 (c :: l) = c :: cs2 l := by
  rcases l with _ | ⟨d, r⟩
  · simp [cs2_one, hc, cs2_nil]
  · rw [cs2_two, if_neg (by simp [hc])]

theorem collapseSpaces_eq_cs2 : ∀ l : Str, collapseSpaces l = cs2 l := by
  intro l
  induction l using collapseSpaces.induct with
  | case1 => simp [collapseSpaces, cs2_nil]
  | case2 c rest hsp ih =>
    rw [collapseSpaces, if_pos hsp, ih, cs2_space c hsp]
  | case3 c rest hsp ih =>
    have hsp' : isSpaceTab c = false := by cases h : isSpaceTab c <;> simp_all
    rw [collapseSpaces, if_neg hsp, ih, cs2_nonspace c rest hsp']

theorem cs2_head (l : Str) :
    (cs2 l).head? = l.head?.map (fun c => if isSpaceTab c then ' ' else c) := by
  rcases l with _ | ⟨c, rest⟩
  · rfl
  · cases hc : isSpaceTab c with
    | true => rw [cs2_space c hc rest]; simp [hc]
    | false => rw [cs2_nonspace c rest hc]; simp [hc]

theorem take1_of_take2 (x : Str) (a b : Char) (h : x.take 2 = [a, b]) :
    x.take 1 = [a] := by
  rcases x with _ | ⟨c, r⟩
  · simp at h
  · rcases r with _ | ⟨d, r2⟩
    · simp at h
    · simp at h ⊢
      exact h.1

theorem dotAfterDigit_take2 (CC : CharClasses) (l : Str) :
    (dotAfterDigit CC l).take 2 = l.take 2 := by
  induction l using dotAfterDigit.induct CC with
  | case1 c1 c2 c3 rest hcond ih =>
    have hc2 : c2 = '.' := of_decide_eq_true (Bool.and_eq_true_iff.1
      (Bool.and_eq_true_iff.1 hcond).1).2
    subst hc2
    rw [dotAfterDigit, if_pos hcond]
    simp
  | case2 c1 c2 c3 rest hcond ih =>
    rw [dotAfterDigit, if_neg hcond]
    rw [List.take_succ_cons, List.take_succ_cons]
    rw [take1_of_take2 _ c2 c3 ih]
    simp
  | case3 s hshort =>
    rcases s with _ | ⟨a, _ | ⟨b, _ | ⟨c, r⟩⟩⟩
    · rfl
    · rfl
    · rfl
    · exact absurd rfl (hshort a b c r)

theorem dotAfterSpaceGo_take2 (CC : CharClasses) (l : Str) :
    (dotAfterSpaceGo CC l).take 2 = l.take 2 := by
  induction l using dotAfterSpaceGo.induct CC with
  | case1 c1 c2 c3 rest hcond ih =>
    have hc2 : c2 = '.' := of_decide_eq_true (Bool.and_eq_true_iff.1
      (Bool.and_eq_true_iff.1 hcond).1).2
    subst hc2
    rw [dotAfterSpaceGo, if_pos hcond]
    simp
  | case2 c1 c2 c3 rest hcond ih =>
    rw [dotAfterSpaceGo, if_neg hcond]
    rw [List.take_succ_cons, List.take_succ_cons]
    rw [take1_of_take2 _ c2 c3 ih]
    simp
  | case3 s hshort =>
    rcases s with _ | ⟨a, _ | ⟨b, _ | ⟨c, r⟩⟩⟩
    · rfl
    · rfl
    · rfl
    · exact absurd rfl (hshort a b c r)

/-! ## C3 Stage 4: each scan is the identity on match-free input -/

theorem dotAfterDigit_id (CC : CharClasses) (l : Str)
    (h : noMatch3 (dadCond CC) l = true) : dotAfterDigit CC l = l := by
  induction l using dotAfterDigit.induct CC with
  | case1 c1 c2 c3 rest hcond ih =>
    exfalso
    have := (Bool.and_eq_true_iff.1 h).1
    unfold dadCond at this
    rw [hcond] at this
    exact absurd this (by decide)
  | case2 c1 c2 c3 rest hcond ih =>
    rw [dotAfterDigit, if_neg hcond, ih (noMatch3_tail _ c1 _ h)]
  | case3 s hshort =>
    rcases s with _ | ⟨a, _ | ⟨b, _ | ⟨c, r⟩⟩⟩
    · rfl
    · rfl
    · rfl
    · exact absurd rfl (hshort a b c r)

theorem dotAfterSpaceGo_id (CC : CharClasses) (l : Str)
    (h : noMatch3 (dasCond CC) l = true) : dotAfterSpaceGo CC l = l := by
  induction l using dotAfterSpaceGo.induct CC with
  | case1 c1 c2 c3 rest hcond ih =>
    exfalso
    have := (Bool.and_eq_true_iff.1 h).1
    unfold dasCond at this
    rw [hcond] at this
    exact absurd this (by decide)
  | case2 c1 c2 c3 rest hcond ih =>
    rw [dotAfterSpaceGo, if_neg hcond, ih (noMatch3_tail _ c1 _ h)]
  | case3 s hshort =>
    rcases s with _ | ⟨a, _ | ⟨b, _ | ⟨c, r⟩⟩⟩
    · rfl
    · rfl
    · rfl
    · exact absurd rfl (hshort a b c r)

theorem dotAfterSpace_id (CC : CharClasses) (l : Str)
    (h : noMatch3 (dasCond CC) l = true) (hs : startDotLetter l = false) :
    dotAfterSpace CC l = l := by
  unfold dotAfterSpace
  split
  · rename_i a rest
    have ha : isAsciiLetter a = false := by
      unfold startDotLetter at hs
      exact hs
    rw [if_neg (by simp [ha])]
    exact dotAfterSpaceGo_id CC _ h
  · exact dotAfterSpaceGo_id CC _ h

theorem cs2_id (l : Str) (ht : noTab l = true) (hss : noMatch2 pSS l = true) :
    cs2 l = l := by
  induction l with
  | nil => rfl
  | cons c rest ih =>
    have htr : noTab rest = true := by
      unfold noTab at ht ⊢
      rw [List.all_cons] at ht
      exact (Bool.and_eq_true_iff.1 ht).2
    have hssr := noMatch2_tail pSS c rest hss
    cases hc : isSpaceTab c with
    | false => rw [cs2_nonspace c rest hc, ih htr hssr]
    | true =>
      have hc' : c = ' ' := by
        unfold isSpaceTab at hc
        unfold noTab at ht
        rw [List.all_cons] at ht
        have := (Bool.and_eq_true_iff.1 ht).1
        rcases Bool.or_eq_true_iff.1 hc with h1 | h1
        · exact of_decide_eq_true h1
        · exact absurd (of_decide_eq_true h1) (by simpa using this)
      subst hc'
      rw [cs2_space ' ' (by decide) rest]
      rcases rest with _ | ⟨d, r⟩
      · rfl
      · have hd : isSpaceTab d = false := by
          unfold isSpaceTab
          have hd1 : ¬(d = ' ') := by
            intro hde
            subst hde
            unfold noMatch2 pSS at hss
            simp at hss
          have hd2 : ¬(d = '\t') := by
            intro hde
            subst hde
            unfold noTab at ht
            simp at ht
          simp [hd1, hd2]
        rw [List.dropWhile_cons, if_neg (by simp [hd])]
        rw [ih htr hssr]

theorem collapseNl_id (l : Str) (hss : noMatch2 pSS l = true)
    (hsn : noMatch2 pSnl l = true) : collapseNl l = l := by
  induction l using collapseNl.induct with
  | case1 => simp [collapseNl]
  | case2 c rest hnl ih =>
    have hc : c = '\n' := by
      by_contra hcne
      cases hcs : isSp c with
      | false =>
        rw [List.dropWhile_cons, if_neg (by simp [hcs])] at hnl
        simp only [List.head?_cons, Option.some.injEq] at hnl
        exact hcne hnl
      | true =>
        have hc' : c = ' ' := by
          unfold isSp at hcs
          exact of_decide_eq_true hcs
        subst hc'
        rw [List.dropWhile_cons, if_pos (by decide)] at hnl
        rcases rest with _ | ⟨d, r⟩
        · simp at hnl
        · cases hds : isSp d with
          | true =>
            have hd' : d = ' ' := of_decide_eq_true (by simpa [isSp] using hds)
            subst hd'
            unfold noMatch2 pSS at hss
            simp at hss
          | false =>
            rw [List.dropWhile_cons, if_neg (by simp [hds])] at hnl
            simp only [List.head?_cons, Option.some.injEq] at hnl
            subst hnl
            unfold noMatch2 pSnl at hsn
            simp at hsn
    subst hc
    rw [collapseNl, dif_pos hnl]
    have hdw : List.dropWhile isSp ('\n' :: rest) = '\n' :: rest := by
      rw [List.dropWhile_cons, if_neg (by decide)]
    rw [hdw] at ih ⊢
    simp only [List.tail_cons] at ih ⊢
    have hdwr : List.dropWhile isSp rest = rest := by
      rcases rest with _ | ⟨d, r⟩
      · rfl
      · have hd : isSp d = false := by
          cases hds : isSp d with
          | false => rfl
          | true =>
            have hd' : d = ' ' := of_decide_eq_true (by simpa [isSp] using hds)
            subst hd'
            unfold noMatch2 pSnl at hsn
            simp at hsn
        rw [List.dropWhile_cons, if_neg (by simp [hd])]
    rw [hdwr] at ih ⊢
    rw [ih (noMatch2_tail pSS '\n' rest hss) (noMatch2_tail pSnl '\n' rest hsn)]
  | case3 c rest hnl ih =>
    rw [collapseNl, dif_neg hnl]
    rw [ih (noMatch2_tail pSS c rest hss) (noMatch2_tail pSnl c rest hsn)]

/-! ## C3 Stage 5: scan outputs contain no further matches -/

theorem isAsciiLetter_not_dot (c : Char) (h : isAsciiLetter c = true) :
    decide (c = '.') = false := by
  by_cases hc : c = '.'
  · subst hc; exact absurd h (by decide)
  · simp [hc]

theorem dotAfterDigit_head (CC : CharClasses) (l : Str) :
    (dotAfterDigit CC l).head? = l.head? := by
  induction l using dotAfterDigit.induct CC with
  | case1 c1 c2 c3 rest hcond ih =>
    rw [dotAfterDigit, if_pos hcond]
    rfl
  | case2 c1 c2 c3 rest hcond ih =>
    rw [dotAfterDigit, if_neg hcond]
    rfl
  | case3 s hshort =>
    rcases s with _ | ⟨a, _ | ⟨b, _ | ⟨c, r⟩⟩⟩
    · rfl
    · rfl
    · rfl
    · exact absurd rfl (hshort a b c r)

theorem dotAfterSpaceGo_head (CC : CharClasses) (l : Str) :
    (dotAfterSpaceGo CC l).head? = l.head? := by
  induction l using dotAfterSpaceGo.induct CC with
  | case1 c1 c2 c3 rest hcond ih =>
    rw [dotAfterSpaceGo, if_pos hcond]
    rfl
  | case2 c1 c2 c3 rest hcond ih =>
    rw [dotAfterSpaceGo, if_neg hcond]
    rfl
  | case3 s hshort =>
    rcases s with _ | ⟨a, _ | ⟨b, _ | ⟨c, r⟩⟩⟩
    · rfl
    · rfl
    · rfl
    · exact absurd rfl (hshort a b c r)

theorem take2_first (a : Char) (rest : Str) (b c : Char)
    (h : (a :: rest).take 2 = [b, c]) : b = a := by
  rw [List.take_succ_cons] at h
  exact (List.cons.injEq _ _ _ _ ▸ h).1.symm

theorem take2_cons_cons (a b : Char) (r : Str) : (a :: b :: r).take 2 = [a, b] := rfl

theorem dotAfterDigit_out_noMatch (CC : CharClasses) :
    ∀ l : Str, noMatch3 (dadCond CC) (dotAfterDigit CC l) = true := by
  intro l
  induction l using dotAfterDigit.induct CC with
  | case1 c1 c2 c3 rest hcond ih =>
    have hc2 : c2 = '.' := of_decide_eq_true (Bool.and_eq_true_iff.1
      (Bool.and_eq_true_iff.1 hcond).1).2
    have hc3 : isAsciiLetter c3 = true := (Bool.and_eq_true_iff.1 hcond).2
    subst hc2
    rw [dotAfterDigit, if_pos hcond]
    apply noMatch3_cons_of
    · intro b c r hl
      rcases List.cons.injEq _ _ _ _ ▸ hl with ⟨rfl, hl2⟩
      rcases List.cons.injEq _ _ _ _ ▸ hl2 with ⟨rfl, -⟩
      unfold dadCond
      have h9 : isAsciiLetter ' ' = false := by decide
      simp [h9]
    apply noMatch3_cons_of
    · intro b c r hl
      rcases List.cons.injEq _ _ _ _ ▸ hl with ⟨rfl, -⟩
      unfold dadCond
      have h9 : decide ((' ' : Char) = '.') = false := by decide
      simp [h9]
    apply noMatch3_cons_of
    · intro b c r hl
      have hb : b = c3 := by
        have ht := dotAfterDigit_take2 CC (c3 :: rest)
        rw [hl, take2_cons_cons] at ht
        exact take2_first c3 rest b c ht.symm
      subst hb
      unfold dadCond
      rw [isAsciiLetter_not_dot _ hc3]
      simp
    exact ih
  | case2 c1 c2 c3 rest hcond ih =>
    rw [dotAfterDigit, if_neg hcond]
    apply noMatch3_cons_of
    · intro b c r hl
      have ht := dotAfterDigit_take2 CC (c2 :: c3 :: rest)
      rw [hl] at ht
      rw [List.take_succ_cons, List.take_succ_cons] at ht
      simp only [List.take_succ_cons, List.take_zero] at ht
      rcases List.cons.injEq _ _ _ _ ▸ ht with ⟨rfl, ht2⟩
      rcases List.cons.injEq _ _ _ _ ▸ ht2 with ⟨rfl, -⟩
      have : dadCond CC c1 b c = false := by
        unfold dadCond
        cases h2 : (CC.redigit c1 && decide (b = '.') && isAsciiLetter c) with
        | false => rfl
        | true => exact absurd h2 (by simpa using hcond)
      exact this
    exact ih
  | case3 s hshort =>
    rcases s with _ | ⟨a, _ | ⟨b, _ | ⟨c, r⟩⟩⟩
    · rfl
    · rfl
    · rfl
    · exact absurd rfl (hshort a b c r)

theorem dotAfterSpaceGo_out_noMatch (CC : CharClasses) :
    ∀ l : Str, noMatch3 (dasCond CC) (dotAfterSpaceGo CC l) = true := by
  intro l
  induction l using dotAfterSpaceGo.induct CC with
  | case1 c1 c2 c3 rest hcond ih =>
    have hc2 : c2 = '.' := of_decide_eq_true (Bool.and_eq_true_iff.1
      (Bool.and_eq_true_iff.1 hcond).1).2
    have hc3 : isAsciiLetter c3 = true := (Bool.and_eq_true_iff.1 hcond).2
    subst hc2
    rw [dotAfterSpaceGo, if_pos hcond]
    apply noMatch3_cons_of
    · intro b c r hl
      rcases List.cons.injEq _ _ _ _ ▸ hl with ⟨rfl, hl2⟩
      rcases List.cons.injEq _ _ _ _ ▸ hl2 with ⟨rfl, -⟩
      unfold dasCond
      have h9 : isAsciiLetter ' ' = false := by decide
      simp [h9]
    apply noMatch3_cons_of
    · intro b c r hl
      rcases List.cons.injEq _ _ _ _ ▸ hl with ⟨rfl, -⟩
      unfold dasCond
      have h9 : decide ((' ' : Char) = '.') = false := by decide
      simp [h9]
    apply noMatch3_cons_of
    · intro b c r hl
      have hb : b = c3 := by
        have ht := dotAfterSpaceGo_take2 CC (c3 :: rest)
        rw [hl, take2_cons_cons] at ht
        exact take2_first c3 rest b c ht.symm
      subst hb
      unfold dasCond
      rw [isAsciiLetter_not_dot _ hc3]
      simp
    exact ih
  | case2 c1 c2 c3 rest hcond ih =>
    rw [dotAfterSpaceGo, if_neg hcond]
    apply noMatch3_cons_of
    · intro b c r hl
      have ht := dotAfterSpaceGo_take2 CC (c2 :: c3 :: rest)
      rw [hl] at ht
      rw [List.take_succ_cons, List.take_succ_cons] at ht
      simp only [List.take_succ_cons, List.take_zero] at ht
      rcases List.cons.injEq _ _ _ _ ▸ ht with ⟨rfl, ht2⟩
      rcases List.cons.injEq _ _ _ _ ▸ ht2 with ⟨rfl, -⟩
      have : dasCond CC c1 b c = false := by
        unfold dasCond
        cases h2 : (CC.respace c1 && decide (b = '.') && isAsciiLetter c) with
        | false => rfl
        | true => exact absurd h2 (by simpa using hcond)
      exact this
    exact ih
  | case3 s hshort =>
    rcases s with _ | ⟨a, _ | ⟨b, _ | ⟨c, r⟩⟩⟩
    · rfl
    · rfl
    · rfl
    · exact absurd rfl (hshort a b c r)

theorem dotAfterSpace_out_noMatch (CC : CharClasses) (l : Str) :
    noMatch3 (dasCond CC) (dotAfterSpace CC l) = true := by
  unfold dotAfterSpace
  split
  · rename_i a rest
    by_cases hl : isAsciiLetter a = true
    · rw [if_pos hl]
      apply noMatch3_cons_of
      · intro b c r hl2
        rcases List.cons.injEq _ _ _ _ ▸ hl2 with ⟨rfl, -⟩
        unfold dasCond
        have h9 : decide ((' ' : Char) = '.') = false := by decide
        simp [h9]
      apply noMatch3_cons_of
      · intro b c r hl2
        have hb : b = a := by
          have ht := dotAfterSpaceGo_take2 CC (a :: rest)
          rw [hl2, take2_cons_cons] at ht
          exact take2_first a rest b c ht.symm
        subst hb
        unfold dasCond
        rw [isAsciiLetter_not_dot _ hl]
        simp
      exact dotAfterSpaceGo_out_noMatch CC (a :: rest)
    · rw [if_neg hl]
      exact dotAfterSpaceGo_out_noMatch CC _
  · exact dotAfterSpaceGo_out_noMatch CC _

theorem startDotLetter_cons_ne (a : Char) (l : Str) (ha : ¬(a = '.')) :
    startDotLetter (a :: l) = false := by
  unfold startDotLetter
  split
  · rename_i heq
    rcases List.cons.injEq _ _ _ _ ▸ heq with ⟨h1, -⟩
    exact absurd h1 ha
  · rfl

theorem list_of_take2 (x : Str) (a b : Char) (h : x.take 2 = [a, b]) :
    ∃ r, x = a :: b :: r := by
  rcases x with _ | ⟨c, _ | ⟨d, r⟩⟩
  · simp at h
  · simp at h
  · rw [List.take_succ_cons, List.take_succ_cons, List.take_zero] at h
    rcases List.cons.injEq _ _ _ _ ▸ h with ⟨rfl, h2⟩
    rcases List.cons.injEq _ _ _ _ ▸ h2 with ⟨rfl, -⟩
    exact ⟨r, rfl⟩

theorem startDotLetter_cons_dot (a : Char) (l : Str) :
    startDotLetter ('.' :: a :: l) = isAsciiLetter a := by
  unfold startDotLetter
  split
  · rename_i heq
    rcases List.cons.injEq _ _ _ _ ▸ heq with ⟨-, h2⟩
    rcases List.cons.injEq _ _ _ _ ▸ h2 with ⟨rfl, -⟩
    rfl
  · rename_i hne
    exact absurd rfl (fun h => hne a l h)

theorem startDotLetter_one (c : Char) : startDotLetter [c] = false := by
  unfold startDotLetter
  split
  · rename_i heq
    simp at heq
  · rfl

theorem dotAfterSpace_out_start (CC : CharClasses) (l : Str) :
    startDotLetter (dotAfterSpace CC l) = false := by
  unfold dotAfterSpace
  split
  · rename_i a rest
    by_cases hl : isAsciiLetter a = true
    · rw [if_pos hl, startDotLetter_cons_dot]
      decide
    · rw [if_neg hl]
      have ht := dotAfterSpaceGo_take2 CC ('.' :: a :: rest)
      rw [take2_cons_cons] at ht
      rcases list_of_take2 _ _ _ ht with ⟨r, hr⟩
      rw [hr, startDotLetter_cons_dot]
      exact Bool.eq_false_iff.mpr hl
  · rename_i hne
    rcases hl : l with _ | ⟨c, _ | ⟨d, r⟩⟩
    · rfl
    · rw [show dotAfterSpaceGo CC [c] = [c] from rfl]
      exact startDotLetter_one c
    · subst hl
      have hc : ¬(c = '.') := fun h9 => hne d r (by rw [h9])
      have ht := dotAfterSpaceGo_take2 CC (c :: d :: r)
      rw [take2_cons_cons] at ht
      rcases list_of_take2 _ _ _ ht with ⟨r2, hr2⟩
      rw [hr2]
      exact startDotLetter_cons_ne c _ hc

/-! ## C3 Stage 6: character facts, bracket spacing, collapse steps -/

theorem bracket_cases (c : Char) (h : isBracketChar c = true) :
    c = '[' ∨ c = ']' ∨ c = '(' ∨ c = ')' ∨ c = '\x7b' ∨ c = '\x7d' := by
  have h2 := h
  simp only [isBracketChar, Bool.or_eq_true, decide_eq_true_eq] at h2
  tauto

theorem bracket_facts (c : Char) (h : isBracketChar c = true) :
    c ≠ '.' ∧ c ≠ ' ' ∧ c ≠ '\n' ∧ isAsciiLetter c = false ∧
    isSpaceTab c = false ∧ isSp c = false := by
  rcases bracket_cases c h with rfl | rfl | rfl | rfl | rfl | rfl <;>
    exact ⟨by decide, by decide, by decide, by decide, by decide, by decide⟩

theorem letter_facts (c : Char) (h : isAsciiLetter c = true) :
    c ≠ ' ' ∧ c ≠ '\n' ∧ isBracketChar c = false := by
  refine ⟨?_, ?_, ?_⟩
  · intro he; subst he; exact absurd h (by decide)
  · intro he; subst he; exact absurd h (by decide)
  · cases hb : isBracketChar c with
    | false => rfl
    | true => exact absurd h (by rw [(bracket_facts c hb).2.2.2.1]; decide)

theorem headNotBracket_cons (c : Char) (r : Str) :
    headNotBracket (c :: r) = !isBracketChar c := rfl

theorem lastNotBracket_cons_cons (a b : Char) (r : Str) :
    lastNotBracket (a :: b :: r) = lastNotBracket (b :: r) := by
  unfold lastNotBracket
  rw [List.getLast?_cons_cons]

theorem lastNotBracket_tail (a : Char) (r : Str)
    (h : lastNotBracket (a :: r) = true) : lastNotBracket r = true := by
  rcases r with _ | ⟨b, r2⟩
  · rfl
  · rw [← lastNotBracket_cons_cons a b r2]; exact h

theorem lastNotBracket_cons (a : Char) (X : Str) (hX : X ≠ []) :
    lastNotBracket (a :: X) = lastNotBracket X := by
  rcases X with _ | ⟨b, r⟩
  · exact absurd rfl hX
  · exact lastNotBracket_cons_cons a b r

theorem lastNotBracket_one (c : Char) :
    lastNotBracket [c] = !isBracketChar c := rfl

theorem noTab_tail (a : Char) (r : Str) (h : noTab (a :: r) = true) :
    noTab r = true := by
  unfold noTab at h ⊢
  rw [List.all_cons] at h
  exact (Bool.and_eq_true_iff.1 h).2

theorem engInv_tail (a : Char) (r : Str) (h : EngInv (a :: r))
    (hh : headNotBracket r = true) : EngInv r := by
  obtain ⟨h1, h2, h3, h4, h5, h6, h7⟩ := h
  exact ⟨noTab_tail a r h1, noMatch2_tail _ _ _ h2, noMatch2_tail _ _ _ h3,
    noMatch2_tail _ _ _ h4, noMatch2_tail _ _ _ h5,
    lastNotBracket_tail a r h6, hh⟩

theorem SB_nil : spaceBrackets [] = [] := rfl

theorem SB_cons_br (c : Char) (r : Str) (h : isBracketChar c = true) :
    spaceBrackets (c :: r) = ' ' :: c :: ' ' :: spaceBrackets r := by
  unfold spaceBrackets
  rw [List.flatMap_cons, if_pos h]
  rfl

theorem SB_cons_nb (c : Char) (r : Str) (h : isBracketChar c = false) :
    spaceBrackets (c :: r) = c :: spaceBrackets r := by
  unfold spaceBrackets
  rw [List.flatMap_cons, if_neg (by simp [h])]
  rfl

theorem SB_ne_nil (c : Char) (r : Str) : spaceBrackets (c :: r) ≠ [] := by
  cases h : isBracketChar c with
  | true => rw [SB_cons_br c r h]; simp
  | false => rw [SB_cons_nb c r h]; simp

theorem SB_head (c : Char) (r : Str) :
    (spaceBrackets (c :: r)).head?
      = some (if isBracketChar c then ' ' else c) := by
  cases h : isBracketChar c with
  | true => rw [SB_cons_br c r h]; simp
  | false => rw [SB_cons_nb c r h]; simp

theorem dropWhile_isSp_sp (X : Str) :
    List.dropWhile isSp (' ' :: X) = List.dropWhile isSp X := by
  rw [List.dropWhile_cons, if_pos (by decide)]

theorem dropWhile_isSp_nonsp (c : Char) (X : Str) (h : isSp c = false) :
    List.dropWhile isSp (c :: X) = c :: X := by
  rw [List.dropWhile_cons, if_neg (by simp [h])]

theorem collapseNl_nil : collapseNl [] = [] := by
  simp [collapseNl]

theorem collapseNl_cons_nonl (a : Char) (X : Str) (ha : isSp a = false)
    (hanl : ¬(a = '\n')) : collapseNl (a :: X) = a :: collapseNl X := by
  have hc : ¬(List.dropWhile isSp (a :: X)).head? = some '\n' := by
    rw [dropWhile_isSp_nonsp a X ha]
    simp [hanl]
  rw [collapseNl, dif_neg hc]

theorem collapseNl_nl (X : Str) :
    collapseNl ('\n' :: X) = '\n' :: collapseNl (X.dropWhile isSp) := by
  have hd : List.dropWhile isSp ('\n' :: X) = '\n' :: X :=
    dropWhile_isSp_nonsp _ _ (by decide)
  have hc : (List.dropWhile isSp ('\n' :: X)).head? = some '\n' := by
    rw [hd]; rfl
  rw [collapseNl, dif_pos hc, hd]
  rfl

theorem collapseNl_sp_of_head_nl (X : Str) (h : X.head? = some '\n') :
    collapseNl (' ' :: X) = collapseNl X := by
  rcases X with _ | ⟨x, xs⟩
  · simp at h
  · simp only [List.head?_cons, Option.some.injEq] at h
    subst h
    have hd : List.dropWhile isSp (' ' :: '\n' :: xs) = '\n' :: xs := by
      rw [dropWhile_isSp_sp, dropWhile_isSp_nonsp _ _ (by decide)]
    have hc : (List.dropWhile isSp (' ' :: '\n' :: xs)).head? = some '\n' := by
      rw [hd]; rfl
    rw [collapseNl, dif_pos hc, hd, collapseNl_nl]
    rfl

theorem collapseNl_sp_cons_nonl (X : Str)
    (h : ¬((X.dropWhile isSp).head? = some '\n')) :
    collapseNl (' ' :: X) = ' ' :: collapseNl X := by
  have hc : ¬(List.dropWhile isSp (' ' :: X)).head? = some '\n' := by
    rw [dropWhile_isSp_sp]
    exact h
  rw [collapseNl, dif_neg hc]

theorem collapseNl_head (x : Str) :
    (collapseNl x).head? = some '\n' ∨ (collapseNl x).head? = x.head? := by
  rcases x with _ | ⟨c, rest⟩
  · right; rw [collapseNl_nil]
  · by_cases hc : (List.dropWhile isSp (c :: rest)).head? = some '\n'
    · left
      rw [collapseNl, dif_pos hc]
      rfl
    · right
      rw [collapseNl, dif_neg hc]
      rfl

theorem collapseNl_take2_cases (Z : Str) (b c : Char) (r' : Str)
    (h : collapseNl Z = b :: c :: r') :
    b = '\n' ∨ (∃ zs, Z = b :: zs ∧ (c = '\n' ∨ zs.head? = some c)) := by
  rcases Z with _ | ⟨z, zs⟩
  · rw [collapseNl_nil] at h
    exact absurd h (by simp)
  · by_cases hc2 : (List.dropWhile isSp (z :: zs)).head? = some '\n'
    · left
      rw [collapseNl, dif_pos hc2] at h
      exact (List.cons.injEq _ _ _ _ ▸ h).1.symm
    · right
      rw [collapseNl, dif_neg hc2] at h
      rcases List.cons.injEq _ _ _ _ ▸ h with ⟨rfl, h2⟩
      refine ⟨zs, rfl, ?_⟩
      rcases collapseNl_head zs with h3 | h3
      · left
        rw [h2] at h3
        simpa using h3
      · right
        rw [h2] at h3
        simp only [List.head?_cons] at h3
        exact h3.symm

theorem sp_dropWhile_suffix : ∀ l : Str, l.dropWhile isSp = l ∨
    ∃ x : Str, l = x ++ (' ' :: l.dropWhile isSp) := by
  intro l
  induction l with
  | nil => left; rfl
  | cons c r ih =>
    by_cases hc : isSp c = true
    · have hc' : c = ' ' := of_decide_eq_true (by simpa [isSp] using hc)
      subst hc'
      rw [dropWhile_isSp_sp]
      rcases ih with h | ⟨x, hx⟩
      · right
        exact ⟨[], by rw [h]; rfl⟩
      · right
        refine ⟨' ' :: x, ?_⟩
        rw [List.cons_append, ← hx]
    · have hc2 : isSp c = false := by
        cases h2 : isSp c with
        | false => rfl
        | true => exact absurd h2 hc
      left
      rw [dropWhile_isSp_nonsp c r hc2]

theorem dropWhile_isSp_head (l : Str) (c : Char)
    (h : (l.dropWhile isSp).head? = some c) : isSp c = false := by
  induction l with
  | nil => simp at h
  | cons a r ih =>
    by_cases ha : isSp a = true
    · have ha' : a = ' ' := of_decide_eq_true (by simpa [isSp] using ha)
      subst ha'
      rw [dropWhile_isSp_sp] at h
      exact ih h
    · have ha2 : isSp a = false := by
        cases h2 : isSp a with
        | false => rfl
        | true => exact absurd h2 ha
      rw [dropWhile_isSp_nonsp a r ha2] at h
      simp only [List.head?_cons, Option.some.injEq] at h
      subst h
      exact ha2

theorem cs2_sp_sp (X : Str) : cs2 (' ' :: ' ' :: X) = cs2 (' ' :: X) := by
  rw [cs2_two, if_pos (by decide), if_pos (by decide)]

theorem cs2_sp_ns (x : Char) (X : Str) (hx : isSpaceTab x = false) :
    cs2 (' ' :: x :: X) = ' ' :: cs2 (x :: X) := by
  rw [cs2_two, if_pos (by decide), if_neg (by simp [hx])]

theorem padBetween_sp_left (b : Char) : padBetween ' ' b = [] := by
  simp [padBetween, isBracketChar]

theorem padBetween_other (a b : Char) (h1 : isBracketChar a = false)
    (h2 : ¬(a = '\n')) : padBetween a b = [] := by
  simp [padBetween, h1, h2]

theorem padBetween_nl_br (b : Char) (hb : isBracketChar b = true) :
    padBetween '\n' b = [' '] := by
  simp [padBetween, hb]

theorem padBetween_nl_nb (b : Char) (hb : isBracketChar b = false) :
    padBetween '\n' b = [] := by
  have hnb : isBracketChar '\n' = false := by decide
  simp [padBetween, hb, hnb]

theorem padBetween_br_nl (a : Char) (ha : isBracketChar a = true) :
    padBetween a '\n' = [' '] := by
  simp [padBetween, ha]

theorem padBetween_sp_right (a : Char) : padBetween a ' ' = [] := by
  have h1 : isBracketChar ' ' = false := by decide
  simp [padBetween, h1]

theorem nlpad_nil : nlpad [] = [] := rfl

theorem nlpad_one (c : Char) : nlpad [c] = [c] := rfl

theorem nlpad_cons (a b : Char) (r : Str) :
    nlpad (a :: b :: r) = a :: (padBetween a b ++ nlpad (b :: r)) := rfl

theorem nlpad_head (l : Str) : (nlpad l).head? = l.head? := by
  rcases l with _ | ⟨a, _ | ⟨b, r⟩⟩ <;> rfl

/-! ## C3 Stage 7: membership and pair-scan preservation -/

theorem noMatch2_first (p : Char → Char → Bool) (a b : Char) (r : Str)
    (h : noMatch2 p (a :: b :: r) = true) : p a b = false := by
  unfold noMatch2 at h
  have := (Bool.and_eq_true_iff.1 h).1
  cases h2 : p a b with
  | false => rfl
  | true => rw [h2] at this; exact absurd this (by decide)

theorem noMatch3_first (p : Char → Char → Char → Bool) (a b c : Char) (r : Str)
    (h : noMatch3 p (a :: b :: c :: r) = true) : p a b c = false := by
  unfold noMatch3 at h
  have := (Bool.and_eq_true_iff.1 h).1
  cases h2 : p a b c with
  | false => rfl
  | true => rw [h2] at this; exact absurd this (by decide)

theorem noMatch2_of_suffix (p : Char → Char → Bool) (s l : Str)
    (h : s <:+ l) (hin : noMatch2 p l = true) : noMatch2 p s = true := by
  obtain ⟨pre, rfl⟩ := h
  exact noMatch2_suffix p pre s hin

theorem noMatch3_of_suffix (p : Char → Char → Char → Bool) (s l : Str)
    (h : s <:+ l) (hin : noMatch3 p l = true) : noMatch3 p s = true := by
  obtain ⟨pre, rfl⟩ := h
  exact noMatch3_suffix p pre s hin

theorem tail_suffix_of (l : Str) : l.tail <:+ l := by
  rcases l with _ | ⟨a, r⟩
  · exact ⟨[], rfl⟩
  · exact ⟨[a], rfl⟩

theorem collapseNl_arg_suffix (c : Char) (rest : Str) :
    (((c :: rest).dropWhile isSp).tail).dropWhile isSp <:+ (c :: rest) :=
  ((List.dropWhile_suffix _).trans (tail_suffix_of _)).trans
    (List.dropWhile_suffix _)

theorem spaceTab_false_facts (c : Char) (h : isSpaceTab c = false) :
    ¬(c = ' ') ∧ ¬(c = '\t') := by
  simp only [isSpaceTab, Bool.or_eq_false_iff, decide_eq_false_iff_not] at h
  exact h

theorem isSp_false_ne (c : Char) (h : isSp c = false) : ¬(c = ' ') := by
  simp only [isSp, decide_eq_false_iff_not] at h
  exact h

theorem collapseNl_head_nl (x : Str) (h : (collapseNl x).head? = some '\n') :
    (x.dropWhile isSp).head? = some '\n' := by
  rcases x with _ | ⟨z, zs⟩
  · rw [collapseNl_nil] at h
    simp at h
  · by_cases hz : (List.dropWhile isSp (z :: zs)).head? = some '\n'
    · exact hz
    · rw [collapseNl, dif_neg hz] at h
      simp only [List.head?_cons, Option.some.injEq] at h
      subst h
      rw [dropWhile_isSp_nonsp _ _ (by decide)]
      rfl

theorem all_of_mem_imp (q : Char → Bool) (x y : Str)
    (hsub : ∀ c, c ∈ y → c ∈ x ∨ q c = true)
    (hx : x.all q = true) : y.all q = true := by
  rw [List.all_eq_true] at hx ⊢
  intro c hc
  rcases hsub c hc with h | h
  · exact hx c h
  · exact h

theorem mem_spaceBrackets (c' : Char) (s : Str) (h : c' ∈ spaceBrackets s) :
    c' ∈ s ∨ c' = ' ' := by
  unfold spaceBrackets at h
  rcases List.mem_flatMap.1 h with ⟨d, hd, hc⟩
  by_cases hb : isBracketChar d = true
  · rw [if_pos hb] at hc
    have : c' = ' ' ∨ c' = d := by
      rcases List.mem_cons.1 hc with rfl | hc2
      · left; rfl
      · rcases List.mem_cons.1 hc2 with rfl | hc3
        · right; rfl
        · left; simpa using hc3
    rcases this with rfl | rfl
    · right; rfl
    · left; exact hd
  · rw [if_neg hb] at hc
    have : c' = d := by simpa using hc
    subst this
    left
    exact hd

theorem mem_dotAfterDigit (CC : CharClasses) (c' : Char) (l : Str)
    (h : c' ∈ dotAfterDigit CC l) : c' ∈ l ∨ c' = ' ' := by
  induction l using dotAfterDigit.induct CC with
  | case1 c1 c2 c3 rest hcond ih =>
    have hc2 : c2 = '.' := of_decide_eq_true (Bool.and_eq_true_iff.1
      (Bool.and_eq_true_iff.1 hcond).1).2
    subst hc2
    rw [dotAfterDigit, if_pos hcond] at h
    rcases List.mem_cons.1 h with rfl | h2
    · left; simp
    · rcases List.mem_cons.1 h2 with rfl | h3
      · left; simp
      · rcases List.mem_cons.1 h3 with rfl | h4
        · right; rfl
        · rcases ih h4 with h5 | h5
          · left; simp only [List.mem_cons] at h5 ⊢; tauto
          · right; exact h5
  | case2 c1 c2 c3 rest hcond ih =>
    rw [dotAfterDigit, if_neg hcond] at h
    rcases List.mem_cons.1 h with rfl | h2
    · left; simp
    · rcases ih h2 with h5 | h5
      · left; simp only [List.mem_cons] at h5 ⊢; tauto
      · right; exact h5
  | case3 s hshort =>
    rcases s with _ | ⟨a, _ | ⟨b, _ | ⟨c, r⟩⟩⟩
    · left; exact h
    · left; exact h
    · left; exact h
    · exact absurd rfl (hshort a b c r)

theorem mem_dotAfterSpaceGo (CC : CharClasses) (c' : Char) (l : Str)
    (h : c' ∈ dotAfterSpaceGo CC l) : c' ∈ l ∨ c' = ' ' := by
  induction l using dotAfterSpaceGo.induct CC with
  | case1 c1 c2 c3 rest hcond ih =>
    have hc2 : c2 = '.' := of_decide_eq_true (Bool.and_eq_true_iff.1
      (Bool.and_eq_true_iff.1 hcond).1).2
    subst hc2
    rw [dotAfterSpaceGo, if_pos hcond] at h
    rcases List.mem_cons.1 h with rfl | h2
    · left; simp
    · rcases List.mem_cons.1 h2 with rfl | h3
      · left; simp
      · rcases List.mem_cons.1 h3 with rfl | h4
        · right; rfl
        · rcases ih h4 with h5 | h5
          · left; simp only [List.mem_cons] at h5 ⊢; tauto
          · right; exact h5
  | case2 c1 c2 c3 rest hcond ih =>
    rw [dotAfterSpaceGo, if_neg hcond] at h
    rcases List.mem_cons.1 h with rfl | h2
    · left; simp
    · rcases ih h2 with h5 | h5
      · left; simp only [List.mem_cons] at h5 ⊢; tauto
      · right; exact h5
  | case3 s hshort =>
    rcases s with _ | ⟨a, _ | ⟨b, _ | ⟨c, r⟩⟩⟩
    · left; exact h
    · left; exact h
    · left; exact h
    · exact absurd rfl (hshort a b c r)

theorem mem_dotAfterSpace (CC : CharClasses) (c' : Char) (l : Str)
    (h : c' ∈ dotAfterSpace CC l) : c' ∈ l ∨ c' = ' ' := by
  unfold dotAfterSpace at h
  split at h
  · rename_i a rest
    by_cases hl : isAsciiLetter a = true
    · rw [if_pos hl] at h
      rcases List.mem_cons.1 h with rfl | h2
      · left; simp
      · rcases List.mem_cons.1 h2 with rfl | h3
        · right; rfl
        · rcases mem_dotAfterSpaceGo CC c' (a :: rest) h3 with h5 | h5
          · left; simp only [List.mem_cons] at h5 ⊢; tauto
          · right; exact h5
    · rw [if_neg hl] at h
      exact mem_dotAfterSpaceGo CC c' _ h
  · exact mem_dotAfterSpaceGo CC c' _ h

theorem mem_cs2 (c' : Char) (l : Str) (h : c' ∈ cs2 l) :
    (c' ∈ l ∧ isSpaceTab c' = false) ∨ c' = ' ' := by
  induction l with
  | nil => exact absurd h (by simp [cs2_nil])
  | cons c rest ih =>
    rcases rest with _ | ⟨d, r⟩
    · rw [cs2_one] at h
      by_cases hc : isSpaceTab c = true
      · rw [if_pos hc] at h
        right
        simpa using h
      · rw [if_neg hc] at h
        have : c' = c := by simpa using h
        subst this
        left
        exact ⟨by simp, by cases h2 : isSpaceTab c'; rfl; exact absurd h2 hc⟩
    · rw [cs2_two] at h
      by_cases hc : isSpaceTab c = true
      · rw [if_pos hc] at h
        by_cases hd : isSpaceTab d = true
        · rw [if_pos hd] at h
          rcases ih h with ⟨h5, h6⟩ | h5
          · left; exact ⟨List.mem_cons_of_mem c h5, h6⟩
          · right; exact h5
        · rw [if_neg hd] at h
          rcases List.mem_cons.1 h with rfl | h2
          · right; rfl
          · rcases ih h2 with ⟨h5, h6⟩ | h5
            · left; exact ⟨List.mem_cons_of_mem c h5, h6⟩
            · right; exact h5
      · rw [if_neg hc] at h
        rcases List.mem_cons.1 h with rfl | h2
        · left
          exact ⟨by simp, by cases h2 : isSpaceTab c'; rfl; exact absurd h2 hc⟩
        · rcases ih h2 with ⟨h5, h6⟩ | h5
          · left; exact ⟨List.mem_cons_of_mem c h5, h6⟩
          · right; exact h5

theorem mem_collapseNl (c' : Char) (l : Str) (h : c' ∈ collapseNl l) :
    c' ∈ l ∨ c' = '\n' := by
  induction l using collapseNl.induct with
  | case1 => exact absurd h (by simp [collapseNl_nil])
  | case2 c rest hnl ih =>
    rw [collapseNl, dif_pos hnl] at h
    rcases List.mem_cons.1 h with rfl | h2
    · right; rfl
    · rcases ih h2 with h5 | h5
      · left; exact (collapseNl_arg_suffix c rest).subset h5
      · right; exact h5
  | case3 c rest hnl ih =>
    rw [collapseNl, dif_neg hnl] at h
    rcases List.mem_cons.1 h with rfl | h2
    · left; simp
    · rcases ih h2 with h5 | h5
      · left; exact List.mem_cons_of_mem c h5
      · right; exact h5

theorem cs2_out_pSS : ∀ l : Str, noMatch2 pSS (cs2 l) = true := by
  intro l
  induction l with
  | nil => rfl
  | cons c rest ih =>
    rcases rest with _ | ⟨d, r⟩
    · rw [cs2_one]
      by_cases hc : isSpaceTab c = true
      · rw [if_pos hc]; rfl
      · rw [if_neg hc]; rfl
    · rw [cs2_two]
      by_cases hc : isSpaceTab c = true
      · rw [if_pos hc]
        by_cases hd : isSpaceTab d = true
        · rw [if_pos hd]; exact ih
        · rw [if_neg hd]
          apply noMatch2_cons_of
          · intro b hb
            rw [cs2_head] at hb
            have hd2 : isSpaceTab d = false := by
              cases h2 : isSpaceTab d; rfl; exact absurd h2 hd
            have hbd : b = d := by simpa [hd2] using hb.symm
            subst hbd
            have := (spaceTab_false_facts b hd2).1
            simp [pSS, this]
          · exact ih
      · have hc2 : isSpaceTab c = false := by
          cases h2 : isSpaceTab c; rfl; exact absurd h2 hc
        rw [if_neg hc]
        apply noMatch2_cons_of
        · intro b hb
          have := (spaceTab_false_facts c hc2).1
          simp [pSS, this]
        · exact ih

theorem CNL_out_pSnl : ∀ l : Str, noMatch2 pSnl (collapseNl l) = true := by
  intro l
  induction l using collapseNl.induct with
  | case1 => rw [collapseNl_nil]; rfl
  | case2 c rest hnl ih =>
    rw [collapseNl, dif_pos hnl]
    apply noMatch2_cons_of
    · intro b hb
      rcases collapseNl_head ((((c :: rest).dropWhile isSp).tail).dropWhile isSp)
        with hA | hA
      · rw [hb] at hA
        have hbe : b = '\n' := by simpa using hA
        subst hbe
        decide
      · rw [hb] at hA
        have hsp := dropWhile_isSp_head _ b hA.symm
        have hne := isSp_false_ne b hsp
        simp [pSnl, hne]
    · exact ih
  | case3 c rest hnl ih =>
    rw [collapseNl, dif_neg hnl]
    apply noMatch2_cons_of
    · intro b hb
      have hcnl : ¬(c = '\n') := by
        intro hce
        subst hce
        exact hnl (by rw [dropWhile_isSp_nonsp _ _ (by decide)]; rfl)
      by_cases hcs : c = ' '
      · subst hcs
        have hbnl : ¬(b = '\n') := by
          intro hbe
          subst hbe
          have := collapseNl_head_nl rest hb
          exact hnl (by rw [dropWhile_isSp_sp]; exact this)
        simp [pSnl, hbnl]
      · simp [pSnl, hcs, hcnl]
    · exact ih

theorem CNL_pres_noMatch2 (p : Char → Char → Bool)
    (hmid2 : ∀ a, p a '\n' = false) (hnlfst : ∀ b, p '\n' b = false) :
    ∀ l : Str, noMatch2 p l = true → noMatch2 p (collapseNl l) = true := by
  intro l
  induction l using collapseNl.induct with
  | case1 => intro h; rw [collapseNl_nil]; rfl
  | case2 c rest hnl ih =>
    intro h
    rw [collapseNl, dif_pos hnl]
    apply noMatch2_cons_of
    · intro b hb
      exact hnlfst b
    · exact ih (noMatch2_of_suffix p _ _ (collapseNl_arg_suffix c rest) h)
  | case3 c rest hnl ih =>
    intro h
    rw [collapseNl, dif_neg hnl]
    apply noMatch2_cons_of
    · intro b hb
      rcases collapseNl_head rest with hA | hA
      · rw [hb] at hA
        have hbe : b = '\n' := by simpa using hA
        subst hbe
        exact hmid2 c
      · rw [hb] at hA
        rcases rest with _ | ⟨d, r2⟩
        · simp at hA
        · have hbd : b = d := by simpa using hA
          subst hbd
          exact noMatch2_first p c _ r2 h
    · exact ih (noMatch2_tail p c rest h)

theorem cs2_pres_noMatch2 (p : Char → Char → Bool)
    (h1 : ∀ x, p x ' ' = false) (h2 : ∀ y, p ' ' y = false) :
    ∀ l : Str, noMatch2 p l = true → noMatch2 p (cs2 l) = true := by
  intro l
  induction l with
  | nil => intro h; rfl
  | cons c rest ih =>
    intro h
    rcases rest with _ | ⟨d, r⟩
    · rw [cs2_one]
      by_cases hc : isSpaceTab c = true
      · rw [if_pos hc]; rfl
      · rw [if_neg hc]; rfl
    · rw [cs2_two]
      by_cases hc : isSpaceTab c = true
      · rw [if_pos hc]
        by_cases hd : isSpaceTab d = true
        · rw [if_pos hd]
          exact ih (noMatch2_tail p c _ h)
        · rw [if_neg hd]
          apply noMatch2_cons_of
          · intro b hb
            exact h2 b
          · exact ih (noMatch2_tail p c _ h)
      · rw [if_neg hc]
        apply noMatch2_cons_of
        · intro b hb
          rw [cs2_head] at hb
          by_cases hd : isSpaceTab d = true
          · have hbe : b = ' ' := by simpa [hd] using hb.symm
            subst hbe
            exact h1 c
          · have hd2 : isSpaceTab d = false := by
              cases h9 : isSpaceTab d; rfl; exact absurd h9 hd
            have hbd : b = d := by simpa [hd2] using hb.symm
            subst hbd
            exact noMatch2_first p c b r h
        · exact ih (noMatch2_tail p c _ h)

theorem dotAfterDigit_pres_noMatch2 (CC : CharClasses) (p : Char → Char → Bool)
    (hL : ∀ c, isAsciiLetter c = true → p ' ' c = false)
    (hD : p '.' ' ' = false) :
    ∀ l : Str, noMatch2 p l = true → noMatch2 p (dotAfterDigit CC l) = true := by
  intro l
  induction l using dotAfterDigit.induct CC with
  | case1 c1 c2 c3 rest hcond ih =>
    intro h
    have hc2 : c2 = '.' := of_decide_eq_true (Bool.and_eq_true_iff.1
      (Bool.and_eq_true_iff.1 hcond).1).2
    have hc3 : isAsciiLetter c3 = true := (Bool.and_eq_true_iff.1 hcond).2
    subst hc2
    rw [dotAfterDigit, if_pos hcond]
    apply noMatch2_cons_of
    · intro b hb
      have hbe : b = '.' := by simpa using hb.symm
      subst hbe
      exact noMatch2_first p c1 '.' _ h
    apply noMatch2_cons_of
    · intro b hb
      have hbe : b = ' ' := by simpa using hb.symm
      subst hbe
      exact hD
    apply noMatch2_cons_of
    · intro b hb
      rw [dotAfterDigit_head] at hb
      have hbe : b = c3 := by simpa using hb.symm
      subst hbe
      exact hL _ hc3
    · exact ih (noMatch2_tail p '.' _ (noMatch2_tail p c1 _ h))
  | case2 c1 c2 c3 rest hcond ih =>
    intro h
    rw [dotAfterDigit, if_neg hcond]
    apply noMatch2_cons_of
    · intro b hb
      rw [dotAfterDigit_head] at hb
      have hbe : b = c2 := by simpa using hb.symm
      subst hbe
      exact noMatch2_first p c1 _ _ h
    · exact ih (noMatch2_tail p c1 _ h)
  | case3 s hshort =>
    intro h
    rcases s with _ | ⟨a, _ | ⟨b, _ | ⟨c, r⟩⟩⟩
    · exact h
    · exact h
    · exact h
    · exact absurd rfl (hshort a b c r)

theorem dotAfterSpaceGo_pres_noMatch2 (CC : CharClasses) (p : Char → Char → Bool)
    (hL : ∀ c, isAsciiLetter c = true → p ' ' c = false)
    (hD : p '.' ' ' = false) :
    ∀ l : Str, noMatch2 p l = true → noMatch2 p (dotAfterSpaceGo CC l) = true := by
  intro l
  induction l using dotAfterSpaceGo.induct CC with
  | case1 c1 c2 c3 rest hcond ih =>
    intro h
    have hc2 : c2 = '.' := of_decide_eq_true (Bool.and_eq_true_iff.1
      (Bool.and_eq_true_iff.1 hcond).1).2
    have hc3 : isAsciiLetter c3 = true := (Bool.and_eq_true_iff.1 hcond).2
    subst hc2
    rw [dotAfterSpaceGo, if_pos hcond]
    apply noMatch2_cons_of
    · intro b hb
      have hbe : b = '.' := by simpa using hb.symm
      subst hbe
      exact noMatch2_first p c1 '.' _ h
    apply noMatch2_cons_of
    · intro b hb
      have hbe : b = ' ' := by simpa using hb.symm
      subst hbe
      exact hD
    apply noMatch2_cons_of
    · intro b hb
      rw [dotAfterSpaceGo_head] at hb
      have hbe : b = c3 := by simpa using hb.symm
      subst hbe
      exact hL _ hc3
    · exact ih (noMatch2_tail p '.' _ (noMatch2_tail p c1 _ h))
  | case2 c1 c2 c3 rest hcond ih =>
    intro h
    rw [dotAfterSpaceGo, if_neg hcond]
    apply noMatch2_cons_of
    · intro b hb
      rw [dotAfterSpaceGo_head] at hb
      have hbe : b = c2 := by simpa using hb.symm
      subst hbe
      exact noMatch2_first p c1 _ _ h
    · exact ih (noMatch2_tail p c1 _ h)
  | case3 s hshort =>
    intro h
    rcases s with _ | ⟨a, _ | ⟨b, _ | ⟨c, r⟩⟩⟩
    · exact h
    · exact h
    · exact h
    · exact absurd rfl (hshort a b c r)

theorem dotAfterSpace_pres_noMatch2 (CC : CharClasses) (p : Char → Char → Bool)
    (hL : ∀ c, isAsciiLetter c = true → p ' ' c = false)
    (hD : p '.' ' ' = false) (l : Str) (h : noMatch2 p l = true) :
    noMatch2 p (dotAfterSpace CC l) = true := by
  unfold dotAfterSpace
  split
  · rename_i a rest
    by_cases hl : isAsciiLetter a = true
    · rw [if_pos hl]
      apply noMatch2_cons_of
      · intro b hb
        have hbe : b = ' ' := by simpa using hb.symm
        subst hbe
        exact hD
      apply noMatch2_cons_of
      · intro b hb
        rw [dotAfterSpaceGo_head] at hb
        have hbe : b = a := by simpa using hb.symm
        subst hbe
        exact hL _ hl
      · exact dotAfterSpaceGo_pres_noMatch2 CC p hL hD _ (noMatch2_tail p '.' _ h)
    · rw [if_neg hl]
      exact dotAfterSpaceGo_pres_noMatch2 CC p hL hD _ h
  · exact dotAfterSpaceGo_pres_noMatch2 CC p hL hD _ h

/-! ## C3 Stage 8: triple-scan preservation through the later steps -/

theorem dotAfterSpaceGo_pres_noMatch3 (CC : CharClasses)
    (p : Char → Char → Char → Bool)
    (h1 : ∀ a, p a '.' ' ' = false)
    (h2 : ∀ c, p '.' ' ' c = false)
    (h3 : ∀ b c, isAsciiLetter b = true → p ' ' b c = false) :
    ∀ l : Str, noMatch3 p l = true → noMatch3 p (dotAfterSpaceGo CC l) = true := by
  intro l
  induction l using dotAfterSpaceGo.induct CC with
  | case1 c1 c2 c3 rest hcond ih =>
    intro h
    have hc2 : c2 = '.' := of_decide_eq_true (Bool.and_eq_true_iff.1
      (Bool.and_eq_true_iff.1 hcond).1).2
    have hc3 : isAsciiLetter c3 = true := (Bool.and_eq_true_iff.1 hcond).2
    subst hc2
    rw [dotAfterSpaceGo, if_pos hcond]
    apply noMatch3_cons_of
    · intro b c r hl
      rcases List.cons.injEq _ _ _ _ ▸ hl with ⟨rfl, hl2⟩
      rcases List.cons.injEq _ _ _ _ ▸ hl2 with ⟨rfl, -⟩
      exact h1 c1
    apply noMatch3_cons_of
    · intro b c r hl
      rcases List.cons.injEq _ _ _ _ ▸ hl with ⟨rfl, -⟩
      exact h2 c
    apply noMatch3_cons_of
    · intro b c r hl
      have hb : b = c3 := by
        have ht := dotAfterSpaceGo_take2 CC (c3 :: rest)
        rw [hl, take2_cons_cons] at ht
        exact take2_first c3 rest b c ht.symm
      subst hb
      exact h3 _ _ hc3
    · exact ih (noMatch3_tail p '.' _ (noMatch3_tail p c1 _ h))
  | case2 c1 c2 c3 rest hcond ih =>
    intro h
    rw [dotAfterSpaceGo, if_neg hcond]
    apply noMatch3_cons_of
    · intro b c r hl
      have ht := dotAfterSpaceGo_take2 CC (c2 :: c3 :: rest)
      rw [hl, take2_cons_cons, take2_cons_cons] at ht
      rcases List.cons.injEq _ _ _ _ ▸ ht with ⟨rfl, ht2⟩
      rcases List.cons.injEq _ _ _ _ ▸ ht2 with ⟨rfl, -⟩
      exact noMatch3_first p c1 _ _ _ h
    · exact ih (noMatch3_tail p c1 _ h)
  | case3 s hshort =>
    intro h
    rcases s with _ | ⟨a, _ | ⟨b, _ | ⟨c, r⟩⟩⟩
    · exact h
    · exact h
    · exact h
    · exact absurd rfl (hshort a b c r)

theorem dotAfterSpace_pres_noMatch3 (CC : CharClasses)
    (p : Char → Char → Char → Bool)
    (h1 : ∀ a, p a '.' ' ' = false)
    (h2 : ∀ c, p '.' ' ' c = false)
    (h3 : ∀ b c, isAsciiLetter b = true → p ' ' b c = false)
    (l : Str) (h : noMatch3 p l = true) :
    noMatch3 p (dotAfterSpace CC l) = true := by
  unfold dotAfterSpace
  split
  · rename_i a rest
    by_cases hl : isAsciiLetter a = true
    · rw [if_pos hl]
      apply noMatch3_cons_of
      · intro b c r hl2
        rcases List.cons.injEq _ _ _ _ ▸ hl2 with ⟨rfl, -⟩
        exact h2 c
      apply noMatch3_cons_of
      · intro b c r hl2
        have hb : b = a := by
          have ht := dotAfterSpaceGo_take2 CC (a :: rest)
          rw [hl2, take2_cons_cons] at ht
          exact take2_first a rest b c ht.symm
        subst hb
        exact h3 _ _ hl
      · exact dotAfterSpaceGo_pres_noMatch3 CC p h1 h2 h3 _
          (noMatch3_tail p '.' _ h)
    · rw [if_neg hl]
      exact dotAfterSpaceGo_pres_noMatch3 CC p h1 h2 h3 _ h
  · exact dotAfterSpaceGo_pres_noMatch3 CC p h1 h2 h3 _ h

theorem cs2_pres_noMatch3 (p : Char → Char → Char → Bool)
    (hsub : ∀ r b c, isSpaceTab r = true → p r b c = p ' ' b c)
    (hm : ∀ a c, p a ' ' c = false)
    (hl2 : ∀ a b, p a b ' ' = false) :
    ∀ l : Str, noMatch3 p l = true → noMatch3 p (cs2 l) = true := by
  intro l
  induction l with
  | nil => intro h; rfl
  | cons c rest ih =>
    intro h
    rcases rest with _ | ⟨d, r⟩
    · rw [cs2_one]
      by_cases hc : isSpaceTab c = true
      · rw [if_pos hc]; rfl
      · rw [if_neg hc]; rfl
    · rw [cs2_two]
      by_cases hc : isSpaceTab c = true
      · rw [if_pos hc]
        by_cases hd : isSpaceTab d = true
        · rw [if_pos hd]
          exact ih (noMatch3_tail p c _ h)
        · rw [if_neg hd]
          have hd2 : isSpaceTab d = false := by
            cases h9 : isSpaceTab d; rfl; exact absurd h9 hd
          apply noMatch3_cons_of
          · intro b c' r' heq
            rw [cs2_nonspace d r hd2] at heq
            rcases List.cons.injEq _ _ _ _ ▸ heq with ⟨rfl, heq2⟩
            rcases r with _ | ⟨e, r2⟩
            · rw [cs2_nil] at heq2
              exact absurd heq2 (by simp)
            · have hc' : (cs2 (e :: r2)).head? = some c' := by rw [heq2]; rfl
              rw [cs2_head] at hc'
              by_cases he : isSpaceTab e = true
              · have hce : c' = ' ' := by simpa [he] using hc'.symm
                subst hce
                exact hl2 ' ' d
              · have he2 : isSpaceTab e = false := by
                  cases h9 : isSpaceTab e; rfl; exact absurd h9 he
                have hce : c' = e := by simpa [he2] using hc'.symm
                subst hce
                have h0 := noMatch3_first p c d c' r2 h
                rw [hsub c d c' hc] at h0
                exact h0
          · exact ih (noMatch3_tail p c _ h)
      · rw [if_neg hc]
        apply noMatch3_cons_of
        · intro b c' r' heq
          by_cases hd : isSpaceTab d = true
          · have hb : (cs2 (d :: r)).head? = some b := by rw [heq]; rfl
            rw [cs2_head] at hb
            have hbe : b = ' ' := by simpa [hd] using hb.symm
            subst hbe
            exact hm c c'
          · have hd2 : isSpaceTab d = false := by
              cases h9 : isSpaceTab d; rfl; exact absurd h9 hd
            rw [cs2_nonspace d r hd2] at heq
            rcases List.cons.injEq _ _ _ _ ▸ heq with ⟨rfl, heq2⟩
            rcases r with _ | ⟨e, r2⟩
            · rw [cs2_nil] at heq2
              exact absurd heq2 (by simp)
            · have hc' : (cs2 (e :: r2)).head? = some c' := by rw [heq2]; rfl
              rw [cs2_head] at hc'
              by_cases he : isSpaceTab e = true
              · have hce : c' = ' ' := by simpa [he] using hc'.symm
                subst hce
                exact hl2 c d
              · have he2 : isSpaceTab e = false := by
                  cases h9 : isSpaceTab e; rfl; exact absurd h9 he
                have hce : c' = e := by simpa [he2] using hc'.symm
                subst hce
                exact noMatch3_first p c d c' r2 h
        · exact ih (noMatch3_tail p c _ h)

theorem CNL_pres_noMatch3 (p : Char → Char → Char → Bool)
    (hmid : ∀ a c, p a '\n' c = false)
    (hlast : ∀ a b, p a b '\n' = false)
    (hsub : ∀ b c, p ' ' b c = p '\n' b c) :
    ∀ l : Str, noMatch3 p l = true → noMatch3 p (collapseNl l) = true := by
  intro l
  induction l using collapseNl.induct with
  | case1 =>
    intro h
    rw [collapseNl_nil]
    rfl
  | case2 c rest hnl ih =>
    intro h
    rw [collapseNl, dif_pos hnl]
    apply noMatch3_cons_of
    · intro b c' r' heq
      rcases collapseNl_take2_cases _ b c' r' heq with hb | ⟨zs, hZ, hc'⟩
      · subst hb
        exact hmid '\n' c'
      · rcases hc' with hc' | hc'
        · subst hc'
          exact hlast '\n' b
        · rcases zs with _ | ⟨z2, zs2⟩
          · simp at hc'
          · have hc'2 : z2 = c' := by simpa using hc'
            subst hc'2
            have hWnm : noMatch3 p (List.dropWhile isSp (c :: rest)) = true :=
              noMatch3_of_suffix p _ _ (List.dropWhile_suffix _) h
            rcases hW : List.dropWhile isSp (c :: rest) with _ | ⟨w, W2⟩
            · rw [hW] at hnl
              simp at hnl
            · have hw : w = '\n' := by
                rw [hW] at hnl
                simpa using hnl
              subst hw
              rw [hW] at hWnm hZ
              simp only [List.tail_cons] at hZ
              rcases sp_dropWhile_suffix W2 with hws | ⟨x, hx⟩
              · rw [hws] at hZ
                rw [hZ] at hWnm
                exact noMatch3_first p '\n' b z2 _ hWnm
              · rw [hZ] at hx
                have h3 : noMatch3 p (' ' :: b :: z2 :: zs2) = true := by
                  have h4 := noMatch3_tail p '\n' W2 hWnm
                  rw [hx] at h4
                  exact noMatch3_suffix p x _ h4
                have h5 := noMatch3_first p ' ' b z2 _ h3
                rw [hsub b z2] at h5
                exact h5
    · exact ih (noMatch3_of_suffix p _ _ (collapseNl_arg_suffix c rest) h)
  | case3 c rest hnl ih =>
    intro h
    rw [collapseNl, dif_neg hnl]
    apply noMatch3_cons_of
    · intro b c' r' heq
      rcases collapseNl_take2_cases _ b c' r' heq with hb | ⟨zs, hZ, hc'⟩
      · subst hb
        exact hmid c c'
      · rcases hc' with hc' | hc'
        · subst hc'
          exact hlast c b
        · rcases zs with _ | ⟨z2, zs2⟩
          · simp at hc'
          · have hc'2 : z2 = c' := by simpa using hc'
            subst hc'2
            rw [hZ] at h
            exact noMatch3_first p c b z2 _ h
    · exact ih (noMatch3_tail p c rest h)

/-! ## C3 Stage 9: first and last characters through the pipeline -/

theorem getLast?_cons_ne_nil (a : Char) (X : Str) (hX : X ≠ []) :
    (a :: X).getLast? = X.getLast? := by
  rcases X with _ | ⟨b, r⟩
  · exact absurd rfl hX
  · exact List.getLast?_cons_cons

theorem dotAfterDigit_ne_nil (CC : CharClasses) (c : Char) (r : Str) :
    dotAfterDigit CC (c :: r) ≠ [] := by
  intro he
  have h2 := dotAfterDigit_head CC (c :: r)
  rw [he] at h2
  simp at h2

theorem dotAfterSpaceGo_ne_nil (CC : CharClasses) (c : Char) (r : Str) :
    dotAfterSpaceGo CC (c :: r) ≠ [] := by
  intro he
  have h2 := dotAfterSpaceGo_head CC (c :: r)
  rw [he] at h2
  simp at h2

theorem dotAfterDigit_last (CC : CharClasses) (l : Str) :
    (dotAfterDigit CC l).getLast? = l.getLast? := by
  induction l using dotAfterDigit.induct CC with
  | case1 c1 c2 c3 rest hcond ih =>
    have hc2 : c2 = '.' := of_decide_eq_true (Bool.and_eq_true_iff.1
      (Bool.and_eq_true_iff.1 hcond).1).2
    subst hc2
    rw [dotAfterDigit, if_pos hcond]
    have hL : (c1 :: '.' :: ' ' :: dotAfterDigit CC (c3 :: rest)).getLast?
        = (dotAfterDigit CC (c3 :: rest)).getLast? := by
      rw [getLast?_cons_ne_nil c1 _ (by simp),
        getLast?_cons_ne_nil '.' _ (by simp),
        getLast?_cons_ne_nil ' ' _ (dotAfterDigit_ne_nil CC c3 rest)]
    have hR : (c1 :: '.' :: c3 :: rest).getLast? = (c3 :: rest).getLast? := by
      rw [getLast?_cons_ne_nil c1 _ (by simp),
        getLast?_cons_ne_nil '.' _ (by simp)]
    rw [hL, hR, ih]
  | case2 c1 c2 c3 rest hcond ih =>
    rw [dotAfterDigit, if_neg hcond,
      getLast?_cons_ne_nil c1 _ (dotAfterDigit_ne_nil CC c2 (c3 :: rest)), ih,
      ← getLast?_cons_ne_nil c1 (c2 :: c3 :: rest) (by simp)]
  | case3 s hshort =>
    rcases s with _ | ⟨a, _ | ⟨b, _ | ⟨c, r⟩⟩⟩
    · rfl
    · rfl
    · rfl
    · exact absurd rfl (hshort a b c r)

theorem dotAfterSpaceGo_last (CC : CharClasses) (l : Str) :
    (dotAfterSpaceGo CC l).getLast? = l.getLast? := by
  induction l using dotAfterSpaceGo.induct CC with
  | case1 c1 c2 c3 rest hcond ih =>
    have hc2 : c2 = '.' := of_decide_eq_true (Bool.and_eq_true_iff.1
      (Bool.and_eq_true_iff.1 hcond).1).2
    subst hc2
    rw [dotAfterSpaceGo, if_pos hcond]
    have hL : (c1 :: '.' :: ' ' :: dotAfterSpaceGo CC (c3 :: rest)).getLast?
        = (dotAfterSpaceGo CC (c3 :: rest)).getLast? := by
      rw [getLast?_cons_ne_nil c1 _ (by simp),
        getLast?_cons_ne_nil '.' _ (by simp),
        getLast?_cons_ne_nil ' ' _ (dotAfterSpaceGo_ne_nil CC c3 rest)]
    have hR : (c1 :: '.' :: c3 :: rest).getLast? = (c3 :: rest).getLast? := by
      rw [getLast?_cons_ne_nil c1 _ (by simp),
        getLast?_cons_ne_nil '.' _ (by simp)]
    rw [hL, hR, ih]
  | case2 c1 c2 c3 rest hcond ih =>
    rw [dotAfterSpaceGo, if_neg hcond,
      getLast?_cons_ne_nil c1 _ (dotAfterSpaceGo_ne_nil CC c2 (c3 :: rest)), ih,
      ← getLast?_cons_ne_nil c1 (c2 :: c3 :: rest) (by simp)]
  | case3 s hshort =>
    rcases s with _ | ⟨a, _ | ⟨b, _ | ⟨c, r⟩⟩⟩
    · rfl
    · rfl
    · rfl
    · exact absurd rfl (hshort a b c r)

theorem dotAfterSpace_last (CC : CharClasses) (l : Str) :
    (dotAfterSpace CC l).getLast? = l.getLast? := by
  unfold dotAfterSpace
  split
  · rename_i a rest
    by_cases hl : isAsciiLetter a = true
    · rw [if_pos hl,
        getLast?_cons_ne_nil '.' _ (by simp),
        getLast?_cons_ne_nil ' ' _ (dotAfterSpaceGo_ne_nil CC a rest),
        dotAfterSpaceGo_last,
        ← getLast?_cons_ne_nil '.' (a :: rest) (by simp)]
    · rw [if_neg hl]
      exact dotAfterSpaceGo_last CC _
  · exact dotAfterSpaceGo_last CC _

theorem dotAfterSpace_head (CC : CharClasses) (l : Str) :
    (dotAfterSpace CC l).head? = l.head? := by
  unfold dotAfterSpace
  split
  · rename_i a rest
    by_cases hl : isAsciiLetter a = true
    · rw [if_pos hl]
      rfl
    · rw [if_neg hl]
      exact dotAfterSpaceGo_head CC _
  · exact dotAfterSpaceGo_head CC _

theorem cs2_ne_nil (c : Char) (r : Str) : cs2 (c :: r) ≠ [] := by
  intro he
  have h2 := cs2_head (c :: r)
  rw [he] at h2
  simp at h2

theorem cs2_pres_lastNB :
    ∀ l : Str, lastNotBracket l = true → lastNotBracket (cs2 l) = true := by
  intro l
  induction l with
  | nil => intro h; exact h
  | cons c rest ih =>
    intro h
    rcases rest with _ | ⟨d, r⟩
    · rw [cs2_one]
      by_cases hc : isSpaceTab c = true
      · rw [if_pos hc]; decide
      · rw [if_neg hc]; exact h
    · rw [cs2_two]
      by_cases hc : isSpaceTab c = true
      · rw [if_pos hc]
        by_cases hd : isSpaceTab d = true
        · rw [if_pos hd]
          exact ih (lastNotBracket_tail c _ h)
        · rw [if_neg hd, lastNotBracket_cons ' ' _ (cs2_ne_nil d r)]
          exact ih (lastNotBracket_tail c _ h)
      · rw [if_neg hc, lastNotBracket_cons c _ (cs2_ne_nil d r)]
        exact ih (lastNotBracket_tail c _ h)

theorem collapseNl_ne_nil (c : Char) (r : Str) : collapseNl (c :: r) ≠ [] := by
  by_cases hc : (List.dropWhile isSp (c :: r)).head? = some '\n'
  · rw [collapseNl, dif_pos hc]
    simp
  · rw [collapseNl, dif_neg hc]
    simp

theorem getLast?_suffix_ne_nil (s l : Str) (h : s <:+ l) (hs : s ≠ []) :
    l.getLast? = s.getLast? := by
  obtain ⟨pre, rfl⟩ := h
  induction pre with
  | nil => rfl
  | cons a xs ih =>
    rw [List.cons_append, getLast?_cons_ne_nil a (xs ++ s) (by
      intro he
      rcases List.append_eq_nil.1 he with ⟨-, h2⟩
      exact hs h2), ih]

theorem CNL_pres_lastNB :
    ∀ l : Str, lastNotBracket l = true → lastNotBracket (collapseNl l) = true := by
  intro l
  induction l using collapseNl.induct with
  | case1 =>
    intro h
    rw [collapseNl_nil]
    exact h
  | case2 c rest hnl ih =>
    intro h
    rw [collapseNl, dif_pos hnl]
    rcases hZ : (((c :: rest).dropWhile isSp).tail).dropWhile isSp
      with _ | ⟨z, zs⟩
    · rw [collapseNl_nil]
      decide
    · rw [lastNotBracket_cons '\n' _ (collapseNl_ne_nil z zs)]
      have hs := getLast?_suffix_ne_nil _ _ (collapseNl_arg_suffix c rest)
        (by rw [hZ]; simp)
      have hlz : lastNotBracket (z :: zs) = true := by
        unfold lastNotBracket at h ⊢
        rw [hs, hZ] at h
        exact h
      rw [hZ] at ih
      exact ih hlz
  | case3 c rest hnl ih =>
    intro h
    rw [collapseNl, dif_neg hnl]
    rcases rest with _ | ⟨d, r⟩
    · rw [collapseNl_nil]
      exact h
    · rw [lastNotBracket_cons c _ (collapseNl_ne_nil d r)]
      exact ih (lastNotBracket_tail c _ h)

theorem SB_lastNB : ∀ s : Str, lastNotBracket (spaceBrackets s) = true := by
  intro s
  induction s with
  | nil => rfl
  | cons c r ih =>
    rcases r with _ | ⟨d, r2⟩
    · cases hb : isBracketChar c with
      | true =>
        rw [SB_cons_br c [] hb, SB_nil]
        rfl
      | false =>
        rw [SB_cons_nb c [] hb, SB_nil, lastNotBracket_one]
        simp [hb]
    · cases hb : isBracketChar c with
      | true =>
        rw [SB_cons_br c _ hb,
          lastNotBracket_cons ' ' _ (by simp),
          lastNotBracket_cons c _ (by simp),
          lastNotBracket_cons ' ' _ (SB_ne_nil d r2)]
        exact ih
      | false =>
        rw [SB_cons_nb c _ hb, lastNotBracket_cons c _ (SB_ne_nil d r2)]
        exact ih

theorem SB_headNB : ∀ s : Str, headNotBracket (spaceBrackets s) = true := by
  intro s
  rcases s with _ | ⟨c, r⟩
  · rfl
  · cases hb : isBracketChar c with
    | true =>
      rw [SB_cons_br c r hb, headNotBracket_cons]
      decide
    | false =>
      rw [SB_cons_nb c r hb, headNotBracket_cons]
      simp [hb]

theorem headNB_of_head_eq (x y : Str) (h : y.head? = x.head?)
    (hx : headNotBracket x = true) : headNotBracket y = true := by
  unfold headNotBracket at hx ⊢
  rw [h]
  exact hx

theorem cs2_pres_headNB :
    ∀ l : Str, headNotBracket l = true → headNotBracket (cs2 l) = true := by
  intro l h
  rcases l with _ | ⟨c, r⟩
  · exact h
  · by_cases hc : isSpaceTab c = true
    · rw [cs2_space c hc r, headNotBracket_cons]
      decide
    · have hc2 : isSpaceTab c = false := by
        cases h9 : isSpaceTab c; rfl; exact absurd h9 hc
      rw [cs2_nonspace c r hc2, headNotBracket_cons]
      rw [headNotBracket_cons] at h
      exact h

theorem CNL_pres_headNB :
    ∀ l : Str, headNotBracket l = true → headNotBracket (collapseNl l) = true := by
  intro l h
  rcases l with _ | ⟨c, r⟩
  · rw [collapseNl_nil]
    exact h
  · by_cases hc : (List.dropWhile isSp (c :: r)).head? = some '\n'
    · rw [collapseNl, dif_pos hc, headNotBracket_cons]
      decide
    · rw [collapseNl, dif_neg hc, headNotBracket_cons]
      rw [headNotBracket_cons] at h
      exact h

theorem startDL_cs2_cnl (x : Str) (h : startDotLetter x = false) :
    startDotLetter (collapseNl (cs2 x)) = false := by
  rcases x with _ | ⟨c, rest⟩
  · rw [cs2_nil, collapseNl_nil]
    rfl
  · by_cases hc : isSpaceTab c = true
    · rw [cs2_space c hc rest]
      by_cases hnl : (List.dropWhile isSp
          (' ' :: cs2 (rest.dropWhile isSpaceTab))).head? = some '\n'
      · rw [collapseNl, dif_pos hnl]
        exact startDotLetter_cons_ne '\n' _ (by decide)
      · rw [collapseNl, dif_neg hnl]
        exact startDotLetter_cons_ne ' ' _ (by decide)
    · have hc2 : isSpaceTab c = false := by
        cases h9 : isSpaceTab c; rfl; exact absurd h9 hc
      rw [cs2_nonspace c rest hc2]
      by_cases hdot : c = '.'
      · subst hdot
        rw [collapseNl_cons_nonl '.' _ (by decide) (by decide)]
        rcases hcc : collapseNl (cs2 rest) with _ | ⟨z, zs⟩
        · exact startDotLetter_one '.'
        · rw [startDotLetter_cons_dot]
          rcases collapseNl_head (cs2 rest) with hA | hA
          · rw [hcc] at hA
            have hz : z = '\n' := by simpa using hA
            subst hz
            decide
          · rw [hcc] at hA
            rcases rest with _ | ⟨d, r2⟩
            · rw [cs2_nil] at hA
              simp at hA
            · rw [cs2_head] at hA
              by_cases hd : isSpaceTab d = true
              · have hz : z = ' ' := by simpa [hd] using hA
                subst hz
                decide
              · have hd2 : isSpaceTab d = false := by
                  cases h9 : isSpaceTab d; rfl; exact absurd h9 hd
                have hz : z = d := by simpa [hd2] using hA
                subst hz
                rw [startDotLetter_cons_dot] at h
                exact h
      · by_cases hnl : (List.dropWhile isSp (c :: cs2 rest)).head? = some '\n'
        · rw [collapseNl, dif_pos hnl]
          exact startDotLetter_cons_ne '\n' _ (by decide)
        · rw [collapseNl, dif_neg hnl]
          exact startDotLetter_cons_ne c _ hdot

/-! ## C3 Stage 10: the bracket-spacing engine -/

theorem SB_noMatch3_gen (p : Char → Char → Char → Bool)
    (hmid : ∀ a b c, (b = ' ' ∨ b = '\n' ∨ isBracketChar b = true) →
      p a b c = false)
    (hlast : ∀ a b c, (c = ' ' ∨ c = '\n' ∨ isBracketChar c = true) →
      p a b c = false) :
    ∀ n t, t.length ≤ n → EngInv t → noMatch3 p t = true →
      noMatch3 p (spaceBrackets t) = true := by
  intro n
  induction n with
  | zero =>
    intro t hlen hInv hnm
    have ht : t = [] := List.length_eq_zero.1 (Nat.le_zero.1 hlen)
    subst ht
    rfl
  | succ n ih =>
    intro t hlen hInv hnm
    obtain ⟨h1, h2, h3, h4, h5, h6, h7⟩ := hInv
    rcases t with _ | ⟨a, rest⟩
    · rfl
    rw [headNotBracket_cons] at h7
    have ha : isBracketChar a = false := by
      cases h9 : isBracketChar a; rfl; rw [h9] at h7; exact absurd h7 (by decide)
    rcases rest with _ | ⟨b, r⟩
    · rw [SB_cons_nb a [] ha, SB_nil]
      rfl
    by_cases hbbr : isBracketChar b = true
    · rcases r with _ | ⟨c, r2⟩
      · exfalso
        rw [lastNotBracket_cons_cons, lastNotBracket_one, hbbr] at h6
        exact absurd h6 (by decide)
      · have hpc : c = ' ' ∨ c = '\n' := by
          have hp := noMatch2_first pBrR b c r2 (noMatch2_tail pBrR a _ h4)
          unfold pBrR at hp
          rw [hbbr] at hp
          simp only [Bool.true_and, Bool.not_eq_false', Bool.or_eq_true,
            decide_eq_true_eq] at hp
          exact hp
        rw [SB_cons_nb a _ ha, SB_cons_br b _ hbbr]
        apply noMatch3_cons_of
        · intro x y rr heq
          rcases List.cons.injEq _ _ _ _ ▸ heq with ⟨rfl, heq2⟩
          rcases List.cons.injEq _ _ _ _ ▸ heq2 with ⟨rfl, -⟩
          exact hmid a ' ' b (Or.inl rfl)
        apply noMatch3_cons_of
        · intro x y rr heq
          rcases List.cons.injEq _ _ _ _ ▸ heq with ⟨rfl, -⟩
          exact hmid ' ' b y (Or.inr (Or.inr hbbr))
        apply noMatch3_cons_of
        · intro x y rr heq
          rcases List.cons.injEq _ _ _ _ ▸ heq with ⟨rfl, -⟩
          exact hmid b ' ' y (Or.inl rfl)
        apply noMatch3_cons_of
        · intro x y rr heq
          have hx : (spaceBrackets (c :: r2)).head? = some x := by rw [heq]; rfl
          rw [SB_head] at hx
          have hcnb : isBracketChar c = false := by
            rcases hpc with rfl | rfl <;> decide
          have hxe : x = c := by simpa [hcnb] using hx.symm
          subst hxe
          refine hmid ' ' x y ?_
          rcases hpc with h9 | h9
          · exact Or.inl h9
          · exact Or.inr (Or.inl h9)
        · apply ih (c :: r2)
          · simp only [List.length_cons] at hlen ⊢
            omega
          · refine ⟨noTab_tail b _ (noTab_tail a _ h1),
              noMatch2_tail _ b _ (noMatch2_tail _ a _ h2),
              noMatch2_tail _ b _ (noMatch2_tail _ a _ h3),
              noMatch2_tail _ b _ (noMatch2_tail _ a _ h4),
              noMatch2_tail _ b _ (noMatch2_tail _ a _ h5),
              lastNotBracket_tail b _ (lastNotBracket_tail a _ h6), ?_⟩
            rcases hpc with rfl | rfl
            · rw [headNotBracket_cons]; decide
            · rw [headNotBracket_cons]; decide
          · exact noMatch3_tail p b _ (noMatch3_tail p a _ hnm)
    · have hbnb : isBracketChar b = false := by
        cases h9 : isBracketChar b; rfl; exact absurd h9 hbbr
      rw [SB_cons_nb a _ ha]
      apply noMatch3_cons_of
      · intro x y rr heq
        have hx : (spaceBrackets (b :: r)).head? = some x := by rw [heq]; rfl
        rw [SB_head] at hx
        have hxb : x = b := by simpa [hbnb] using hx.symm
        subst hxb
        rw [SB_cons_nb x r hbnb] at heq
        have heq2 : spaceBrackets r = y :: rr :=
          (List.cons.injEq _ _ _ _ ▸ heq).2
        rcases r with _ | ⟨c, r2⟩
        · rw [SB_nil] at heq2
          exact absurd heq2 (by simp)
        · have hy : (spaceBrackets (c :: r2)).head? = some y := by rw [heq2]; rfl
          rw [SB_head] at hy
          by_cases hcbr : isBracketChar c = true
          · have hye : y = ' ' := by simpa [hcbr] using hy.symm
            subst hye
            exact hlast a x ' ' (Or.inl rfl)
          · have hcnb : isBracketChar c = false := by
              cases h9 : isBracketChar c; rfl; exact absurd h9 hcbr
            have hye : y = c := by simpa [hcnb] using hy.symm
            subst hye
            exact noMatch3_first p a x y r2 hnm
      · apply ih (b :: r)
        · simp only [List.length_cons] at hlen ⊢
          omega
        · exact ⟨noTab_tail a _ h1, noMatch2_tail _ a _ h2,
            noMatch2_tail _ a _ h3, noMatch2_tail _ a _ h4,
            noMatch2_tail _ a _ h5, lastNotBracket_tail a _ h6,
            by rw [headNotBracket_cons, hbnb]; rfl⟩
        · exact noMatch3_tail p a _ hnm

theorem SB_startDL (t : Str) (h : startDotLetter t = false)
    (hh : headNotBracket t = true) :
    startDotLetter (spaceBrackets t) = false := by
  rcases t with _ | ⟨a, rest⟩
  · rfl
  · rw [headNotBracket_cons] at hh
    have ha : isBracketChar a = false := by
      cases h9 : isBracketChar a; rfl; rw [h9] at hh; exact absurd hh (by decide)
    rw [SB_cons_nb a rest ha]
    by_cases hdot : a = '.'
    · subst hdot
      rcases rest with _ | ⟨b, r⟩
      · rw [SB_nil]
        exact startDotLetter_one '.'
      · rw [startDotLetter_cons_dot] at h
        by_cases hbbr : isBracketChar b = true
        · rw [SB_cons_br b r hbbr, startDotLetter_cons_dot]
          decide
        · have hbnb : isBracketChar b = false := by
            cases h9 : isBracketChar b; rfl; exact absurd h9 hbbr
          rw [SB_cons_nb b r hbnb, startDotLetter_cons_dot]
          exact h
    · exact startDotLetter_cons_ne a _ hdot

theorem cs2_SB_eq_nlpad :
    ∀ n t, t.length ≤ n → EngInv t → cs2 (spaceBrackets t) = nlpad t := by
  intro n
  induction n with
  | zero =>
    intro t hlen hInv
    have ht : t = [] := List.length_eq_zero.1 (Nat.le_zero.1 hlen)
    subst ht
    rfl
  | succ n ih =>
    intro t hlen hInv
    obtain ⟨h1, h2, h3, h4, h5, h6, h7⟩ := hInv
    rcases t with _ | ⟨a, rest⟩
    · rfl
    rw [headNotBracket_cons] at h7
    have ha : isBracketChar a = false := by
      cases h9 : isBracketChar a; rfl; rw [h9] at h7; exact absurd h7 (by decide)
    have hat : ¬(a = '\t') := by
      intro he
      subst he
      unfold noTab at h1
      simp at h1
    rcases rest with _ | ⟨b, r⟩
    · rw [SB_cons_nb a [] ha, SB_nil, nlpad_one, cs2_one]
      by_cases hsp : a = ' '
      · subst hsp
        rw [if_pos (by decide)]
      · rw [if_neg (by simp [isSpaceTab, hsp, hat])]
    by_cases hbbr : isBracketChar b = true
    · have hpa : a = ' ' ∨ a = '\n' := by
        have hp := noMatch2_first pBrL a b r h5
        unfold pBrL at hp
        rw [hbbr] at hp
        simp only [Bool.true_and, Bool.not_eq_false', Bool.or_eq_true,
          decide_eq_true_eq] at hp
        exact hp
      rcases r with _ | ⟨c, r2⟩
      · exfalso
        rw [lastNotBracket_cons_cons, lastNotBracket_one, hbbr] at h6
        exact absurd h6 (by decide)
      have hpc : c = ' ' ∨ c = '\n' := by
        have hp := noMatch2_first pBrR b c r2 (noMatch2_tail pBrR a _ h4)
        unfold pBrR at hp
        rw [hbbr] at hp
        simp only [Bool.true_and, Bool.not_eq_false', Bool.or_eq_true,
          decide_eq_true_eq] at hp
        exact hp
      rw [SB_cons_nb a _ ha, SB_cons_br b _ hbbr]
      have hIH : cs2 (spaceBrackets (c :: r2)) = nlpad (c :: r2) := by
        apply ih (c :: r2)
        · simp only [List.length_cons] at hlen ⊢
          omega
        · refine ⟨noTab_tail b _ (noTab_tail a _ h1),
            noMatch2_tail _ b _ (noMatch2_tail _ a _ h2),
            noMatch2_tail _ b _ (noMatch2_tail _ a _ h3),
            noMatch2_tail _ b _ (noMatch2_tail _ a _ h4),
            noMatch2_tail _ b _ (noMatch2_tail _ a _ h5),
            lastNotBracket_tail b _ (lastNotBracket_tail a _ h6), ?_⟩
          rcases hpc with rfl | rfl
          · rw [headNotBracket_cons]; decide
          · rw [headNotBracket_cons]; decide
      have hbsp : isSpaceTab b = false := (bracket_facts b hbbr).2.2.2.2.1
      rcases hpc with rfl | rfl
      · have hcnb : isBracketChar ' ' = false := by decide
        rw [SB_cons_nb ' ' r2 hcnb]
        rcases hpa with rfl | rfl
        · rw [cs2_sp_sp, cs2_sp_ns b _ hbsp, cs2_nonspace b _ hbsp, cs2_sp_sp,
            ← SB_cons_nb ' ' r2 hcnb, hIH]
          rw [nlpad_cons, padBetween_sp_left, nlpad_cons, padBetween_sp_right]
          simp only [List.nil_append]
        · rw [cs2_nonspace '\n' _ (by decide), cs2_sp_ns b _ hbsp,
            cs2_nonspace b _ hbsp, cs2_sp_sp, ← SB_cons_nb ' ' r2 hcnb, hIH]
          rw [nlpad_cons, padBetween_nl_br b hbbr, nlpad_cons,
            padBetween_sp_right]
          simp only [List.nil_append, List.cons_append]
      · have hcnb : isBracketChar '\n' = false := by decide
        rw [SB_cons_nb '\n' r2 hcnb]
        rcases hpa with rfl | rfl
        · rw [cs2_sp_sp, cs2_sp_ns b _ hbsp, cs2_nonspace b _ hbsp,
            cs2_sp_ns '\n' _ (by decide), ← SB_cons_nb '\n' r2 hcnb, hIH]
          rw [nlpad_cons, padBetween_sp_left, nlpad_cons,
            padBetween_br_nl b hbbr]
          simp only [List.nil_append, List.cons_append]
        · rw [cs2_nonspace '\n' _ (by decide), cs2_sp_ns b _ hbsp,
            cs2_nonspace b _ hbsp, cs2_sp_ns '\n' _ (by decide),
            ← SB_cons_nb '\n' r2 hcnb, hIH]
          rw [nlpad_cons, padBetween_nl_br b hbbr, nlpad_cons,
            padBetween_br_nl b hbbr]
          simp only [List.nil_append, List.cons_append]
    · have hbnb : isBracketChar b = false := by
        cases h9 : isBracketChar b; rfl; exact absurd h9 hbbr
      rw [SB_cons_nb a _ ha]
      have hIH : cs2 (spaceBrackets (b :: r)) = nlpad (b :: r) := by
        apply ih (b :: r)
        · simp only [List.length_cons] at hlen ⊢
          omega
        · exact ⟨noTab_tail a _ h1, noMatch2_tail _ a _ h2,
            noMatch2_tail _ a _ h3, noMatch2_tail _ a _ h4,
            noMatch2_tail _ a _ h5, lastNotBracket_tail a _ h6,
            by rw [headNotBracket_cons, hbnb]; rfl⟩
      by_cases hasp : a = ' '
      · subst hasp
        have hbns : ¬(b = ' ') := by
          intro he
          subst he
          have h9 := noMatch2_first pSS ' ' ' ' r h2
          unfold pSS at h9
          simp at h9
        have hbnt : ¬(b = '\t') := by
          intro he
          subst he
          have h9 := noTab_tail ' ' _ h1
          unfold noTab at h9
          simp at h9
        have hbsp : isSpaceTab b = false := by simp [isSpaceTab, hbns, hbnt]
        rw [SB_cons_nb b r hbnb, cs2_sp_ns b _ hbsp, ← SB_cons_nb b r hbnb, hIH]
        rw [nlpad_cons, padBetween_sp_left]
        simp only [List.nil_append]
      · have hasp2 : isSpaceTab a = false := by simp [isSpaceTab, hasp, hat]
        rw [cs2_nonspace a _ hasp2, hIH]
        by_cases hanl : a = '\n'
        · subst hanl
          rw [nlpad_cons, padBetween_nl_nb b hbnb]
          simp only [List.nil_append]
        · rw [nlpad_cons, padBetween_other a b ha hanl]
          simp only [List.nil_append]

/-! ## C3 Stage 11: the newline collapse undoes the padding -/

theorem dropWhile_isSp_of_head (X : Str) (b : Char) (h : X.head? = some b)
    (hb : isSp b = false) : X.dropWhile isSp = X := by
  rcases X with _ | ⟨z, zs⟩
  · rfl
  · have hz : z = b := by simpa using h
    subst hz
    exact dropWhile_isSp_nonsp _ _ hb

theorem collapseNl_nlpad (t : Str)
    (hss : noMatch2 pSS t = true) (hsn : noMatch2 pSnl t = true)
    (hbr : noMatch2 pBrR t = true) (ht : noTab t = true) :
    collapseNl (nlpad t) = t := by
  induction t with
  | nil => exact collapseNl_nil
  | cons a rest ih =>
    rcases rest with _ | ⟨b, r⟩
    · rw [nlpad_one]
      by_cases hanl : a = '\n'
      · subst hanl
        rw [collapseNl_nl]
        simp [List.dropWhile_nil, collapseNl_nil]
      · by_cases hasp : isSp a = true
        · have ha' : a = ' ' := of_decide_eq_true (by simpa [isSp] using hasp)
          subst ha'
          rw [collapseNl_sp_cons_nonl [] (by simp), collapseNl_nil]
        · have has : isSp a = false := by
            cases h9 : isSp a; rfl; exact absurd h9 hasp
          rw [collapseNl_cons_nonl a [] has hanl, collapseNl_nil]
    · have hihb : collapseNl (nlpad (b :: r)) = b :: r :=
        ih (noMatch2_tail _ a _ hss) (noMatch2_tail _ a _ hsn)
          (noMatch2_tail _ a _ hbr) (noTab_tail a _ ht)
      have hheadp : (nlpad (b :: r)).head? = some b := by rw [nlpad_head]; rfl
      by_cases hanl : a = '\n'
      · subst hanl
        by_cases hbbr : isBracketChar b = true
        · rw [nlpad_cons, padBetween_nl_br b hbbr]
          simp only [List.cons_append, List.nil_append]
          rw [collapseNl_nl, dropWhile_isSp_sp,
            dropWhile_isSp_of_head _ b hheadp (bracket_facts b hbbr).2.2.2.2.2,
            hihb]
        · have hbnb : isBracketChar b = false := by
            cases h9 : isBracketChar b; rfl; exact absurd h9 hbbr
          rw [nlpad_cons, padBetween_nl_nb b hbnb, List.nil_append]
          rw [collapseNl_nl]
          have hbns : ¬(b = ' ') := by
            intro he
            subst he
            have h9 := noMatch2_first pSnl '\n' ' ' r hsn
            unfold pSnl at h9
            simp at h9
          rw [dropWhile_isSp_of_head _ b hheadp (by simp [isSp, hbns]), hihb]
      · by_cases habr : isBracketChar a = true
        · have haf := bracket_facts a habr
          have hpb : b = ' ' ∨ b = '\n' := by
            have hp := noMatch2_first pBrR a b r hbr
            unfold pBrR at hp
            rw [habr] at hp
            simp only [Bool.true_and, Bool.not_eq_false', Bool.or_eq_true,
              decide_eq_true_eq] at hp
            exact hp
          rcases hpb with rfl | rfl
          · rw [nlpad_cons, padBetween_sp_right, List.nil_append]
            rw [collapseNl_cons_nonl a _ haf.2.2.2.2.2 haf.2.2.1, hihb]
          · rw [nlpad_cons, padBetween_br_nl a habr]
            simp only [List.cons_append, List.nil_append]
            rw [collapseNl_cons_nonl a _ haf.2.2.2.2.2 haf.2.2.1]
            rw [collapseNl_sp_of_head_nl _ (by rw [nlpad_head]; rfl), hihb]
        · have hanb : isBracketChar a = false := by
            cases h9 : isBracketChar a; rfl; exact absurd h9 habr
          rw [nlpad_cons, padBetween_other a b hanb hanl, List.nil_append]
          by_cases hasp : a = ' '
          · subst hasp
            have hbns : ¬(b = ' ') := by
              intro he
              subst he
              have h9 := noMatch2_first pSS ' ' ' ' r hss
              unfold pSS at h9
              simp at h9
            have hbnn : ¬(b = '\n') := by
              intro he
              subst he
              have h9 := noMatch2_first pSnl ' ' '\n' r hsn
              unfold pSnl at h9
              simp at h9
            have hcond : ¬((nlpad (b :: r)).dropWhile isSp).head? = some '\n' := by
              rw [dropWhile_isSp_of_head _ b hheadp (by simp [isSp, hbns]),
                hheadp]
              simp [hbnn]
            rw [collapseNl_sp_cons_nonl _ hcond, hihb]
          · have has : isSp a = false := by simp [isSp, hasp]
            rw [collapseNl_cons_nonl a _ has hanl, hihb]

/-! ## C3 Stage 12: assembling the invariants and the idempotence -/

theorem SB_out_pBrR : ∀ s : Str, noMatch2 pBrR (spaceBrackets s) = true := by
  intro s
  induction s with
  | nil => rfl
  | cons c r ih =>
    by_cases hb : isBracketChar c = true
    · rw [SB_cons_br c r hb]
      apply noMatch2_cons_of
      · intro b hbx
        simp [pBrR, show isBracketChar ' ' = false from by decide]
      apply noMatch2_cons_of
      · intro b hbx
        have hbs : b = ' ' := by simpa using hbx.symm
        subst hbs
        simp [pBrR]
      apply noMatch2_cons_of
      · intro b hbx
        simp [pBrR, show isBracketChar ' ' = false from by decide]
      · exact ih
    · have hc : isBracketChar c = false := by
        cases h9 : isBracketChar c; rfl; exact absurd h9 hb
      rw [SB_cons_nb c r hc]
      apply noMatch2_cons_of
      · intro b hbx
        simp [pBrR, hc]
      · exact ih

theorem SB_out_pBrL : ∀ s : Str, noMatch2 pBrL (spaceBrackets s) = true := by
  intro s
  induction s with
  | nil => rfl
  | cons c r ih =>
    by_cases hb : isBracketChar c = true
    · rw [SB_cons_br c r hb]
      apply noMatch2_cons_of
      · intro b hbx
        simp [pBrL]
      apply noMatch2_cons_of
      · intro b hbx
        have hbs : b = ' ' := by simpa using hbx.symm
        subst hbs
        simp [pBrL, show isBracketChar ' ' = false from by decide]
      apply noMatch2_cons_of
      · intro b hbx
        simp [pBrL]
      · exact ih
    · have hc : isBracketChar c = false := by
        cases h9 : isBracketChar c; rfl; exact absurd h9 hb
      rw [SB_cons_nb c r hc]
      apply noMatch2_cons_of
      · intro b hbx
        rcases r with _ | ⟨d, r2⟩
        · rw [SB_nil] at hbx
          simp at hbx
        · rw [SB_head] at hbx
          by_cases hd : isBracketChar d = true
          · have hbs : b = ' ' := by simpa [hd] using hbx.symm
            subst hbs
            simp [pBrL, show isBracketChar ' ' = false from by decide]
          · have hd2 : isBracketChar d = false := by
              cases h9 : isBracketChar d; rfl; exact absurd h9 hd
            have hbs : b = d := by simpa [hd2] using hbx.symm
            subst hbs
            simp [pBrL, hd2]
      · exact ih

theorem postNfkc_of_normalized (CC : CharClasses) (t : Str)
    (hN : Normalized CC t) : postNfkc CC t = t := by
  obtain ⟨hsf, hnt, hss, hsn, hbrR, hbrL, hlb, hhb, hdad, hdas, hsdl⟩ := hN
  have hEng : EngInv t := ⟨hnt, hss, hsn, hbrR, hbrL, hlb, hhb⟩
  have hmid_dad : ∀ a b c, (b = ' ' ∨ b = '\n' ∨ isBracketChar b = true) →
      dadCond CC a b c = false := by
    intro a b c hb
    unfold dadCond
    have hbne : ¬(b = '.') := by
      rcases hb with rfl | rfl | hb
      · decide
      · decide
      · exact (bracket_facts b hb).1
    simp [hbne]
  have hlast_dad : ∀ a b c, (c = ' ' ∨ c = '\n' ∨ isBracketChar c = true) →
      dadCond CC a b c = false := by
    intro a b c hcx
    unfold dadCond
    have hcl : isAsciiLetter c = false := by
      rcases hcx with rfl | rfl | hcx
      · decide
      · decide
      · exact (bracket_facts c hcx).2.2.2.1
    simp [hcl]
  have hmid_das : ∀ a b c, (b = ' ' ∨ b = '\n' ∨ isBracketChar b = true) →
      dasCond CC a b c = false := by
    intro a b c hb
    unfold dasCond
    have hbne : ¬(b = '.') := by
      rcases hb with rfl | rfl | hb
      · decide
      · decide
      · exact (bracket_facts b hb).1
    simp [hbne]
  have hlast_das : ∀ a b c, (c = ' ' ∨ c = '\n' ∨ isBracketChar c = true) →
      dasCond CC a b c = false := by
    intro a b c hcx
    unfold dasCond
    have hcl : isAsciiLetter c = false := by
      rcases hcx with rfl | rfl | hcx
      · decide
      · decide
      · exact (bracket_facts c hcx).2.2.2.1
    simp [hcl]
  have hdadSB := SB_noMatch3_gen (dadCond CC) hmid_dad hlast_dad
    t.length t le_rfl hEng hdad
  have hdasSB := SB_noMatch3_gen (dasCond CC) hmid_das hlast_das
    t.length t le_rfl hEng hdas
  have hsdlSB := SB_startDL t hsdl hhb
  rw [postNfkc_decompose, charPhase_id t hsf,
    dotAfterDigit_id CC _ hdadSB, dotAfterSpace_id CC _ hdasSB hsdlSB,
    collapseSpaces_eq_cs2, cs2_SB_eq_nlpad t.length t le_rfl hEng]
  exact collapseNl_nlpad t hss hsn hbrR hnt

theorem postNfkc_out_normalized (CC : CharClasses) (hS : CC.Sane) (s : Str) :
    Normalized CC (postNfkc CC s) := by
  obtain ⟨hrs1, hrs2, hrs3, hrsp, hrdg⟩ := hS
  have hrd_sp : CC.redigit ' ' = false := by
    cases h9 : CC.redigit ' ' with
    | false => rfl
    | true =>
      have h10 := (hrdg ' ' h9).2.2.2
      rw [hrs1] at h10
      exact absurd h10 (by decide)
  have hrd_tab : CC.redigit '\t' = false := by
    cases h9 : CC.redigit '\t' with
    | false => rfl
    | true =>
      have h10 := (hrdg '\t' h9).2.2.2
      rw [hrs2] at h10
      exact absurd h10 (by decide)
  have hrd_nl : CC.redigit '\n' = false := by
    cases h9 : CC.redigit '\n' with
    | false => rfl
    | true =>
      have h10 := (hrdg '\n' h9).2.2.2
      rw [hrs3] at h10
      exact absurd h10 (by decide)
  rw [postNfkc_decompose, collapseSpaces_eq_cs2]
  refine ⟨?_, ?_, ?_, ?_, ?_, ?_, ?_, ?_, ?_, ?_, ?_⟩
  · unfold specialFree
    apply all_of_mem_imp _ (charPhase s)
    · intro c hc
      rcases mem_collapseNl c _ hc with hc1 | rfl
      · rcases mem_cs2 c _ hc1 with ⟨hc2, -⟩ | rfl
        · rcases mem_dotAfterSpace CC c _ hc2 with hc3 | rfl
          · rcases mem_dotAfterDigit CC c _ hc3 with hc4 | rfl
            · rcases mem_spaceBrackets c _ hc4 with hc5 | rfl
              · left
                exact hc5
              · right
                decide
            · right
              decide
          · right
            decide
        · right
          decide
      · right
        decide
    · exact specialFree_charPhase s
  · unfold noTab
    rw [List.all_eq_true]
    intro c hc
    rcases mem_collapseNl c _ hc with hc1 | rfl
    · rcases mem_cs2 c _ hc1 with ⟨-, hst⟩ | rfl
      · simp [(spaceTab_false_facts c hst).2]
      · decide
    · decide
  · exact CNL_pres_noMatch2 pSS (fun a => by simp [pSS])
      (fun b => by simp [pSS]) _ (cs2_out_pSS _)
  · exact CNL_out_pSnl _
  · apply CNL_pres_noMatch2 pBrR (fun a => by simp [pBrR])
      (fun b => by simp [pBrR, show isBracketChar '\n' = false from by decide])
    apply cs2_pres_noMatch2 pBrR (fun x => by simp [pBrR])
      (fun y => by simp [pBrR, show isBracketChar ' ' = false from by decide])
    apply dotAfterSpace_pres_noMatch2 CC pBrR
      (fun c hcl => by
        simp [pBrR, show isBracketChar ' ' = false from by decide])
      (by decide)
    apply dotAfterDigit_pres_noMatch2 CC pBrR
      (fun c hcl => by
        simp [pBrR, show isBracketChar ' ' = false from by decide])
      (by decide)
    exact SB_out_pBrR _
  · apply CNL_pres_noMatch2 pBrL
      (fun a => by simp [pBrL, show isBracketChar '\n' = false from by decide])
      (fun b => by simp [pBrL])
    apply cs2_pres_noMatch2 pBrL
      (fun x => by simp [pBrL, show isBracketChar ' ' = false from by decide])
      (fun y => by simp [pBrL])
    apply dotAfterSpace_pres_noMatch2 CC pBrL
      (fun c hcl => by simp [pBrL, (letter_facts c hcl).2.2])
      (by decide)
    apply dotAfterDigit_pres_noMatch2 CC pBrL
      (fun c hcl => by simp [pBrL, (letter_facts c hcl).2.2])
      (by decide)
    exact SB_out_pBrL _
  · apply CNL_pres_lastNB
    apply cs2_pres_lastNB
    have hx0 := SB_lastNB (charPhase s)
    have h1x : lastNotBracket (dotAfterDigit CC (spaceBrackets (charPhase s)))
        = true := by
      unfold lastNotBracket at hx0 ⊢
      rw [dotAfterDigit_last]
      exact hx0
    unfold lastNotBracket at h1x ⊢
    rw [dotAfterSpace_last]
    exact h1x
  · apply CNL_pres_headNB
    apply cs2_pres_headNB
    apply headNB_of_head_eq _ _ (dotAfterSpace_head CC _)
    apply headNB_of_head_eq _ _ (dotAfterDigit_head CC _)
    exact SB_headNB _
  · apply CNL_pres_noMatch3 (dadCond CC)
      (fun a c => by unfold dadCond; simp)
      (fun a b => by
        unfold dadCond
        simp [show isAsciiLetter '\n' = false from by decide])
      (fun b c => by unfold dadCond; rw [hrd_sp, hrd_nl])
    apply cs2_pres_noMatch3 (dadCond CC)
      (fun r b c hr => by
        have h10 : r = ' ' ∨ r = '\t' := by
          simp only [isSpaceTab, Bool.or_eq_true, decide_eq_true_eq] at hr
          exact hr
        unfold dadCond
        rcases h10 with rfl | rfl
        · rfl
        · rw [hrd_tab, hrd_sp])
      (fun a c => by unfold dadCond; simp)
      (fun a b => by
        unfold dadCond
        simp [show isAsciiLetter ' ' = false from by decide])
    apply dotAfterSpace_pres_noMatch3 CC (dadCond CC)
      (fun a => by
        unfold dadCond
        simp [show isAsciiLetter ' ' = false from by decide])
      (fun c => by unfold dadCond; simp)
      (fun b c hb => by
        unfold dadCond
        rw [isAsciiLetter_not_dot b hb]
        simp)
    exact dotAfterDigit_out_noMatch CC _
  · apply CNL_pres_noMatch3 (dasCond CC)
      (fun a c => by unfold dasCond; simp)
      (fun a b => by
        unfold dasCond
        simp [show isAsciiLetter '\n' = false from by decide])
      (fun b c => by unfold dasCond; rw [hrs1, hrs3])
    apply cs2_pres_noMatch3 (dasCond CC)
      (fun r b c hr => by
        have h10 : r = ' ' ∨ r = '\t' := by
          simp only [isSpaceTab, Bool.or_eq_true, decide_eq_true_eq] at hr
          exact hr
        unfold dasCond
        rcases h10 with rfl | rfl
        · rfl
        · rw [hrs2, hrs1])
      (fun a c => by unfold dasCond; simp)
      (fun a b => by
        unfold dasCond
        simp [show isAsciiLetter ' ' = false from by decide])
    exact dotAfterSpace_out_noMatch CC _
  · exact startDL_cs2_cnl _ (dotAfterSpace_out_start CC _)

theorem postNfkc_idem (CC : CharClasses) (hS : CC.Sane) (s : Str) :
    postNfkc CC (postNfkc CC s) = postNfkc CC s :=
  postNfkc_of_normalized CC (postNfkc CC s) (postNfkc_out_normalized CC hS s)

theorem asciiCC_sane : CharClasses.Sane asciiCC := by
  refine ⟨by decide, by decide, by decide, ?_, ?_⟩
  · intro c hc
    simp only [asciiCC, Bool.or_eq_true, decide_eq_true_eq] at hc
    have hc2 : c = ' ' ∨ c = '\t' ∨ c = '\n' ∨ c = '\r' ∨ c = '\x0b' ∨
        c = '\x0c' := by tauto
    rcases hc2 with rfl | rfl | rfl | rfl | rfl | rfl <;>
      exact ⟨by decide, by decide, by decide⟩
  · intro c hc
    have hd : 48 ≤ c.val ∧ c.val ≤ 57 := by
      simpa [asciiCC, Char.isDigit] using hc
    have hne : c ≠ '.' := by
      intro he
      subst he
      exact absurd hd.1 (by decide)
    have hd9 : c ≤ ('9' : Char) := hd.2
    have hletter : isAsciiLetter c = false := by
      have h1 : decide ('A' ≤ c) = false := by
        apply decide_eq_false
        intro hle
        exact absurd (le_trans hle hd9) (by decide)
      have h3 : decide ('a' ≤ c) = false := by
        apply decide_eq_false
        intro hle
        exact absurd (le_trans hle hd9) (by decide)
      simp [isAsciiLetter, h1, h3]
    have hbr : isBracketChar c = false := by
      cases h9 : isBracketChar c with
      | false => rfl
      | true =>
        rcases bracket_cases c h9 with rfl | rfl | rfl | rfl | rfl | rfl
        · exact absurd hd.2 (by decide)
        · exact absurd hd.2 (by decide)
        · exact absurd hd.1 (by decide)
        · exact absurd hd.1 (by decide)
        · exact absurd hd.2 (by decide)
        · exact absurd hd.2 (by decide)
    have hrs : asciiCC.respace c = false := by
      cases h9 : asciiCC.respace c with
      | false => rfl
      | true =>
        simp only [asciiCC, Bool.or_eq_true, decide_eq_true_eq] at h9
        have h10 : c = ' ' ∨ c = '\t' ∨ c = '\n' ∨ c = '\r' ∨ c = '\x0b' ∨
            c = '\x0c' := by tauto
        rcases h10 with rfl | rfl | rfl | rfl | rfl | rfl <;>
          exact absurd hd.1 (by decide)
    exact ⟨hne, hletter, hbr, hrs⟩

/-- C3: the text normalizer is idempotent: applying `normalize_text` to its
own output returns that output unchanged.  The NFKC step is an external
library call, modelled as the parameter `nfkc`; the hypotheses are the
documented facts about the Python character classes (`CharClasses.Sane`:
space, tab and newline match `\s`, and `\s` and `\d` are disjoint from
period, ASCII letters and brackets) and that NFKC is the identity on the
normalizer's outputs (true of NFKC on NFKC-normal text). -/
theorem normalize_text_idem (nfkc : Str → Str) (CC : CharClasses)
    (hS : CC.Sane)
    (hn : ∀ u, nfkc (postNfkc CC (nfkc u)) = postNfkc CC (nfkc u)) (s : Str) :
    normalize_text nfkc CC (normalize_text nfkc CC s)
      = normalize_text nfkc CC s := by
  unfold normalize_text
  rw [hn s]
  exact postNfkc_idem CC hS (nfkc s)

/-! ## Witnesses -/

theorem normalize_text_idem_witness :
    normalize_text id asciiCC
        (normalize_text id asciiCC "1.A ( x)\n y.".toList)
      = normalize_text id asciiCC "1.A ( x)\n y.".toList :=
  normalize_text_idem id asciiCC asciiCC_sane (fun u => rfl) "1.A ( x)\n y.".toList

theorem cjk_preserved_amended_witness :
    (normalize_text id asciiCC ['あ', '3', '語']).filter cjkKeep
      = (['あ', '3', '語'] : Str).filter cjkKeep :=
  cjk_preserved_amended id asciiCC ['あ', '3', '語'] (fun _ => rfl)

theorem find_difference_presence_diff_witness :
    chasKey (find_difference [("dog".toList, 1)] [("cat".toList, 2)]) "dog".toList
      = (chasKey [("dog".toList, 1)] "dog".toList &&
         !chasKey [("cat".toList, 2)] "dog".toList) :=
  (find_difference_presence_diff [("dog".toList, 1)] [("cat".toList, 2)]
    "dog".toList (by decide)).1

theorem token_filter_trichotomy_witness :
    tokenOutcome asciiCC ⟨"$21".toList, "$21".toList, false, false, false⟩
      = .skipped ("$21".toList) ("currency_amount".toList) :=
  ((token_filter_trichotomy asciiCC).2.2
    ⟨"$21".toList, "$21".toList, false, false, false⟩ ("$21".toList)
    ("currency_amount".toList)).2 ⟨by decide, by decide, by decide⟩

theorem defensive_drop_unreachable_witness :
    (asciiCC.lower "cats".toList).isEmpty = false ∧
    (asciiCC.lower "cats".toList).any (pyIsAlnum asciiCC) = true ∧
    tokenOutcome asciiCC ⟨"cats".toList, "cats".toList, false, false, false⟩
      = .counted (asciiCC.lower "cats".toList) :=
  defensive_drop_unreachable asciiCC
    ⟨"cats".toList, "cats".toList, false, false, false⟩
    (by decide) (by decide) (by decide) (by decide)

theorem all_counts_positive_witness :
    1 ≤ (("cat".toList, 1) : Str × Nat).2 :=
  (all_counts_positive asciiCC
    [⟨"cats".toList, "cat".toList, false, false, false⟩] []).1
    ("cat".toList, 1) (by decide)

theorem main_all_or_nothing_amended_witness :
    (mainModel asciiCC id envAllOk).written.map Prod.fst = outputFileNames :=
  (main_all_or_nothing_amended asciiCC id envAllOk).2.1 (by decide)

theorem main_writes_all_five_witness :
    (mainModel asciiCC id envAllOk).written.map Prod.fst = outputFileNames ∧
    outputFileNames.length = 5 :=
  main_writes_all_five asciiCC id envAllOk (by decide)

end LemmatizeComp
